import Mathlib

/-!
# dbk: a single-host backup orchestrator (`main.go`)

A shallow embedding of `main.go` and proofs about it.

* The Go standard-library functions the program calls on strings
  (`strings.TrimSpace`, `path.Clean`, `path.Join`, `filepath.Join`,
  `time.Time.Format`) are modelled as pure functions.
* Every interaction with the operating system (`os.Stat`, `os.MkdirAll`,
  `os.Create`, `exec.Cmd.Run`, `os.Chmod`, `os.ReadDir`, `os.Remove`) goes
  through an environment record whose answers are arbitrary; each call is
  appended to a trace of events, so that "is invoked", "is never launched",
  "before" and "after" are statements about that trace.
* `time.Now()` is a reading of the realtime clock and of the offset of the
  local time zone (`time.Clock`); the calendar fields that `Format` writes are
  computed from it as `absDate` and `absClock` of package `time` do.
* For the cleanup routine a concrete directory-tree model of the file system
  instantiates the file-system part of the environment: a finite tree of
  directories and non-directories, in which chosen list and remove calls can
  be made to fail with a chosen error. Path strings are resolved element by
  element; relative paths are resolved from the root. In `Tree.fileSys` no
  node is a symbolic link; in `Linked.fileSys` some of the non-directories are
  symbolic links, which path resolution follows as the kernel does.
* The recursion of `removeAllContents` is bounded by a fuel argument; the
  results about the tree hold for every fuel above the depth of the tree.
* Logging (`log.Printf`, `log.Println`) has no influence on control flow or on
  the file system and is not modelled; `log.Fatalln` ends the run with the
  outcome `Outcome.fatal`.
-/

namespace Dbk

/-! ## Go errors -/

/-- A Go `error` value, represented by its message (`err.Error()`). -/
abbrev GoError := String

/-! ## `unicode.IsSpace` and `strings.TrimSpace` -/

namespace unicode

/-- Go's `unicode.IsSpace`: the Unicode White_Space property. -/
def IsSpace (c : Char) : Bool :=
  c = '\t' || c = '\n' || c = Char.ofNat 0x0B || c = Char.ofNat 0x0C || c = '\r' || c = ' '
    || c = Char.ofNat 0x85 || c = Char.ofNat 0xA0 || c = Char.ofNat 0x1680
    || (0x2000 ≤ c.toNat && c.toNat ≤ 0x200A)
    || c = Char.ofNat 0x2028 || c = Char.ofNat 0x2029 || c = Char.ofNat 0x202F
    || c = Char.ofNat 0x205F || c = Char.ofNat 0x3000

end unicode

namespace strings

/-- Go's `strings.TrimSpace`: the string without its leading and trailing
white space. -/
def TrimSpace (s : String) : String :=
  String.mk ((s.data.dropWhile unicode.IsSpace).reverse.dropWhile unicode.IsSpace).reverse

end strings

/-! ## `path.Clean`, `path.Join`, `filepath.Join` -/

namespace path

/-- The pieces of a byte string between its `/` separators (never the empty list). -/
def splitChars : List Char → List (List Char)
  | [] => [[]]
  | c :: cs =>
    if c = '/' then [] :: splitChars cs
    else
      match splitChars cs with
      | [] => [[c]]
      | h :: t => (c :: h) :: t

/-- The path elements of `p`: the strings between its `/` separators. -/
def components (p : String) : List String :=
  (splitChars p.data).map String.mk

/-- The elements joined with single `/` separators. -/
def joinSlash : List String → String
  | [] => ""
  | [a] => a
  | a :: b :: rest => a ++ "/" ++ joinSlash (b :: rest)

/-- The output buffer of `Clean` read as path elements: `ups` leading `..`
elements that could not be cancelled, then the ordinary elements, the most
recent one first. -/
structure Lex where
  ups : Nat
  names : List String
  deriving DecidableEq, Repr

/-- One iteration of the loop of `Clean` on the next path element:
an empty element or `.` is dropped; `..` removes the last ordinary element
when there is one, is dropped at the root of a rooted path, and is kept
otherwise; any other element is appended. -/
def cleanStep (rooted : Bool) (st : Lex) (c : String) : Lex :=
  if c = "" ∨ c = "." then st
  else if c = ".." then
    match st.names with
    | _ :: rest => { st with names := rest }
    | [] => if rooted then st else { st with ups := st.ups + 1 }
  else { st with names := c :: st.names }

/-- Whether the path starts with `/`. -/
def isRooted (p : String) : Bool :=
  p.data.head? = some '/'

/-- The state of the output buffer of `Clean` after the whole path is read. -/
def lexical (p : String) : Lex :=
  (components p).foldl (cleanStep (isRooted p)) ⟨0, []⟩

/-- The string held by the output buffer of `Clean`. -/
def render (rooted : Bool) (st : Lex) : String :=
  if rooted then "/" ++ joinSlash st.names.reverse
  else
    match List.replicate st.ups ".." ++ st.names.reverse with
    | [] => "."
    | cs => joinSlash cs

/-- Go's `path.Clean` (and, on Unix, `filepath.Clean`): the shortest path
equivalent to `p` by purely lexical processing. -/
def Clean (p : String) : String :=
  if p = "" then "." else render (isRooted p) (lexical p)

/-- Go's `path.Join`: the non-empty elements joined with `/`, then cleaned;
the empty string when all elements are empty. -/
def Join (elem : List String) : String :=
  match elem.filter (fun e => e ≠ "") with
  | [] => ""
  | es => Clean (joinSlash es)

/-- The ordinary elements of the cleaned path, in order. -/
def parts (p : String) : List String :=
  (lexical p).names.reverse

/-- Two paths start at the same place: both rooted or both relative with the
same number of leading `..` elements. -/
def SameBase (p q : String) : Prop :=
  isRooted p = isRooted q ∧ (lexical p).ups = (lexical q).ups

instance (p q : String) : Decidable (SameBase p q) := by
  unfold SameBase; infer_instance

end path

namespace filepath

/-- Go's `filepath.Join` on Unix: from the first non-empty element on, the
elements are joined with `/` and the result is cleaned. -/
def Join (elem : List String) : String :=
  match elem.dropWhile (fun e => e = "") with
  | [] => ""
  | es => path.Clean (path.joinSlash es)

end filepath

/-! ## `time.Now().Format("20060102_150405")` -/

/-- The calendar fields of a `time.Time` that `Format` reads
(`t.Date()` and `t.Clock()`). -/
structure Time where
  year : Int
  month : Nat
  day : Nat
  hour : Nat
  minute : Nat
  second : Nat
  deriving DecidableEq, Repr

/-- The ranges of the fields returned by `Date` and `Clock`. -/
def Time.Valid (t : Time) : Prop :=
  1 ≤ t.month ∧ t.month ≤ 12 ∧ 1 ≤ t.day ∧ t.day ≤ 31 ∧
    t.hour ≤ 23 ∧ t.minute ≤ 59 ∧ t.second ≤ 59

instance (t : Time) : Decidable t.Valid := by
  unfold Time.Valid; infer_instance

/-- The decimal digit character of `d % 10`. -/
def digitChar (d : Nat) : Char :=
  Char.ofNat (48 + d % 10)

/-- The decimal digits of `u`, most significant first, by repeated division
(`fuel` bounds the number of digits). -/
def utod : Nat → Nat → List Char → List Char
  | 0, _, acc => acc
  | fuel + 1, u, acc =>
    if u < 10 then digitChar u :: acc else utod fuel (u / 10) (digitChar u :: acc)

/-- Go's `time.appendInt`: the decimal form of `x`, a `-` sign first when
negative, padded with leading zeros to at least `width` digits. -/
def appendInt (b : List Char) (x : Int) (width : Nat) : List Char :=
  let u := x.natAbs
  let b := if x < 0 then b ++ ['-'] else b
  if width = 2 ∧ u < 100 then b ++ [digitChar (u / 10), digitChar u]
  else if width = 4 ∧ u < 10000 then
    b ++ [digitChar (u / 1000), digitChar (u / 100), digitChar (u / 10), digitChar u]
  else
    let ds := utod (u + 1) u []
    b ++ List.replicate (width - ds.length) '0' ++ ds

/-- The chunks of the layout `"20060102_150405"` as `Format` reads it:
`2006` (year, four digits), `01` (month, two digits), `02` (day, two digits),
the literal `_` (not followed by `2`, hence plain text), `15` (hour, 24-hour
clock, two digits), `04` (minute), `05` (second). -/
def format20060102_150405 (t : Time) : String :=
  let b := appendInt [] t.year 4
  let b := appendInt b t.month 2
  let b := appendInt b t.day 2
  let b := b ++ ['_']
  let b := appendInt b t.hour 2
  let b := appendInt b t.minute 2
  let b := appendInt b t.second 2
  String.mk b

/-- `getCurrentTimestamp` of `main.go`, with the value of `time.Now()` as its
argument. -/
def getCurrentTimestamp (now : Time) : String :=
  format20060102_150405 now

/-- The characters `Format` can write for the layout: digits, a sign, and the
literal `_`. -/
def stampChar (c : Char) : Prop :=
  c.isDigit = true ∨ c = '-' ∨ c = '_'

/-! ## `time.Now()` -/

namespace time

def secondsPerMinute : Nat := 60

def secondsPerHour : Nat := 60 * secondsPerMinute

def secondsPerDay : Nat := 24 * secondsPerHour

def daysPer400Years : Nat := 365 * 400 + 97

def daysPer100Years : Nat := 365 * 100 + 24

def daysPer4Years : Nat := 365 * 4 + 1

/-- The year of the zero of the absolute time scale of package `time`. -/
def absoluteZeroYear : Int := -292277022399

/-- The year of the zero of the internal time scale. -/
def internalYear : Int := 1

/-- The constant `absoluteToInternal`,
`(absoluteZeroYear - internalYear) * 365.2425 * secondsPerDay`;
`365.2425 * secondsPerDay` is the integer `31556952`. -/
def absoluteToInternal : Int := (absoluteZeroYear - internalYear) * 31556952

def internalToAbsolute : Int := -absoluteToInternal

def unixToInternal : Int := (1969 * 365 + 1969 / 4 - 1969 / 100 + 1969 / 400) * secondsPerDay

/-- Go's `isLeap`. -/
def isLeap (year : Int) : Bool :=
  year % 4 = 0 && (year % 100 ≠ 0 || year % 400 = 0)

/-- The table `daysBefore`: the number of days in a non-leap year before the
month of index `m` starts. -/
def daysBefore : List Nat :=
  [0,
   31,
   31 + 28,
   31 + 28 + 31,
   31 + 28 + 31 + 30,
   31 + 28 + 31 + 30 + 31,
   31 + 28 + 31 + 30 + 31 + 30,
   31 + 28 + 31 + 30 + 31 + 30 + 31,
   31 + 28 + 31 + 30 + 31 + 30 + 31 + 31,
   31 + 28 + 31 + 30 + 31 + 30 + 31 + 31 + 30,
   31 + 28 + 31 + 30 + 31 + 30 + 31 + 31 + 30 + 31,
   31 + 28 + 31 + 30 + 31 + 30 + 31 + 31 + 30 + 31 + 30,
   31 + 28 + 31 + 30 + 31 + 30 + 31 + 31 + 30 + 31 + 30 + 31]

/-- Go's `absDate(abs, true)` (package `time`, as in the releases up to Go
1.22): the year, the month and the day of the month of an absolute time in
seconds. The arithmetic is that of `uint64`; no subtraction goes below
zero. -/
def absDate (abs : Nat) : Int × Nat × Nat :=
  -- Split into time and day.
  let d := abs / secondsPerDay
  -- Account for 400 year cycles.
  let n := d / daysPer400Years
  let y := 400 * n
  let d := d - daysPer400Years * n
  -- Cut off 100-year cycles.
  let n := d / daysPer100Years
  let n := n - n >>> 2
  let y := y + 100 * n
  let d := d - daysPer100Years * n
  -- Cut off 4-year cycles.
  let n := d / daysPer4Years
  let y := y + 4 * n
  let d := d - daysPer4Years * n
  -- Cut off years within a 4-year cycle.
  let n := d / 365
  let n := n - n >>> 2
  let y := y + n
  let d := d - 365 * n
  let year : Int := (y : Int) + absoluteZeroYear
  let day := d
  if isLeap year ∧ day = 31 + 29 - 1 then
    -- Leap day.
    (year, 2, 29)
  else
    -- After leap day; pretend it wasn't there.
    let day := if isLeap year ∧ day > 31 + 29 - 1 then day - 1 else day
    -- Estimate month on assumption that every month has 31 days.
    let month := day / 31
    let endDay := daysBefore.getD (month + 1) 0
    if day ≥ endDay then (year, month + 1 + 1, day - endDay + 1)
    else (year, month + 1, day - daysBefore.getD month 0 + 1)

/-- Go's `absClock`: the hour, minute and second within the day. -/
def absClock (abs : Nat) : Nat × Nat × Nat :=
  let sec := abs % secondsPerDay
  let hour := sec / secondsPerHour
  let sec := sec - hour * secondsPerHour
  let min := sec / secondsPerMinute
  let sec := sec - min * secondsPerMinute
  (hour, min, sec)

/-- What `time.Now()` reads. `unixNano` is the realtime clock: the kernel
keeps it as a signed 64-bit count of nanoseconds since 1970-01-01 00:00:00
UTC. `offset` is the offset of the local time zone east of UTC in effect at
that instant, in seconds: a signed 32-bit number in the time-zone data. -/
structure Clock where
  unixNano : Int
  offset : Int
  unixNano_int64 : -2 ^ 63 ≤ unixNano ∧ unixNano < 2 ^ 63
  offset_int32 : -2 ^ 31 ≤ offset ∧ offset < 2 ^ 31

/-- Go's `Time.abs` for the value of `time.Now()`: the seconds read from the
clock, adjusted by the zone offset, on the absolute time scale (`uint64`). -/
def Clock.abs (c : Clock) : Nat :=
  ((c.unixNano / 1000000000 + c.offset + (unixToInternal + internalToAbsolute)) % 2 ^ 64).toNat

/-- The calendar fields of the value of `time.Now()`, as `Format` computes
them (`absDate` and `absClock` of `t.abs()`). -/
def Now (c : Clock) : Time :=
  let date := absDate c.abs
  let clock := absClock c.abs
  ⟨date.1, date.2.1, date.2.2, clock.1, clock.2.1, clock.2.2⟩

/-- The clock at 2024-01-02 03:04:05 UTC, local zone UTC. -/
def exampleClock : Clock :=
  ⟨1704164645000000000, 0, by decide, by decide⟩

end time

/-! ## Configuration (`config.yaml`) -/

structure MysqlConfig where
  User : String
  Password : String
  Host : String
  Port : String
  Name : String
  deriving DecidableEq, Repr

structure FileConfig where
  Path : String
  deriving DecidableEq, Repr

structure LocalConfig where
  Dir : String
  deriving DecidableEq, Repr

structure RemoteConfig where
  Host : String
  User : String
  Password : String
  PrivateKey : String
  Dir : String
  deriving DecidableEq, Repr

structure Config where
  Mysql : MysqlConfig
  Local : LocalConfig
  Remote : RemoteConfig
  File : FileConfig
  deriving DecidableEq, Repr

/-! ## The operating system as an environment, and the trace of calls -/

/-- An `exec.Cmd`: the program, its arguments, and the file its standard
output is bound to (`none`: discarded). -/
structure Cmd where
  name : String
  args : List String
  stdout : Option String
  deriving DecidableEq, Repr

/-- What `os.Stat` reports: no error, an error for which `os.IsNotExist` is
true, or any other error. -/
inductive StatResult where
  | found
  | notExist
  | otherError (err : GoError)
  deriving DecidableEq, Repr

/-- An `os.DirEntry` as far as the program reads it. -/
structure DirEntry where
  name : String
  isDir : Bool
  deriving DecidableEq, Repr

/-- One call to the operating system, with its outcome (`none`: no error). -/
inductive Event where
  | stat (path : String) (res : StatResult)
  | mkdirAll (path : String) (err : Option GoError)
  | create (path : String) (err : Option GoError)
  | close (path : String)
  | run (cmd : Cmd) (err : Option GoError)
  | chmod (path : String) (err : Option GoError)
  | readDir (path : String) (err : Option GoError)
  | remove (path : String) (err : Option GoError)
  deriving DecidableEq, Repr

/-- The file-system calls of the cleanup routine. Their answers may depend on
a state `σ` of the outside world, which every call may change. -/
structure FileSys (σ : Type) where
  readDir : σ → String → Except GoError (List DirEntry) × σ
  remove : σ → String → Option GoError × σ

/-- All calls the program makes; `run` is `exec.Cmd.Run` (the error covers
both "cannot be launched" and "exits non-zero"). -/
structure Env (σ : Type) extends FileSys σ where
  stat : σ → String → StatResult × σ
  mkdirAll : σ → String → Option GoError × σ
  create : σ → String → Option GoError × σ
  run : σ → Cmd → Option GoError × σ
  chmod : σ → String → Option GoError × σ

/-- The state of the outside world together with the calls made so far, the
oldest first. -/
structure World (σ : Type) where
  st : σ
  trace : List Event

variable {σ : Type}

def osStat (env : Env σ) (w : World σ) (p : String) : StatResult × World σ :=
  let r := env.stat w.st p
  (r.1, ⟨r.2, w.trace ++ [Event.stat p r.1]⟩)

def osMkdirAll (env : Env σ) (w : World σ) (p : String) : Option GoError × World σ :=
  let r := env.mkdirAll w.st p
  (r.1, ⟨r.2, w.trace ++ [Event.mkdirAll p r.1]⟩)

def osCreate (env : Env σ) (w : World σ) (p : String) : Option GoError × World σ :=
  let r := env.create w.st p
  (r.1, ⟨r.2, w.trace ++ [Event.create p r.1]⟩)

def fileClose (w : World σ) (p : String) : World σ :=
  ⟨w.st, w.trace ++ [Event.close p]⟩

def cmdRun (env : Env σ) (w : World σ) (cmd : Cmd) : Option GoError × World σ :=
  let r := env.run w.st cmd
  (r.1, ⟨r.2, w.trace ++ [Event.run cmd r.1]⟩)

def osChmod (env : Env σ) (w : World σ) (p : String) : Option GoError × World σ :=
  let r := env.chmod w.st p
  (r.1, ⟨r.2, w.trace ++ [Event.chmod p r.1]⟩)

/-- The error of a result, if any. -/
def errorOf {α : Type} : Except GoError α → Option GoError
  | .error e => some e
  | .ok _ => none

def osReadDir (fs : FileSys σ) (w : World σ) (p : String) :
    Except GoError (List DirEntry) × World σ :=
  let r := fs.readDir w.st p
  (r.1, ⟨r.2, w.trace ++ [Event.readDir p (errorOf r.1)]⟩)

def osRemove (fs : FileSys σ) (w : World σ) (p : String) : Option GoError × World σ :=
  let r := fs.remove w.st p
  (r.1, ⟨r.2, w.trace ++ [Event.remove p r.1]⟩)

/-! ## The functions of `main.go` -/

/-- `createPath`: `some msg` when `log.Fatalf` ends the process. -/
def createPath (env : Env σ) (w : World σ) (p : String) : Option String × World σ :=
  match osStat env w p with
  | (StatResult.notExist, w1) =>
    match osMkdirAll env w1 p with
    | (some err, w2) => (some ("error:" ++ err ++ "\n"), w2)
    | (none, w2) => (none, w2)
  | (_, w1) => (none, w1)

/-- The command built by `backupMysql`, before its standard output is bound. -/
def mysqldumpCmd (mysqlConfig : MysqlConfig) : Cmd :=
  let argsCmd := [
    "-h" ++ mysqlConfig.Host,
    "-P" ++ mysqlConfig.Port,
    "-u" ++ mysqlConfig.User,
    "-p" ++ mysqlConfig.Password,
    mysqlConfig.Name]
  ⟨"mysqldump", argsCmd, none⟩

def backupMysql (env : Env σ) (w : World σ) (mysqlConfig : MysqlConfig) (backupDir : String) :
    Option GoError × World σ :=
  let fileName := mysqlConfig.Name ++ ".sql"
  let outputPath := path.Join [backupDir, fileName]
  let cmd := mysqldumpCmd mysqlConfig
  match osCreate env w outputPath with
  | (some err, w1) => (some ("Failed to create the output file: " ++ err), w1)
  | (none, w1) =>
    -- `defer file.Close()` runs when the function returns, on either path
    let cmd := { cmd with stdout := some outputPath }
    match cmdRun env w1 cmd with
    | (some err, w2) =>
      (some ("mysqldump Command execution failed: " ++ err), fileClose w2 outputPath)
    | (none, w2) => (none, fileClose w2 outputPath)

def backupFile (env : Env σ) (w : World σ) (fileConfig : FileConfig) (backupDir : String) :
    Option GoError × World σ :=
  match osStat env w fileConfig.Path with
  | (StatResult.notExist, w1) =>
    (some ("directory does not exist: " ++ fileConfig.Path), w1)
  | (_, w1) =>
    let cmd : Cmd := ⟨"rsync", ["-a", fileConfig.Path, backupDir], none⟩
    match cmdRun env w1 cmd with
    | (some err, w2) => (some ("failed to create backup: " ++ err), w2)
    | (none, w2) => (none, w2)

def CompressingDir (env : Env σ) (w : World σ) (tarFilePath : String) (compressPath : String) :
    Option GoError × World σ :=
  let cmd : Cmd := ⟨"tar", ["-czf", tarFilePath, "-C", compressPath, "."], none⟩
  match cmdRun env w cmd with
  | (some err, w1) => (some ("Failed compression directory: " ++ err), w1)
  | (none, w1) =>
    match osChmod env w1 tarFilePath with
    | (some err, w2) => (some ("Failure to raise rights: " ++ err), w2)
    | (none, w2) => (none, w2)

/-- The destination `fmt.Sprintf("%s@%s:%s", User, Host, Dir)`. -/
def destination (remoteConfig : RemoteConfig) : String :=
  remoteConfig.User ++ "@" ++ remoteConfig.Host ++ ":" ++ remoteConfig.Dir

/-- The command launched by `remoteSyncForUser`. -/
def userSyncCmd (remoteConfig : RemoteConfig) (backupPath : String) : Cmd :=
  let rsyncArgs := ["-p", remoteConfig.Password, "rsync", "-av"]
  let rsyncArgs := rsyncArgs ++ [backupPath]
  let rsyncArgs := rsyncArgs ++ [destination remoteConfig]
  ⟨"sshpass", rsyncArgs, none⟩

def remoteSyncForUser (env : Env σ) (w : World σ) (remoteConfig : RemoteConfig)
    (backupPath : String) : Option GoError × World σ :=
  match cmdRun env w (userSyncCmd remoteConfig backupPath) with
  | (some err, w1) => (some ("failed to sync files to remote host: " ++ err), w1)
  | (none, w1) => (none, w1)

/-- The command launched by `remoteSyncForRSA`. -/
def rsaSyncCmd (remoteConfig : RemoteConfig) (backupPath : String) : Cmd :=
  let rsyncArgs := ["-avz", "-e", "ssh -i " ++ remoteConfig.PrivateKey]
  let rsyncArgs := rsyncArgs ++ [backupPath]
  let rsyncArgs := rsyncArgs ++ [destination remoteConfig]
  ⟨"rsync", rsyncArgs, none⟩

def remoteSyncForRSA (env : Env σ) (w : World σ) (remoteConfig : RemoteConfig)
    (backupPath : String) : Option GoError × World σ :=
  match cmdRun env w (rsaSyncCmd remoteConfig backupPath) with
  | (some err, w1) => (some ("failed to sync files to remote host: " ++ err), w1)
  | (none, w1) => (none, w1)

/-- How a call of `removeAllContents` ends: it returns `nil`, it returns an
error, or (in the model only) the recursion is deeper than the fuel given. -/
inductive Ret where
  | nil
  | error (err : GoError)
  | noFuel
  deriving DecidableEq, Repr

/-- The `for _, entry := range entries` loop of `removeAllContents`;
`recurse` is the recursive call. -/
def removeEntries (fs : FileSys σ) (recurse : World σ → String → Ret × World σ)
    (dirPath : String) : List DirEntry → World σ → Ret × World σ
  | [], w => (Ret.nil, w)
  | entry :: rest, w =>
    let entryPath := filepath.Join [dirPath, entry.name]
    if entry.isDir then
      match recurse w entryPath with
      | (Ret.nil, w1) =>
        match osRemove fs w1 entryPath with
        | (some err, w2) => (Ret.error err, w2)
        | (none, w2) => removeEntries fs recurse dirPath rest w2
      | (r, w1) => (r, w1)
    else
      match osRemove fs w entryPath with
      | (some err, w1) => (Ret.error err, w1)
      | (none, w1) => removeEntries fs recurse dirPath rest w1

/-- `removeAllContents`; `fuel` bounds the depth of the recursion. -/
def removeAllContents (fs : FileSys σ) : Nat → World σ → String → Ret × World σ
  | 0, w, _ => (Ret.noFuel, w)
  | fuel + 1, w, dirPath =>
    match osReadDir fs w dirPath with
    | (.error err, w1) => (Ret.error err, w1)
    | (.ok entries, w1) => removeEntries fs (removeAllContents fs fuel) dirPath entries w1

/-- How the process ends: `run` returns (exit status 0), `log.Fatalln` or
`log.Fatalf` ends it, or (in the model only) the cleanup ran out of fuel. -/
inductive Outcome where
  | success
  | fatal (msg : String)
  | noFuel
  deriving DecidableEq, Repr

/-- The end of `run` after `removeAllContents(config.Local.Dir)`, whose
returned error is discarded. -/
def afterCleanup (r : Ret × World σ) : Outcome × World σ :=
  match r with
  | (Ret.noFuel, w) => (Outcome.noFuel, w)
  | (_, w) => (Outcome.success, w)

/-- `run`, with the loaded configuration (`getConfig()`) and the value of
`time.Now()` as arguments; `fuel` bounds the recursion depth of the cleanup. -/
def run (env : Env σ) (fuel : Nat) (w : World σ) (config : Config) (now : Time) :
    Outcome × World σ :=
  let timestamp := getCurrentTimestamp now
  let localDir := path.Join [config.Local.Dir, timestamp]
  match createPath env w localDir with
  | (some msg, w1) => (Outcome.fatal msg, w1)
  | (none, w1) =>
    match backupMysql env w1 config.Mysql localDir with
    | (some err, w2) => (Outcome.fatal err, w2)
    | (none, w2) =>
      match backupFile env w2 config.File localDir with
      | (some err, w3) => (Outcome.fatal err, w3)
      | (none, w3) =>
        let tarFile := path.Join [config.Local.Dir, timestamp ++ ".tar.gz"]
        -- the error returned by `CompressingDir` is not looked at
        let w4 := (CompressingDir env w3 tarFile localDir).2
        if strings.TrimSpace config.Remote.PrivateKey ≠ "" then
          match remoteSyncForRSA env w4 config.Remote tarFile with
          | (some err, w5) => (Outcome.fatal err, w5)
          | (none, w5) =>
            afterCleanup (removeAllContents env.toFileSys fuel w5 config.Local.Dir)
        else if strings.TrimSpace config.Remote.User ≠ "" then
          match remoteSyncForUser env w4 config.Remote tarFile with
          | (some err, w5) => (Outcome.fatal err, w5)
          | (none, w5) =>
            afterCleanup (removeAllContents env.toFileSys fuel w5 config.Local.Dir)
        else (Outcome.success, w4)

/-! ## A directory tree as the file system of the cleanup -/

namespace Tree

/-- The position of a node: the names on the way from the root to it. -/
abbrev Pos := List String

/-- The nodes of a file system: every node other than the root with its
position and whether it is a directory. The root (position `[]`) is a
directory and is not listed. -/
abbrev FS := List (Pos × Bool)

/-- The first listed node at position `q`. -/
def find : FS → Pos → Option Bool
  | [], _ => none
  | e :: s, q => if e.1 = q then some e.2 else find s q

/-- What is at position `q`: nothing, a non-directory (`false`) or a
directory (`true`). -/
def lookup (s : FS) (q : Pos) : Option Bool :=
  if q = [] then some true else find s q

def isDirAt (s : FS) (q : Pos) : Bool :=
  lookup s q = some true

/-- A name a directory entry can have. -/
def ValidName (n : String) : Prop :=
  n ≠ "" ∧ n ≠ "." ∧ n ≠ ".." ∧ '/' ∉ n.data

instance (n : String) : Decidable (ValidName n) := by
  unfold ValidName; infer_instance

/-- Well-formed trees: no position is listed twice, every name is a valid
entry name, and every node lies in a directory. -/
def WF (s : FS) : Prop :=
  (s.map Prod.fst).Nodup ∧
    ∀ e ∈ s, e.1 ≠ [] ∧ (∀ n ∈ e.1, ValidName n) ∧ isDirAt s e.1.dropLast = true

instance (s : FS) : Decidable (WF s) := by
  unfold WF; infer_instance

/-- Path resolution, one element at a time, from the position `cur` (its names
in reverse order): an element can only be looked up in a directory; then the
empty element and `.` stay, `..` goes to the parent (the root is its own
parent), and a name goes to the entry of that name, whether it exists or not. -/
def walk (s : FS) : List String → List String → Option (List String)
  | [], cur => some cur
  | c :: cs, cur =>
    if isDirAt s cur.reverse then walk s cs (path.cleanStep true ⟨0, cur⟩ c).names
    else none

/-- The position a path string denotes, if the directories on the way exist.
Relative paths are resolved from the root: the working directory of the
process is taken to be `/`. The empty path denotes nothing. -/
def resolve (s : FS) (p : String) : Option Pos :=
  if p = "" then none else (walk s (path.components p) []).map List.reverse

/-- The entry of `q` that the node `e` is, if it lies directly in `q`. -/
def entryIn (q : Pos) (e : Pos × Bool) : Option DirEntry :=
  match e.1.getLast? with
  | some n => if e.1.dropLast = q then some ⟨n, e.2⟩ else none
  | none => none

/-- The order of `os.ReadDir`: by file name (byte-wise). -/
def nameLE (a b : DirEntry) : Prop :=
  ¬ b.name.data < a.name.data

instance : DecidableRel nameLE := by
  intro a b; unfold nameLE; infer_instance

/-- The entries of the directory at `q`, sorted by file name. -/
def children (s : FS) (q : Pos) : List DirEntry :=
  (s.filterMap (entryIn q)).insertionSort nameLE

/-- Whether the position `k` lies strictly below `q`. -/
def strictlyBelow (q k : Pos) : Bool :=
  decide (q <+: k ∧ k ≠ q)

/-- Whether the position `k` is `c` or lies below it. -/
def under (c k : Pos) : Bool :=
  decide (c <+: k)

/-- Whether some node lies strictly below `q`. -/
def hasBelow (s : FS) (q : Pos) : Bool :=
  s.any (fun e => strictlyBelow q e.1)

/-- The tree without the nodes strictly below `q`. -/
def withoutBelow (s : FS) (q : Pos) : FS :=
  s.filter (fun e => !strictlyBelow q e.1)

/-- The file-system calls that can be made to fail from outside (permissions,
I/O errors). -/
inductive FsOp where
  | list (p : String)
  | remove (p : String)
  deriving DecidableEq, Repr

def ENOENT : GoError := "no such file or directory"

def ENOTDIR : GoError := "not a directory"

def ENOTEMPTY : GoError := "directory not empty"

def EBUSY : GoError := "device or resource busy"

/-- `os.ReadDir` on the tree. -/
def readDir (deny : FsOp → Option GoError) (s : FS) (p : String) :
    Except GoError (List DirEntry) × FS :=
  match deny (FsOp.list p) with
  | some err => (.error err, s)
  | none =>
    match resolve s p with
    | none => (.error ENOENT, s)
    | some q =>
      match lookup s q with
      | none => (.error ENOENT, s)
      | some false => (.error ENOTDIR, s)
      | some true => (.ok (children s q), s)

/-- `os.Remove` on the tree: removes a non-directory or an empty directory. -/
def remove (deny : FsOp → Option GoError) (s : FS) (p : String) : Option GoError × FS :=
  match deny (FsOp.remove p) with
  | some err => (some err, s)
  | none =>
    match resolve s p with
    | none => (some ENOENT, s)
    | some q =>
      if q = [] then (some EBUSY, s)
      else
        match lookup s q with
        | none => (some ENOENT, s)
        | some _ =>
          if hasBelow s q then (some ENOTEMPTY, s)
          else (none, s.filter (fun e => decide (e.1 ≠ q)))

/-- The tree as the file system of the program; `deny` makes chosen calls
fail with a chosen error. -/
def fileSys (deny : FsOp → Option GoError) : FileSys FS :=
  ⟨readDir deny, remove deny⟩

/-- No call fails for an outside reason. -/
def noFaults : FsOp → Option GoError :=
  fun _ => none

/-- The length of the longest position of the tree. -/
def depth (s : FS) : Nat :=
  (s.map (fun e => e.1.length)).foldr max 0

/-- Whether `os.Lstat` would find something at the path. -/
def present (s : FS) (p : String) : Bool :=
  match resolve s p with
  | some q => (lookup s q).isSome
  | none => false

/-- An example tree: `/tmp/bk` holds a staging directory with a dump and a
copied directory, and an archive; `/etc/passwd` lies outside. -/
def exampleTree : FS :=
  [(["tmp"], true), (["tmp", "bk"], true),
   (["tmp", "bk", "20240102_030405"], true),
   (["tmp", "bk", "20240102_030405", "shop.sql"], false),
   (["tmp", "bk", "20240102_030405", "www"], true),
   (["tmp", "bk", "20240102_030405", "www", "index.html"], false),
   (["tmp", "bk", "20240102_030405.tar.gz"], false),
   (["etc"], true), (["etc", "passwd"], false)]

end Tree

/-! ## Reading traces -/

/-- The calls made by `removeAllContents`. -/
def Event.isCleanup : Event → Bool
  | Event.readDir _ _ => true
  | Event.remove _ _ => true
  | _ => false

/-- The error a call returned, if any. -/
def Event.error : Event → Option GoError
  | Event.stat _ StatResult.found => none
  | Event.stat _ StatResult.notExist => some Tree.ENOENT
  | Event.stat _ (StatResult.otherError err) => some err
  | Event.mkdirAll _ err => err
  | Event.create _ err => err
  | Event.close _ => none
  | Event.run _ err => err
  | Event.chmod _ err => err
  | Event.readDir _ err => err
  | Event.remove _ err => err

/-- What the calls of one `removeAllContents` look like for its result: only
cleanup calls; when an error is returned, the last call is the one that
failed with that error and all calls before it succeeded; otherwise every
call succeeded. -/
def CleanupTrace (r : Ret) (evs : List Event) : Prop :=
  (∀ ev ∈ evs, ev.isCleanup = true) ∧
    match r with
    | Ret.error err =>
      ∃ pre last, evs = pre ++ [last] ∧ (∀ ev ∈ pre, ev.error = none) ∧ last.error = some err
    | _ => ∀ ev ∈ evs, ev.error = none

namespace Tree

/-- What one cleanup does to the tree and the trace: the calls it makes are
appended to the trace and are as `CleanupTrace` says for its result; the tree
only loses nodes; and every position removed successfully is no longer
listed. -/
def CleanupRel (w : World FS) (r : Ret) (w' : World FS) : Prop :=
  ∃ evs, w'.trace = w.trace ++ evs ∧ CleanupTrace r evs ∧ w'.st.Sublist w.st ∧
    ∀ p, Event.remove p none ∈ evs →
      path.parts p ≠ [] ∧ path.parts p ∉ w'.st.map Prod.fst

/-- With the given fuel, no cleanup of a directory whose subtree is less deep
than the fuel runs out of fuel. -/
def Returns (deny : FsOp → Option GoError) (fuel : Nat) : Prop :=
  ∀ (s : FS) (tr : List Event) (d : String), (∀ e ∈ s, ∀ n ∈ e.1, ValidName n) →
    (∀ q, resolve s d = some q → ∀ e ∈ s, q <+: e.1 → e.1.length < q.length + fuel) →
    0 < fuel → (removeAllContents (fileSys deny) fuel ⟨s, tr⟩ d).1 ≠ Ret.noFuel

/-- One denied operation: removing the directory `www` of the example tree. -/
def exampleDeny : FsOp → Option GoError :=
  fun op => if op = FsOp.remove "/tmp/bk/20240102_030405/www" then some "permission denied"
    else none

end Tree

/-! ## The directory tree with symbolic links -/

namespace Linked

open Tree (FS Pos FsOp lookup isDirAt children hasBelow ENOENT ENOTDIR ENOTEMPTY EBUSY)

/-- The symbolic links of a tree: the positions of the non-directory nodes
that are symbolic links, each with its target. -/
abbrev Links := List (Pos × String)

/-- The target listed first for position `q`. -/
def targetOf : Links → Pos → Option String
  | [], _ => none
  | l :: ls, q => if l.1 = q then some l.2 else targetOf ls q

/-- The target of the symbolic link at `q`, if the node at `q` is one. -/
def target (links : Links) (s : FS) (q : Pos) : Option String :=
  if lookup s q = some false then targetOf links q else none

/-- The number of symbolic links the kernel follows in one path resolution. -/
def maxSymlinks : Nat := 40

/-- Path resolution, one element at a time, from the position `cur` (its
names in reverse order), as `Tree.walk`; in addition, a name that is a symbolic
link is replaced by the elements of its target, looked up from the root when
the target starts with `/` and from the directory of the link otherwise. The
link at the last element of the path is left alone when `follow` is false.
`expand` resolves the path that results from replacing a link. -/
def walkWith (links : Links) (s : FS) (follow : Bool)
    (expand : List String → List String → Option (List String)) :
    List String → List String → Option (List String)
  | [], cur => some cur
  | c :: cs, cur =>
    if isDirAt s cur.reverse then
      if c = "" ∨ c = "." ∨ c = ".." then
        walkWith links s follow expand cs (path.cleanStep true ⟨0, cur⟩ c).names
      else
        match target links s (c :: cur).reverse with
        | none => walkWith links s follow expand cs (c :: cur)
        | some t =>
          if cs = [] ∧ follow = false then some (c :: cur)
          else if t = "" then none
          else expand (path.components t ++ cs) (if path.isRooted t then [] else cur)
    else none

/-- Path resolution in which at most `budget` symbolic links are followed. -/
def walk (links : Links) (s : FS) (follow : Bool) :
    Nat → List String → List String → Option (List String)
  | 0 => walkWith links s follow (fun _ _ => none)
  | budget + 1 => walkWith links s follow (walk links s follow budget)

/-- The position a path string denotes, if the directories on the way exist
and no more than `maxSymlinks` symbolic links are met. `follow` says whether a
symbolic link at the last element is followed (`open`) or is itself what the
path denotes (`unlink`, `rmdir`). Relative paths are resolved from the root;
the empty path denotes nothing. -/
def resolve (links : Links) (s : FS) (follow : Bool) (p : String) : Option Pos :=
  if p = "" then none
  else (walk links s follow maxSymlinks (path.components p) []).map List.reverse

/-- `os.ReadDir` on the tree with symbolic links: the directory is opened
following links. -/
def readDir (links : Links) (deny : FsOp → Option GoError) (s : FS) (p : String) :
    Except GoError (List DirEntry) × FS :=
  match deny (FsOp.list p) with
  | some err => (.error err, s)
  | none =>
    match resolve links s true p with
    | none => (.error ENOENT, s)
    | some q =>
      match lookup s q with
      | none => (.error ENOENT, s)
      | some false => (.error ENOTDIR, s)
      | some true => (.ok (children s q), s)

/-- `os.Remove` on the tree with symbolic links: removes a non-directory (a
symbolic link itself, not what it points to) or an empty directory. The
program calls it on the results of `filepath.Join`, which are cleaned paths:
they have no trailing separator and no `.` element. -/
def remove (links : Links) (deny : FsOp → Option GoError) (s : FS) (p : String) :
    Option GoError × FS :=
  match deny (FsOp.remove p) with
  | some err => (some err, s)
  | none =>
    match resolve links s false p with
    | none => (some ENOENT, s)
    | some q =>
      if q = [] then (some EBUSY, s)
      else
        match lookup s q with
        | none => (some ENOENT, s)
        | some _ =>
          if hasBelow s q then (some ENOTEMPTY, s)
          else (none, s.filter (fun e => decide (e.1 ≠ q)))

/-- The tree with symbolic links as the file system of the program. -/
def fileSys (links : Links) (deny : FsOp → Option GoError) : FileSys FS :=
  ⟨readDir links deny, remove links deny⟩

/-- What the no-fault cleanup with the given fuel does, for every path `d`
without a `..` element that denotes the directory at `q` also when nothing
lies below `q`. -/
def CleansUp (links : Links) (fuel : Nat) : Prop :=
  ∀ (s : FS) (tr : List Event) (d : String) (q : Pos), Tree.WF s →
    ".." ∉ path.components d → resolve links (Tree.withoutBelow s q) true d = some q →
    isDirAt s q = true → (∀ e ∈ s, q <+: e.1 → e.1.length < q.length + fuel) → 0 < fuel →
    ∃ tr', removeAllContents (fileSys links Tree.noFaults) fuel ⟨s, tr⟩ d =
      (Ret.nil, ⟨Tree.withoutBelow s q, tr'⟩)

/-- An example tree with symbolic links on the way to the local root:
`/srv/current` points to `/mnt/disk/2024`, so that `/srv/current/../bk` is
`/mnt/disk/bk`, while its cleaned form is `/srv/bk`; `/srv/latest` points to
`../mnt/disk/bk`. Both directories named `bk` hold an archive of the same
name. -/
def exampleTree : FS :=
  [(["srv"], true), (["srv", "current"], false), (["srv", "latest"], false),
   (["srv", "bk"], true),
   (["srv", "bk", "20240102_030405.tar.gz"], false),
   (["mnt"], true), (["mnt", "disk"], true), (["mnt", "disk", "2024"], true),
   (["mnt", "disk", "bk"], true),
   (["mnt", "disk", "bk", "20240102_030405.tar.gz"], false)]

def exampleLinks : Links :=
  [(["srv", "current"], "/mnt/disk/2024"), (["srv", "latest"], "../mnt/disk/bk")]

/-- An example tree in which the local root is reached through a symbolic
link that lies in it: `/tmp/bk/latest` points to `/tmp/bk`. -/
def loopTree : FS :=
  [(["tmp"], true), (["tmp", "bk"], true),
   (["tmp", "bk", "20240102_030405.tar.gz"], false),
   (["tmp", "bk", "latest"], false)]

def loopLinks : Links :=
  [(["tmp", "bk", "latest"], ".")]

end Linked

/-- The command launched by `CompressingDir`. -/
def tarCmd (tarFilePath compressPath : String) : Cmd :=
  ⟨"tar", ["-czf", tarFilePath, "-C", compressPath, "."], none⟩

/-- The staging directory computed by `run`. -/
def stagingDir (config : Config) (now : Time) : String :=
  path.Join [config.Local.Dir, getCurrentTimestamp now]

/-- The archive path computed by `run`. -/
def archivePath (config : Config) (now : Time) : String :=
  path.Join [config.Local.Dir, getCurrentTimestamp now ++ ".tar.gz"]

/-- The calls of the steps before archiving: file-system calls of the
staging, dump and copy steps, `mysqldump`, and the three-argument `rsync` of
the copy step. -/
def Event.isPrep : Event → Bool
  | Event.stat _ _ => true
  | Event.mkdirAll _ _ => true
  | Event.create _ _ => true
  | Event.close _ => true
  | Event.run cmd _ => cmd.name = "mysqldump" || (cmd.name = "rsync" && cmd.args.length = 3)
  | _ => false

/-- The dump file computed by `backupMysql` when called by `run`. -/
def dumpPath (config : Config) (now : Time) : String :=
  path.Join [stagingDir config now, config.Mysql.Name ++ ".sql"]

/-- The calls of the steps before archiving, with the paths they are made on:
`os.Stat` on the staging directory and on the source path, `os.MkdirAll` on
the staging directory, the dump file created and closed, `mysqldump` writing
to the dump file, and `rsync -a` from the source path into the staging
directory. -/
def PrepEvent (config : Config) (now : Time) : Event → Prop
  | Event.stat p _ => p = stagingDir config now ∨ p = config.File.Path
  | Event.mkdirAll p _ => p = stagingDir config now
  | Event.create p _ => p = dumpPath config now
  | Event.close p => p = dumpPath config now
  | Event.run cmd _ =>
    cmd = { mysqldumpCmd config.Mysql with stdout := some (dumpPath config now) } ∨
      cmd = ⟨"rsync", ["-a", config.File.Path, stagingDir config now], none⟩
  | _ => False

/-- Every call of `run` with the path it may be made on. -/
def UsesLayout (config : Config) (now : Time) : Event → Prop
  | Event.chmod p _ => p = archivePath config now
  | Event.readDir _ _ => True
  | Event.remove _ _ => True
  | Event.run cmd err =>
    PrepEvent config now (Event.run cmd err) ∨
      cmd = tarCmd (archivePath config now) (stagingDir config now) ∨
      cmd = rsaSyncCmd config.Remote (archivePath config now) ∨
      cmd = userSyncCmd config.Remote (archivePath config now)
  | ev => PrepEvent config now ev

/-- The calls of `CompressingDir`: `tar`, then `chmod` when `tar` succeeded. -/
def ArchiveCalls (tarFile localDir : String) (evs : List Event) : Prop :=
  (∃ err, evs = [Event.run (tarCmd tarFile localDir) (some err)]) ∨
    (∃ err, evs = [Event.run (tarCmd tarFile localDir) none, Event.chmod tarFile err])

/-- The calls of one ship variant and of the cleanup after it: the sync command
alone when it failed; when it succeeded, followed by cleanup calls only. -/
def ShipCalls (cmd : Cmd) (evs : List Event) : Prop :=
  (∃ err, evs = [Event.run cmd (some err)]) ∨
    (∃ cl, evs = Event.run cmd none :: cl ∧ ∀ ev ∈ cl, ev.isCleanup = true)

/-- The calls of `run` from the selection of the shipper on. -/
def SelectionCalls (config : Config) (tarFile : String) (evs : List Event) : Prop :=
  if strings.TrimSpace config.Remote.PrivateKey ≠ "" then
    ShipCalls (rsaSyncCmd config.Remote tarFile) evs
  else if strings.TrimSpace config.Remote.User ≠ "" then
    ShipCalls (userSyncCmd config.Remote tarFile) evs
  else evs = []

/-! ## A scripted environment for concrete runs -/

/-- An environment without state in which `os.Stat` answers `statRes`, commands
fail as `cmdErr` says, `os.ReadDir` answers `listing`, and every other call
succeeds. -/
def scriptedEnv (statRes : String → StatResult) (cmdErr : Cmd → Option GoError)
    (listing : String → Except GoError (List DirEntry)) : Env Unit where
  readDir := fun _ p => (listing p, ())
  remove := fun _ _ => (none, ())
  stat := fun _ p => (statRes p, ())
  mkdirAll := fun _ _ => (none, ())
  create := fun _ _ => (none, ())
  run := fun _ cmd => (cmdErr cmd, ())
  chmod := fun _ _ => (none, ())

/-- The configuration of the example `local.dir=/tmp/bk`, database `shop`. -/
def exampleConfig (user privateKey : String) : Config where
  Mysql := ⟨"root", "secret", "127.0.0.1", "3306", "shop"⟩
  Local := ⟨"/tmp/bk"⟩
  Remote := ⟨"backup.example.org", user, "pw", privateKey, "/srv/backups"⟩
  File := ⟨"/var/www"⟩

def exampleTime : Time :=
  ⟨2024, 1, 2, 3, 4, 5⟩

/-! ## The calls of each function -/

section Calls

variable {σ : Type}

theorem remoteSyncForRSA_eq (env : Env σ) (w : World σ) (rc : RemoteConfig) (bp : String) :
    remoteSyncForRSA env w rc bp =
      (((env.run w.st (rsaSyncCmd rc bp)).1).map (fun e => "failed to sync files to remote host: " ++ e),
        ⟨(env.run w.st (rsaSyncCmd rc bp)).2,
          w.trace ++ [Event.run (rsaSyncCmd rc bp) (env.run w.st (rsaSyncCmd rc bp)).1]⟩) := by
  unfold remoteSyncForRSA cmdRun
  cases h : (env.run w.st (rsaSyncCmd rc bp)).1 <;> simp [h]

theorem remoteSyncForUser_eq (env : Env σ) (w : World σ) (rc : RemoteConfig) (bp : String) :
    remoteSyncForUser env w rc bp =
      (((env.run w.st (userSyncCmd rc bp)).1).map (fun e => "failed to sync files to remote host: " ++ e),
        ⟨(env.run w.st (userSyncCmd rc bp)).2,
          w.trace ++ [Event.run (userSyncCmd rc bp) (env.run w.st (userSyncCmd rc bp)).1]⟩) := by
  unfold remoteSyncForUser cmdRun
  cases h : (env.run w.st (userSyncCmd rc bp)).1 <;> simp [h]

/-- C10. Both ship variants launch exactly one command whose last two
arguments are the archive path and `User@Host:Dir`; the key-based one is
`rsync -avz -e "ssh -i <PrivateKey>"`, the password-based one is
`sshpass -p <Password> rsync -av`; each returns an error exactly when its
command fails. -/
theorem remoteSync_commands (env : Env σ) (w : World σ) (remoteConfig : RemoteConfig)
    (backupPath : String) :
    (rsaSyncCmd remoteConfig backupPath =
        ⟨"rsync", ["-avz", "-e", "ssh -i " ++ remoteConfig.PrivateKey, backupPath,
          remoteConfig.User ++ "@" ++ remoteConfig.Host ++ ":" ++ remoteConfig.Dir], none⟩ ∧
      (remoteSyncForRSA env w remoteConfig backupPath).2.trace =
        w.trace ++ [Event.run (rsaSyncCmd remoteConfig backupPath)
          (env.run w.st (rsaSyncCmd remoteConfig backupPath)).1] ∧
      ((remoteSyncForRSA env w remoteConfig backupPath).1 ≠ none ↔
        (env.run w.st (rsaSyncCmd remoteConfig backupPath)).1 ≠ none)) ∧
    (userSyncCmd remoteConfig backupPath =
        ⟨"sshpass", ["-p", remoteConfig.Password, "rsync", "-av", backupPath,
          remoteConfig.User ++ "@" ++ remoteConfig.Host ++ ":" ++ remoteConfig.Dir], none⟩ ∧
      (remoteSyncForUser env w remoteConfig backupPath).2.trace =
        w.trace ++ [Event.run (userSyncCmd remoteConfig backupPath)
          (env.run w.st (userSyncCmd remoteConfig backupPath)).1] ∧
      ((remoteSyncForUser env w remoteConfig backupPath).1 ≠ none ↔
        (env.run w.st (userSyncCmd remoteConfig backupPath)).1 ≠ none)) := by
  rw [remoteSyncForRSA_eq, remoteSyncForUser_eq]
  refine ⟨⟨rfl, rfl, ?_⟩, rfl, rfl, ?_⟩
  · cases (env.run w.st (rsaSyncCmd remoteConfig backupPath)).1 <;> simp
  · cases (env.run w.st (userSyncCmd remoteConfig backupPath)).1 <;> simp

theorem backupMysql_calls_aux (env : Env σ) (w : World σ) (mysqlConfig : MysqlConfig)
    (backupDir : String) :
    let outputPath := path.Join [backupDir, mysqlConfig.Name ++ ".sql"]
    let cmd : Cmd := ⟨"mysqldump", ["-h" ++ mysqlConfig.Host, "-P" ++ mysqlConfig.Port,
      "-u" ++ mysqlConfig.User, "-p" ++ mysqlConfig.Password, mysqlConfig.Name], some outputPath⟩
    let created := env.create w.st outputPath
    let ran := env.run created.2 cmd
    let r := backupMysql env w mysqlConfig backupDir
    (∀ err, created.1 = some err →
      r.1 = some ("Failed to create the output file: " ++ err) ∧
      r.2.trace = w.trace ++ [Event.create outputPath (some err)]) ∧
    (created.1 = none →
      r.2.trace = w.trace ++
        [Event.create outputPath none, Event.run cmd ran.1, Event.close outputPath] ∧
      (r.1 ≠ none ↔ ran.1 ≠ none)) := by
  intro outputPath cmd created ran r
  constructor
  · intro err h
    simp only [r, backupMysql, osCreate]
    simp only [created, outputPath] at h
    simp [h]
  · intro h
    simp only [created, outputPath] at h
    cases h2 : ran.1 with
    | none =>
      simp only [ran, created, cmd, outputPath] at h2
      simp [r, backupMysql, osCreate, cmdRun, fileClose, mysqldumpCmd, h, h2, ran, created, cmd,
        outputPath]
    | some e =>
      simp only [ran, created, cmd, outputPath] at h2
      simp [r, backupMysql, osCreate, cmdRun, fileClose, mysqldumpCmd, h, h2, ran, created, cmd,
        outputPath]

/-- C9. `backupMysql` creates the output file first. If that fails, it
returns an error and launches nothing. Otherwise it launches exactly one
process, `mysqldump -h<Host> -P<Port> -u<User> -p<Password> <Name>` with its
standard output bound to the created file, and returns an error exactly when
that process fails. -/
theorem backupMysql_calls (env : Env σ) (w : World σ) (mysqlConfig : MysqlConfig)
    (backupDir : String) :
    let outputPath := path.Join [backupDir, mysqlConfig.Name ++ ".sql"]
    let cmd : Cmd := ⟨"mysqldump", ["-h" ++ mysqlConfig.Host, "-P" ++ mysqlConfig.Port,
      "-u" ++ mysqlConfig.User, "-p" ++ mysqlConfig.Password, mysqlConfig.Name], some outputPath⟩
    let created := env.create w.st outputPath
    let ran := env.run created.2 cmd
    let r := backupMysql env w mysqlConfig backupDir
    (∀ err, created.1 = some err →
      r.1 = some ("Failed to create the output file: " ++ err) ∧
      r.2.trace = w.trace ++ [Event.create outputPath (some err)]) ∧
    (created.1 = none →
      r.2.trace = w.trace ++
        [Event.create outputPath none, Event.run cmd ran.1, Event.close outputPath] ∧
      (r.1 ≠ none ↔ ran.1 ≠ none)) :=
  backupMysql_calls_aux env w mysqlConfig backupDir

theorem backupFile_calls_aux (env : Env σ) (w : World σ) (fileConfig : FileConfig)
    (backupDir : String) :
    let st := env.stat w.st fileConfig.Path
    let cmd : Cmd := ⟨"rsync", ["-a", fileConfig.Path, backupDir], none⟩
    let r := backupFile env w fileConfig backupDir
    (st.1 = StatResult.notExist →
      r.1 = some ("directory does not exist: " ++ fileConfig.Path) ∧
      r.2.trace = w.trace ++ [Event.stat fileConfig.Path StatResult.notExist]) ∧
    (st.1 ≠ StatResult.notExist →
      r.2.trace = w.trace ++ [Event.stat fileConfig.Path st.1, Event.run cmd (env.run st.2 cmd).1]) ∧
    (∀ evs, r.2.trace = w.trace ++ evs → (∃ c e, Event.run c e ∈ evs) →
      st.1 ≠ StatResult.notExist) := by
  intro st cmd r
  have h1 : st.1 = StatResult.notExist →
      r.1 = some ("directory does not exist: " ++ fileConfig.Path) ∧
      r.2.trace = w.trace ++ [Event.stat fileConfig.Path StatResult.notExist] := by
    intro h
    simp only [st] at h
    simp [r, backupFile, osStat, h]
  refine ⟨h1, ?_, ?_⟩
  · intro h
    simp only [st] at h
    cases h3 : (env.run st.2 cmd).1 <;> simp only [st, cmd] at h3 <;>
      cases h2 : (env.stat w.st fileConfig.Path).1 <;>
      simp_all [r, backupFile, osStat, cmdRun, st, cmd]
  · intro evs hevs hrun hne
    have h := (h1 hne).2
    rw [hevs] at h
    have : evs = [Event.stat fileConfig.Path StatResult.notExist] := List.append_cancel_left h
    subst this
    obtain ⟨c, e, hm⟩ := hrun
    simp at hm

/-- C4 (amended). When `os.Stat` reports that the path does not exist,
`backupFile` returns the error `directory does not exist: <path>` and makes no
further call; in every other case (the path was found, or `os.Stat` failed
with a different error) it launches `rsync -a <path> <backupDir>`. So whenever
`rsync` is launched, `os.Stat` did not report a not-exist error. -/
theorem backupFile_calls (env : Env σ) (w : World σ) (fileConfig : FileConfig)
    (backupDir : String) :
    let st := env.stat w.st fileConfig.Path
    let cmd : Cmd := ⟨"rsync", ["-a", fileConfig.Path, backupDir], none⟩
    let r := backupFile env w fileConfig backupDir
    (st.1 = StatResult.notExist →
      r.1 = some ("directory does not exist: " ++ fileConfig.Path) ∧
      r.2.trace = w.trace ++ [Event.stat fileConfig.Path StatResult.notExist]) ∧
    (st.1 ≠ StatResult.notExist →
      r.2.trace = w.trace ++ [Event.stat fileConfig.Path st.1, Event.run cmd (env.run st.2 cmd).1]) ∧
    (∀ evs, r.2.trace = w.trace ++ evs → (∃ c e, Event.run c e ∈ evs) →
      st.1 ≠ StatResult.notExist) :=
  backupFile_calls_aux env w fileConfig backupDir

/-- C4 (counterexample). With a source path for which `os.Stat` fails with an
error other than not-exist, `backupFile` launches `rsync` although the path
was not found to exist. -/
theorem backupFile_rsync_without_found :
    ((scriptedEnv (fun _ => StatResult.otherError "permission denied") (fun _ => none)
        (fun _ => .ok [])).stat () "/var/www").1 ≠ StatResult.found ∧
    Event.run ⟨"rsync", ["-a", "/var/www", "/tmp/bk/20240102_030405"], none⟩ none ∈
      (backupFile (scriptedEnv (fun _ => StatResult.otherError "permission denied")
        (fun _ => none) (fun _ => .ok [])) ⟨(), []⟩ ⟨"/var/www"⟩
        "/tmp/bk/20240102_030405").2.trace := by
  decide

end Calls

/-! ## The calls of the cleanup, for any file system -/

section Cleanup

variable {σ : Type}

theorem cleanupTrace_nil (r : Ret) (h : ∀ e, r ≠ Ret.error e) : CleanupTrace r [] := by
  refine ⟨by simp, ?_⟩
  cases r with
  | error e => exact absurd rfl (h e)
  | nil => simp
  | noFuel => simp

theorem cleanupTrace_fail (ev : Event) (err : GoError) (hc : ev.isCleanup = true)
    (he : ev.error = some err) : CleanupTrace (Ret.error err) [ev] := by
  refine ⟨by simpa using hc, [], ev, by simp, by simp, he⟩

theorem cleanupTrace_append (r : Ret) (evs1 evs2 : List Event)
    (h1 : CleanupTrace Ret.nil evs1) (h2 : CleanupTrace r evs2) :
    CleanupTrace r (evs1 ++ evs2) := by
  obtain ⟨c1, s1⟩ := h1
  obtain ⟨c2, s2⟩ := h2
  refine ⟨?_, ?_⟩
  · intro ev hev
    rcases List.mem_append.1 hev with h | h
    · exact c1 ev h
    · exact c2 ev h
  · cases r with
    | error e =>
      obtain ⟨pre, last, rfl, hp, hl⟩ := s2
      refine ⟨evs1 ++ pre, last, by simp, ?_, hl⟩
      intro ev hev
      rcases List.mem_append.1 hev with h | h
      · exact s1 ev h
      · exact hp ev h
    | nil =>
      intro ev hev
      rcases List.mem_append.1 hev with h | h
      · exact s1 ev h
      · exact s2 ev h
    | noFuel =>
      intro ev hev
      rcases List.mem_append.1 hev with h | h
      · exact s1 ev h
      · exact s2 ev h

theorem cleanupTrace_single_ok (ev : Event) (hc : ev.isCleanup = true) (he : ev.error = none) :
    CleanupTrace Ret.nil [ev] := by
  refine ⟨by simpa using hc, ?_⟩
  simpa using he

/-- The calls of the loop of `removeAllContents`, given those of the recursive call. -/
theorem removeEntries_trace (fs : FileSys σ) (recurse : World σ → String → Ret × World σ)
    (hrec : ∀ w p, ∃ evs, (recurse w p).2.trace = w.trace ++ evs ∧
      CleanupTrace (recurse w p).1 evs)
    (dirPath : String) (entries : List DirEntry) (w : World σ) :
    ∃ evs, (removeEntries fs recurse dirPath entries w).2.trace = w.trace ++ evs ∧
      CleanupTrace (removeEntries fs recurse dirPath entries w).1 evs := by
  induction entries generalizing w with
  | nil => exact ⟨[], by simp [removeEntries], cleanupTrace_nil _ (by simp [removeEntries])⟩
  | cons entry rest ih =>
    unfold removeEntries
    rcases Bool.eq_false_or_eq_true entry.isDir with hd | hd
    · simp only [hd, if_true]
      obtain ⟨evs1, ht1, hc1⟩ := hrec w (filepath.Join [dirPath, entry.name])
      cases hr : recurse w (filepath.Join [dirPath, entry.name]) with
      | mk r1 w1 =>
        rw [hr] at ht1 hc1
        simp only at ht1 hc1
        cases r1 with
        | nil =>
          simp only
          cases hrm : fs.remove w1.st (filepath.Join [dirPath, entry.name]) with
          | mk e s2 =>
            cases e with
            | some err =>
              simp only [osRemove, hrm]
              refine ⟨evs1 ++ [Event.remove (filepath.Join [dirPath, entry.name]) (some err)],
                by simp [ht1], ?_⟩
              exact cleanupTrace_append _ _ _ hc1 (cleanupTrace_fail _ _ rfl rfl)
            | none =>
              simp only [osRemove, hrm]
              obtain ⟨evs2, ht2, hc2⟩ := ih
                ⟨s2, w1.trace ++ [Event.remove (filepath.Join [dirPath, entry.name]) none]⟩
              refine ⟨evs1 ++ [Event.remove (filepath.Join [dirPath, entry.name]) none] ++ evs2,
                by rw [ht2]; simp [ht1], ?_⟩
              exact cleanupTrace_append _ _ _
                (cleanupTrace_append _ _ _ hc1 (cleanupTrace_single_ok _ rfl rfl)) hc2
        | error e => exact ⟨evs1, ht1, hc1⟩
        | noFuel => exact ⟨evs1, ht1, hc1⟩
    · simp only [hd, Bool.false_eq_true, if_false]
      cases hrm : fs.remove w.st (filepath.Join [dirPath, entry.name]) with
      | mk e s2 =>
        cases e with
        | some err =>
          simp only [osRemove, hrm]
          exact ⟨[Event.remove (filepath.Join [dirPath, entry.name]) (some err)], by simp,
            cleanupTrace_fail _ _ rfl rfl⟩
        | none =>
          simp only [osRemove, hrm]
          obtain ⟨evs2, ht2, hc2⟩ := ih
            ⟨s2, w.trace ++ [Event.remove (filepath.Join [dirPath, entry.name]) none]⟩
          refine ⟨[Event.remove (filepath.Join [dirPath, entry.name]) none] ++ evs2,
            by rw [ht2]; simp, ?_⟩
          exact cleanupTrace_append _ _ _ (cleanupTrace_single_ok _ rfl rfl) hc2

/-- The calls of `removeAllContents`, on any file system and for any fuel. -/
theorem removeAllContents_trace (fs : FileSys σ) (fuel : Nat) (w : World σ) (dirPath : String) :
    ∃ evs, (removeAllContents fs fuel w dirPath).2.trace = w.trace ++ evs ∧
      CleanupTrace (removeAllContents fs fuel w dirPath).1 evs := by
  induction fuel generalizing w dirPath with
  | zero => exact ⟨[], by simp [removeAllContents], cleanupTrace_nil _ (by simp [removeAllContents])⟩
  | succ n ih =>
    unfold removeAllContents
    cases hrd : fs.readDir w.st dirPath with
    | mk res s1 =>
      cases res with
      | error err =>
        simp only [osReadDir, hrd]
        exact ⟨[Event.readDir dirPath (some err)], by simp [errorOf],
          cleanupTrace_fail _ _ rfl (by simp [errorOf, Event.error])⟩
      | ok entries =>
        simp only [osReadDir, hrd]
        obtain ⟨evs2, ht2, hc2⟩ := removeEntries_trace fs (removeAllContents fs n) ih dirPath
          entries ⟨s1, w.trace ++ [Event.readDir dirPath (errorOf (Except.ok entries))]⟩
        refine ⟨[Event.readDir dirPath none] ++ evs2, by rw [ht2]; simp [errorOf], ?_⟩
        exact cleanupTrace_append _ _ _ (cleanupTrace_single_ok _ rfl rfl) hc2

end Cleanup

/-! ## The calls of `run` -/

section Run

variable {σ : Type}

theorem prepEvent_isPrep {config : Config} {now : Time} {ev : Event}
    (h : PrepEvent config now ev) : ev.isPrep = true := by
  cases ev with
  | run cmd err =>
    rcases h with h | h <;> subst h <;> simp [Event.isPrep, mysqldumpCmd]
  | stat _ _ => rfl
  | mkdirAll _ _ => rfl
  | create _ _ => rfl
  | close _ => rfl
  | chmod _ _ => exact h.elim
  | readDir _ _ => exact h.elim
  | remove _ _ => exact h.elim

theorem createPath_prep (env : Env σ) (w : World σ) (config : Config) (now : Time) :
    ∃ evs, (createPath env w (stagingDir config now)).2.trace = w.trace ++ evs ∧
      ∀ ev ∈ evs, PrepEvent config now ev := by
  unfold createPath osStat osMkdirAll
  cases h1 : (env.stat w.st (stagingDir config now)).1 with
  | found =>
    exact ⟨[Event.stat (stagingDir config now) StatResult.found], by simp [h1],
      by simp [PrepEvent]⟩
  | otherError e =>
    exact ⟨[Event.stat (stagingDir config now) (StatResult.otherError e)], by simp [h1],
      by simp [PrepEvent]⟩
  | notExist =>
    cases h2 : (env.mkdirAll (env.stat w.st (stagingDir config now)).2
        (stagingDir config now)).1 with
    | none =>
      exact ⟨[Event.stat (stagingDir config now) StatResult.notExist,
        Event.mkdirAll (stagingDir config now) none], by simp [h1, h2], by simp [PrepEvent]⟩
    | some e =>
      exact ⟨[Event.stat (stagingDir config now) StatResult.notExist,
        Event.mkdirAll (stagingDir config now) (some e)], by simp [h1, h2], by simp [PrepEvent]⟩

theorem backupMysql_prep (env : Env σ) (w : World σ) (config : Config) (now : Time) :
    ∃ evs, (backupMysql env w config.Mysql (stagingDir config now)).2.trace = w.trace ++ evs ∧
      ∀ ev ∈ evs, PrepEvent config now ev := by
  have h := backupMysql_calls_aux env w config.Mysql (stagingDir config now)
  simp only at h
  cases h1 : (env.create w.st
      (path.Join [stagingDir config now, config.Mysql.Name ++ ".sql"])).1 with
  | some e => exact ⟨_, (h.1 e h1).2, by simp [PrepEvent, dumpPath]⟩
  | none => exact ⟨_, (h.2 h1).1, by simp [PrepEvent, dumpPath, mysqldumpCmd]⟩

theorem backupFile_prep (env : Env σ) (w : World σ) (config : Config) (now : Time) :
    ∃ evs, (backupFile env w config.File (stagingDir config now)).2.trace = w.trace ++ evs ∧
      ∀ ev ∈ evs, PrepEvent config now ev := by
  have h := backupFile_calls_aux env w config.File (stagingDir config now)
  simp only at h
  by_cases hs : (env.stat w.st config.File.Path).1 = StatResult.notExist
  · exact ⟨_, (h.1 hs).2, by simp [PrepEvent]⟩
  · exact ⟨_, h.2.1 hs, by simp [PrepEvent]⟩

theorem CompressingDir_calls (env : Env σ) (w : World σ) (tarFile localDir : String) :
    ∃ evs, (CompressingDir env w tarFile localDir).2.trace = w.trace ++ evs ∧
      ArchiveCalls tarFile localDir evs := by
  unfold CompressingDir cmdRun osChmod
  cases h1 : (env.run w.st ⟨"tar", ["-czf", tarFile, "-C", localDir, "."], none⟩).1 with
  | some e =>
    exact ⟨[Event.run (tarCmd tarFile localDir) (some e)], by simp [h1, tarCmd],
      Or.inl ⟨e, rfl⟩⟩
  | none =>
    refine ⟨[Event.run (tarCmd tarFile localDir) none, Event.chmod tarFile
      (env.chmod (env.run w.st ⟨"tar", ["-czf", tarFile, "-C", localDir, "."], none⟩).2
        tarFile).1], ?_, Or.inr ⟨_, rfl⟩⟩
    cases h2 : (env.chmod (env.run w.st ⟨"tar", ["-czf", tarFile, "-C", localDir, "."], none⟩).2
        tarFile).1 <;> simp [h1, h2, tarCmd]

theorem shipCalls_of_cleanup (fs : FileSys σ) (fuel : Nat) (w : World σ) (dir : String)
    (cmd : Cmd) (tr : List Event) (hw : w.trace = tr ++ [Event.run cmd none]) :
    ∃ evs, (afterCleanup (removeAllContents fs fuel w dir)).2.trace = tr ++ evs ∧
      ShipCalls cmd evs := by
  obtain ⟨cl, hcl, hc⟩ := removeAllContents_trace fs fuel w dir
  refine ⟨Event.run cmd none :: cl, ?_, Or.inr ⟨cl, rfl, hc.1⟩⟩
  have : (afterCleanup (removeAllContents fs fuel w dir)).2 =
      (removeAllContents fs fuel w dir).2 := by
    unfold afterCleanup
    split <;> simp_all
  rw [this, hcl, hw]
  simp

/-- The calls of `run`, in order: calls of the steps before archiving; then,
unless one of those steps was fatal, the calls of `CompressingDir` followed by
those of the selected ship variant and the cleanup. -/
theorem run_shape (env : Env σ) (fuel : Nat) (s : σ) (config : Config) (now : Time) :
    ∃ pre rest, (run env fuel ⟨s, []⟩ config now).2.trace = pre ++ rest ∧
      (∀ ev ∈ pre, PrepEvent config now ev) ∧
      (rest = [] ∨ ∃ arch sel, rest = arch ++ sel ∧
        ArchiveCalls (archivePath config now) (stagingDir config now) arch ∧
        SelectionCalls config (archivePath config now) sel) := by
  unfold run
  simp only
  have p1' := createPath_prep env ⟨s, []⟩ config now
  have p2' := fun w => backupMysql_prep env w config now
  have p3' := fun w => backupFile_prep env w config now
  unfold stagingDir at p1' p2' p3'
  obtain ⟨e1, h1, p1⟩ := p1'
  cases hc1 : createPath env ⟨s, []⟩ (path.Join [config.Local.Dir, getCurrentTimestamp now]) with
  | mk r1 w1 =>
  rw [hc1] at h1
  simp only [List.nil_append] at h1
  cases r1 with
  | some msg => exact ⟨e1, [], by simp [h1], p1, Or.inl rfl⟩
  | none =>
  simp only
  obtain ⟨e2, h2, p2⟩ := p2' w1
  cases hc2 : backupMysql env w1 config.Mysql
    (path.Join [config.Local.Dir, getCurrentTimestamp now]) with
  | mk r2 w2 =>
  rw [hc2] at h2
  simp only at h2
  cases r2 with
  | some msg =>
    refine ⟨e1 ++ e2, [], by simp [h2, h1], ?_, Or.inl rfl⟩
    intro ev hev
    rcases List.mem_append.1 hev with h | h
    · exact p1 ev h
    · exact p2 ev h
  | none =>
  simp only
  obtain ⟨e3, h3, p3⟩ := p3' w2
  have hpre : ∀ ev ∈ e1 ++ e2 ++ e3, PrepEvent config now ev := by
    intro ev hev
    rcases List.mem_append.1 hev with h | h
    · rcases List.mem_append.1 h with h | h
      · exact p1 ev h
      · exact p2 ev h
    · exact p3 ev h
  cases hc3 : backupFile env w2 config.File
    (path.Join [config.Local.Dir, getCurrentTimestamp now]) with
  | mk r3 w3 =>
  rw [hc3] at h3
  simp only at h3
  cases r3 with
  | some msg => exact ⟨e1 ++ e2 ++ e3, [], by simp [h3, h2, h1], hpre, Or.inl rfl⟩
  | none =>
  simp only
  obtain ⟨e4, h4, p4⟩ := CompressingDir_calls env w3
    (path.Join [config.Local.Dir, getCurrentTimestamp now ++ ".tar.gz"])
    (path.Join [config.Local.Dir, getCurrentTimestamp now])
  rw [h3, h2, h1] at h4
  generalize (CompressingDir env w3
      (path.Join [config.Local.Dir, getCurrentTimestamp now ++ ".tar.gz"])
      (path.Join [config.Local.Dir, getCurrentTimestamp now])).2 = w4 at h4 ⊢
  have key : ∀ (tr : List Event) (sel : List Event), tr = (e1 ++ e2 ++ e3) ++ (e4 ++ sel) →
      SelectionCalls config (archivePath config now) sel →
      ∃ pre rest, tr = pre ++ rest ∧ (∀ ev ∈ pre, PrepEvent config now ev) ∧
        (rest = [] ∨ ∃ arch sel, rest = arch ++ sel ∧
          ArchiveCalls (archivePath config now) (stagingDir config now) arch ∧
          SelectionCalls config (archivePath config now) sel) :=
    fun tr sel ht hs => ⟨e1 ++ e2 ++ e3, e4 ++ sel, ht, hpre, Or.inr ⟨e4, sel, rfl, p4, hs⟩⟩
  by_cases hk : strings.TrimSpace config.Remote.PrivateKey ≠ ""
  · rw [if_pos hk, remoteSyncForRSA_eq]
    cases hr : (env.run w4.st (rsaSyncCmd config.Remote
        (path.Join [config.Local.Dir, getCurrentTimestamp now ++ ".tar.gz"]))).1 with
    | some err =>
      refine key _ [Event.run (rsaSyncCmd config.Remote
        (path.Join [config.Local.Dir, getCurrentTimestamp now ++ ".tar.gz"])) (some err)]
        (by simp [h4]) ?_
      unfold SelectionCalls
      rw [if_pos hk]
      exact Or.inl ⟨err, rfl⟩
    | none =>
      simp only [Option.map_none']
      obtain ⟨evs, ht, hs⟩ := shipCalls_of_cleanup env.toFileSys fuel
        ⟨(env.run w4.st (rsaSyncCmd config.Remote
            (path.Join [config.Local.Dir, getCurrentTimestamp now ++ ".tar.gz"]))).2,
          w4.trace ++ [Event.run (rsaSyncCmd config.Remote
            (path.Join [config.Local.Dir, getCurrentTimestamp now ++ ".tar.gz"])) none]⟩
        config.Local.Dir _ _ rfl
      refine key _ evs (by rw [ht, h4]; simp) ?_
      unfold SelectionCalls
      rw [if_pos hk]
      exact hs
  · rw [if_neg hk]
    by_cases hu : strings.TrimSpace config.Remote.User ≠ ""
    · rw [if_pos hu, remoteSyncForUser_eq]
      cases hr : (env.run w4.st (userSyncCmd config.Remote
          (path.Join [config.Local.Dir, getCurrentTimestamp now ++ ".tar.gz"]))).1 with
      | some err =>
        refine key _ [Event.run (userSyncCmd config.Remote
          (path.Join [config.Local.Dir, getCurrentTimestamp now ++ ".tar.gz"])) (some err)]
          (by simp [h4]) ?_
        unfold SelectionCalls
        rw [if_neg hk, if_pos hu]
        exact Or.inl ⟨err, rfl⟩
      | none =>
        simp only [Option.map_none']
        obtain ⟨evs, ht, hs⟩ := shipCalls_of_cleanup env.toFileSys fuel
          ⟨(env.run w4.st (userSyncCmd config.Remote
              (path.Join [config.Local.Dir, getCurrentTimestamp now ++ ".tar.gz"]))).2,
            w4.trace ++ [Event.run (userSyncCmd config.Remote
              (path.Join [config.Local.Dir, getCurrentTimestamp now ++ ".tar.gz"])) none]⟩
          config.Local.Dir _ _ rfl
        refine key _ evs (by rw [ht, h4]; simp) ?_
        unfold SelectionCalls
        rw [if_neg hk, if_pos hu]
        exact hs
    · rw [if_neg hu]
      refine key _ [] (by simp [h4]) ?_
      unfold SelectionCalls
      rw [if_neg hk, if_neg hu]

theorem not_prep_rsa (rc : RemoteConfig) (a : String) (e : Option GoError) :
    (Event.run (rsaSyncCmd rc a) e).isPrep = false := by
  simp [Event.isPrep, rsaSyncCmd]

theorem not_prep_user (rc : RemoteConfig) (a : String) (e : Option GoError) :
    (Event.run (userSyncCmd rc a) e).isPrep = false := by
  simp [Event.isPrep, userSyncCmd]

theorem not_cleanup_of_prep (ev : Event) (h : ev.isPrep = true) : ev.isCleanup = false := by
  cases ev <;> simp_all [Event.isPrep, Event.isCleanup]

theorem rsa_ne_tar (rc : RemoteConfig) (a b c : String) : rsaSyncCmd rc a ≠ tarCmd b c := by
  intro h
  have := congrArg Cmd.name h
  simp [rsaSyncCmd, tarCmd] at this

theorem user_ne_tar (rc : RemoteConfig) (a b c : String) : userSyncCmd rc a ≠ tarCmd b c := by
  intro h
  have := congrArg Cmd.name h
  simp [userSyncCmd, tarCmd] at this

theorem rsa_ne_user (rc : RemoteConfig) (a b : String) : rsaSyncCmd rc a ≠ userSyncCmd rc b := by
  intro h
  have := congrArg Cmd.name h
  simp [rsaSyncCmd, userSyncCmd] at this

theorem mem_archiveCalls {T L : String} {arch : List Event} (h : ArchiveCalls T L arch)
    {c : Cmd} {e : Option GoError} (hm : Event.run c e ∈ arch) : c = tarCmd T L := by
  rcases h with ⟨err, rfl⟩ | ⟨err, rfl⟩ <;> simp at hm <;> exact hm.1

theorem archiveCalls_not_cleanup {T L : String} {arch : List Event} (h : ArchiveCalls T L arch) :
    ∀ ev ∈ arch, ev.isCleanup = false := by
  rcases h with ⟨err, rfl⟩ | ⟨err, rfl⟩ <;> simp [Event.isCleanup]

theorem mem_shipCalls {cmd : Cmd} {sel : List Event} (h : ShipCalls cmd sel)
    {c : Cmd} {e : Option GoError} (hm : Event.run c e ∈ sel) : c = cmd := by
  rcases h with ⟨err, rfl⟩ | ⟨cl, rfl, hcl⟩
  · simp at hm
    exact hm.1
  · rcases List.mem_cons.1 hm with h1 | h1
    · simp at h1
      exact h1.1
    · have := hcl _ h1
      simp [Event.isCleanup] at this

theorem shipCalls_launch {cmd : Cmd} {sel : List Event} (h : ShipCalls cmd sel) :
    ∃ e, Event.run cmd e ∈ sel := by
  rcases h with ⟨err, rfl⟩ | ⟨cl, rfl, _⟩
  · exact ⟨some err, by simp⟩
  · exact ⟨none, by simp⟩

/-- Once the staging, dump and copy steps have returned `nil`, the calls of
`run` are the calls made up to and including `CompressingDir`, followed by
those of the selected ship variant and its cleanup. -/
theorem run_after_prep (env : Env σ) (fuel : Nat) (s : σ) (config : Config) (now : Time)
    (w1 w2 w3 : World σ)
    (h1 : createPath env ⟨s, []⟩ (stagingDir config now) = (none, w1))
    (h2 : backupMysql env w1 config.Mysql (stagingDir config now) = (none, w2))
    (h3 : backupFile env w2 config.File (stagingDir config now) = (none, w3)) :
    ∃ sel, (run env fuel ⟨s, []⟩ config now).2.trace =
        (CompressingDir env w3 (archivePath config now) (stagingDir config now)).2.trace ++ sel ∧
      SelectionCalls config (archivePath config now) sel := by
  unfold run
  unfold stagingDir at h1 h2 h3
  unfold stagingDir archivePath
  simp only
  rw [h1]
  simp only
  rw [h2]
  simp only
  rw [h3]
  simp only
  generalize (CompressingDir env w3
      (path.Join [config.Local.Dir, getCurrentTimestamp now ++ ".tar.gz"])
      (path.Join [config.Local.Dir, getCurrentTimestamp now])).2 = w4
  by_cases hk : strings.TrimSpace config.Remote.PrivateKey ≠ ""
  · rw [if_pos hk, remoteSyncForRSA_eq]
    cases hr : (env.run w4.st (rsaSyncCmd config.Remote
        (path.Join [config.Local.Dir, getCurrentTimestamp now ++ ".tar.gz"]))).1 with
    | some err =>
      refine ⟨[Event.run (rsaSyncCmd config.Remote
        (path.Join [config.Local.Dir, getCurrentTimestamp now ++ ".tar.gz"])) (some err)],
        by simp, ?_⟩
      unfold SelectionCalls
      rw [if_pos hk]
      exact Or.inl ⟨err, rfl⟩
    | none =>
      simp only [Option.map_none']
      obtain ⟨evs, ht, hs⟩ := shipCalls_of_cleanup env.toFileSys fuel
        ⟨(env.run w4.st (rsaSyncCmd config.Remote
            (path.Join [config.Local.Dir, getCurrentTimestamp now ++ ".tar.gz"]))).2,
          w4.trace ++ [Event.run (rsaSyncCmd config.Remote
            (path.Join [config.Local.Dir, getCurrentTimestamp now ++ ".tar.gz"])) none]⟩
        config.Local.Dir _ _ rfl
      refine ⟨evs, ht, ?_⟩
      unfold SelectionCalls
      rw [if_pos hk]
      exact hs
  · rw [if_neg hk]
    by_cases hu : strings.TrimSpace config.Remote.User ≠ ""
    · rw [if_pos hu, remoteSyncForUser_eq]
      cases hr : (env.run w4.st (userSyncCmd config.Remote
          (path.Join [config.Local.Dir, getCurrentTimestamp now ++ ".tar.gz"]))).1 with
      | some err =>
        refine ⟨[Event.run (userSyncCmd config.Remote
          (path.Join [config.Local.Dir, getCurrentTimestamp now ++ ".tar.gz"])) (some err)],
          by simp, ?_⟩
        unfold SelectionCalls
        rw [if_neg hk, if_pos hu]
        exact Or.inl ⟨err, rfl⟩
      | none =>
        simp only [Option.map_none']
        obtain ⟨evs, ht, hs⟩ := shipCalls_of_cleanup env.toFileSys fuel
          ⟨(env.run w4.st (userSyncCmd config.Remote
              (path.Join [config.Local.Dir, getCurrentTimestamp now ++ ".tar.gz"]))).2,
            w4.trace ++ [Event.run (userSyncCmd config.Remote
              (path.Join [config.Local.Dir, getCurrentTimestamp now ++ ".tar.gz"])) none]⟩
          config.Local.Dir _ _ rfl
        refine ⟨evs, ht, ?_⟩
        unfold SelectionCalls
        rw [if_neg hk, if_pos hu]
        exact hs
    · rw [if_neg hu]
      refine ⟨[], by simp, ?_⟩
      unfold SelectionCalls
      rw [if_neg hk, if_neg hu]

/-- Every command `run` launches is a command of the steps before archiving,
the `tar` command, or the sync command of the selected ship variant. -/
theorem run_launches (env : Env σ) (fuel : Nat) (s : σ) (config : Config) (now : Time)
    (c : Cmd) (e : Option GoError)
    (hm : Event.run c e ∈ (run env fuel ⟨s, []⟩ config now).2.trace) :
    (Event.run c e).isPrep = true ∨
      c = tarCmd (archivePath config now) (stagingDir config now) ∨
      (strings.TrimSpace config.Remote.PrivateKey ≠ "" ∧
        c = rsaSyncCmd config.Remote (archivePath config now)) ∨
      (strings.TrimSpace config.Remote.PrivateKey = "" ∧
        strings.TrimSpace config.Remote.User ≠ "" ∧
        c = userSyncCmd config.Remote (archivePath config now)) := by
  obtain ⟨pre, rest, htr, hpre, hrest⟩ := run_shape env fuel s config now
  rw [htr] at hm
  rcases List.mem_append.1 hm with h | h
  · exact Or.inl (prepEvent_isPrep (hpre _ h))
  · rcases hrest with rfl | ⟨arch, sel, rfl, harch, hsel⟩
    · cases h
    · rcases List.mem_append.1 h with h | h
      · exact Or.inr (Or.inl (mem_archiveCalls harch h))
      · unfold SelectionCalls at hsel
        split_ifs at hsel with hk hu
        · exact Or.inr (Or.inr (Or.inl ⟨hk, mem_shipCalls hsel h⟩))
        · exact Or.inr (Or.inr (Or.inr ⟨not_not.1 hk, hu, mem_shipCalls hsel h⟩))
        · rw [hsel] at h
          cases h

/-- C1 (amended). For every configuration, `run` never invokes a ship variant
other than the selected one: with `Remote.PrivateKey` non-blank after trimming,
`remoteSyncForUser` is not invoked (whatever `Remote.User` is); with it blank,
`remoteSyncForRSA` is not invoked; with both blank, neither is. And in every
run in which the staging, dump, copy and archive steps return `nil`, the
selected variant is invoked: the key-based one when the trimmed private-key
path is non-blank (also when a user is configured), otherwise the
password-based one when the trimmed user is non-blank. -/
theorem run_selects_shipper (env : Env σ) (fuel : Nat) (s : σ) (config : Config) (now : Time) :
    let tr := (run env fuel ⟨s, []⟩ config now).2.trace
    (strings.TrimSpace config.Remote.PrivateKey ≠ "" →
      ∀ bp err, Event.run (userSyncCmd config.Remote bp) err ∉ tr) ∧
    (strings.TrimSpace config.Remote.PrivateKey = "" →
      ∀ bp err, Event.run (rsaSyncCmd config.Remote bp) err ∉ tr) ∧
    (strings.TrimSpace config.Remote.PrivateKey = "" →
      strings.TrimSpace config.Remote.User = "" →
      ∀ bp err, Event.run (rsaSyncCmd config.Remote bp) err ∉ tr ∧
        Event.run (userSyncCmd config.Remote bp) err ∉ tr) ∧
    (∀ w1 w2 w3 w4 : World σ,
      createPath env ⟨s, []⟩ (stagingDir config now) = (none, w1) →
      backupMysql env w1 config.Mysql (stagingDir config now) = (none, w2) →
      backupFile env w2 config.File (stagingDir config now) = (none, w3) →
      CompressingDir env w3 (archivePath config now) (stagingDir config now) = (none, w4) →
      (strings.TrimSpace config.Remote.PrivateKey ≠ "" →
        ∃ err, Event.run (rsaSyncCmd config.Remote (archivePath config now)) err ∈ tr) ∧
      (strings.TrimSpace config.Remote.PrivateKey = "" →
        strings.TrimSpace config.Remote.User ≠ "" →
        ∃ err, Event.run (userSyncCmd config.Remote (archivePath config now)) err ∈ tr)) := by
  intro tr
  have hl := run_launches env fuel s config now
  refine ⟨?_, ?_, ?_, ?_⟩
  · intro hk bp err hm
    rcases hl _ _ hm with h | h | ⟨-, h⟩ | ⟨h, -⟩
    · rw [not_prep_user] at h
      cases h
    · exact user_ne_tar _ _ _ _ h
    · exact rsa_ne_user _ _ _ h.symm
    · exact hk h
  · intro hk bp err hm
    rcases hl _ _ hm with h | h | ⟨h, -⟩ | ⟨-, -, h⟩
    · rw [not_prep_rsa] at h
      cases h
    · exact rsa_ne_tar _ _ _ _ h
    · exact h hk
    · exact rsa_ne_user _ _ _ h
  · intro hk hu bp err
    constructor
    · intro hm
      rcases hl _ _ hm with h | h | ⟨h, -⟩ | ⟨-, h, -⟩
      · rw [not_prep_rsa] at h
        cases h
      · exact rsa_ne_tar _ _ _ _ h
      · exact h hk
      · exact h hu
    · intro hm
      rcases hl _ _ hm with h | h | ⟨h, -⟩ | ⟨-, h, -⟩
      · rw [not_prep_user] at h
        cases h
      · exact user_ne_tar _ _ _ _ h
      · exact h hk
      · exact h hu
  · intro w1 w2 w3 w4 h1 h2 h3 _
    obtain ⟨sel, htr, hsel⟩ := run_after_prep env fuel s config now w1 w2 w3 h1 h2 h3
    have hsub : ∀ ev ∈ sel, ev ∈ tr := by
      intro ev hev
      show ev ∈ (run env fuel ⟨s, []⟩ config now).2.trace
      rw [htr]
      exact List.mem_append_right _ hev
    unfold SelectionCalls at hsel
    constructor
    · intro hk
      rw [if_pos hk] at hsel
      obtain ⟨e, he⟩ := shipCalls_launch hsel
      exact ⟨e, hsub _ he⟩
    · intro hk hu
      rw [if_neg (not_not.2 hk), if_pos hu] at hsel
      obtain ⟨e, he⟩ := shipCalls_launch hsel
      exact ⟨e, hsub _ he⟩

/-- C1 (witness). With both a private key and a user configured and every
call succeeding, the calls of `run` are, in order: the staging, dump, copy and
archive steps, the key-based sync, and the listing of the local root; the
key-based sync is launched and the password-based one is not. -/
theorem run_key_precedence_example :
    (run (scriptedEnv (fun _ => StatResult.found) (fun _ => none) (fun _ => .ok [])) 1
        ⟨(), []⟩ (exampleConfig "backup" "/root/.ssh/id_rsa") exampleTime).2.trace =
      [Event.stat "/tmp/bk/20240102_030405" StatResult.found,
       Event.create "/tmp/bk/20240102_030405/shop.sql" none,
       Event.run ⟨"mysqldump", ["-h127.0.0.1", "-P3306", "-uroot", "-psecret", "shop"],
         some "/tmp/bk/20240102_030405/shop.sql"⟩ none,
       Event.close "/tmp/bk/20240102_030405/shop.sql",
       Event.stat "/var/www" StatResult.found,
       Event.run ⟨"rsync", ["-a", "/var/www", "/tmp/bk/20240102_030405"], none⟩ none,
       Event.run ⟨"tar", ["-czf", "/tmp/bk/20240102_030405.tar.gz", "-C",
         "/tmp/bk/20240102_030405", "."], none⟩ none,
       Event.chmod "/tmp/bk/20240102_030405.tar.gz" none,
       Event.run ⟨"rsync", ["-avz", "-e", "ssh -i /root/.ssh/id_rsa",
         "/tmp/bk/20240102_030405.tar.gz", "backup@backup.example.org:/srv/backups"], none⟩ none,
       Event.readDir "/tmp/bk" none] ∧
    (∃ err, Event.run (rsaSyncCmd (exampleConfig "backup" "/root/.ssh/id_rsa").Remote
        (archivePath (exampleConfig "backup" "/root/.ssh/id_rsa") exampleTime)) err ∈
      (run (scriptedEnv (fun _ => StatResult.found) (fun _ => none) (fun _ => .ok [])) 1
        ⟨(), []⟩ (exampleConfig "backup" "/root/.ssh/id_rsa") exampleTime).2.trace) ∧
    (∀ bp err, Event.run (userSyncCmd (exampleConfig "backup" "/root/.ssh/id_rsa").Remote bp)
        err ∉
      (run (scriptedEnv (fun _ => StatResult.found) (fun _ => none) (fun _ => .ok [])) 1
        ⟨(), []⟩ (exampleConfig "backup" "/root/.ssh/id_rsa") exampleTime).2.trace) :=
  ⟨by decide,
    ((run_selects_shipper (scriptedEnv (fun _ => StatResult.found) (fun _ => none)
      (fun _ => .ok [])) 1 () (exampleConfig "backup" "/root/.ssh/id_rsa") exampleTime).2.2.2
      ⟨(), [Event.stat "/tmp/bk/20240102_030405" StatResult.found]⟩
      ⟨(), [Event.stat "/tmp/bk/20240102_030405" StatResult.found,
        Event.create "/tmp/bk/20240102_030405/shop.sql" none,
        Event.run ⟨"mysqldump", ["-h127.0.0.1", "-P3306", "-uroot", "-psecret", "shop"],
          some "/tmp/bk/20240102_030405/shop.sql"⟩ none,
        Event.close "/tmp/bk/20240102_030405/shop.sql"]⟩
      ⟨(), [Event.stat "/tmp/bk/20240102_030405" StatResult.found,
        Event.create "/tmp/bk/20240102_030405/shop.sql" none,
        Event.run ⟨"mysqldump", ["-h127.0.0.1", "-P3306", "-uroot", "-psecret", "shop"],
          some "/tmp/bk/20240102_030405/shop.sql"⟩ none,
        Event.close "/tmp/bk/20240102_030405/shop.sql",
        Event.stat "/var/www" StatResult.found,
        Event.run ⟨"rsync", ["-a", "/var/www", "/tmp/bk/20240102_030405"], none⟩ none]⟩
      ⟨(), [Event.stat "/tmp/bk/20240102_030405" StatResult.found,
        Event.create "/tmp/bk/20240102_030405/shop.sql" none,
        Event.run ⟨"mysqldump", ["-h127.0.0.1", "-P3306", "-uroot", "-psecret", "shop"],
          some "/tmp/bk/20240102_030405/shop.sql"⟩ none,
        Event.close "/tmp/bk/20240102_030405/shop.sql",
        Event.stat "/var/www" StatResult.found,
        Event.run ⟨"rsync", ["-a", "/var/www", "/tmp/bk/20240102_030405"], none⟩ none,
        Event.run ⟨"tar", ["-czf", "/tmp/bk/20240102_030405.tar.gz", "-C",
          "/tmp/bk/20240102_030405", "."], none⟩ none,
        Event.chmod "/tmp/bk/20240102_030405.tar.gz" none]⟩
      rfl rfl rfl rfl).1 (by decide),
    (run_selects_shipper (scriptedEnv (fun _ => StatResult.found) (fun _ => none)
      (fun _ => .ok [])) 1 () (exampleConfig "backup" "/root/.ssh/id_rsa") exampleTime).1
      (by decide)⟩

/-- C1 (counterexample). A private key is configured, but `mysqldump` exits
with status 1: `run` ends in `log.Fatalln` after the dump step, and the
key-based sync command is never launched, nor is any other command. -/
theorem run_fatal_before_selection :
    strings.TrimSpace (exampleConfig "backup" "/root/.ssh/id_rsa").Remote.PrivateKey ≠ "" ∧
    (run (scriptedEnv (fun _ => StatResult.found)
        (fun cmd => if cmd.name = "mysqldump" then some "exit status 1" else none)
        (fun _ => .ok [])) 1
      ⟨(), []⟩ (exampleConfig "backup" "/root/.ssh/id_rsa") exampleTime).1 =
      Outcome.fatal "mysqldump Command execution failed: exit status 1" ∧
    (run (scriptedEnv (fun _ => StatResult.found)
        (fun cmd => if cmd.name = "mysqldump" then some "exit status 1" else none)
        (fun _ => .ok [])) 1
      ⟨(), []⟩ (exampleConfig "backup" "/root/.ssh/id_rsa") exampleTime).2.trace =
      [Event.stat "/tmp/bk/20240102_030405" StatResult.found,
       Event.create "/tmp/bk/20240102_030405/shop.sql" none,
       Event.run ⟨"mysqldump", ["-h127.0.0.1", "-P3306", "-uroot", "-psecret", "shop"],
         some "/tmp/bk/20240102_030405/shop.sql"⟩ (some "exit status 1"),
       Event.close "/tmp/bk/20240102_030405/shop.sql"] ∧
    ¬ ∃ err, Event.run (rsaSyncCmd (exampleConfig "backup" "/root/.ssh/id_rsa").Remote
        (archivePath (exampleConfig "backup" "/root/.ssh/id_rsa") exampleTime)) err ∈
      (run (scriptedEnv (fun _ => StatResult.found)
        (fun cmd => if cmd.name = "mysqldump" then some "exit status 1" else none)
        (fun _ => .ok [])) 1
      ⟨(), []⟩ (exampleConfig "backup" "/root/.ssh/id_rsa") exampleTime).2.trace := by
  have htr : (run (scriptedEnv (fun _ => StatResult.found)
        (fun cmd => if cmd.name = "mysqldump" then some "exit status 1" else none)
        (fun _ => .ok [])) 1
      ⟨(), []⟩ (exampleConfig "backup" "/root/.ssh/id_rsa") exampleTime).2.trace =
      [Event.stat "/tmp/bk/20240102_030405" StatResult.found,
       Event.create "/tmp/bk/20240102_030405/shop.sql" none,
       Event.run ⟨"mysqldump", ["-h127.0.0.1", "-P3306", "-uroot", "-psecret", "shop"],
         some "/tmp/bk/20240102_030405/shop.sql"⟩ (some "exit status 1"),
       Event.close "/tmp/bk/20240102_030405/shop.sql"] := by decide
  refine ⟨by decide, by decide, htr, ?_⟩
  rintro ⟨err, hm⟩
  rw [htr] at hm
  revert hm
  simp [rsaSyncCmd]
theorem shipCalls_no_cleanup_of_fail {cmd : Cmd} {sel : List Event} (h : ShipCalls cmd sel)
    {c : Cmd} {err : GoError} (hm : Event.run c (some err) ∈ sel) :
    ∀ ev ∈ sel, ev.isCleanup = false := by
  rcases h with ⟨e, rfl⟩ | ⟨cl, rfl, hcl⟩
  · simp [Event.isCleanup]
  · rcases List.mem_cons.1 hm with h1 | h1
    · simp at h1
    · have := hcl _ h1
      simp [Event.isCleanup] at this

theorem shipCalls_before_cleanup {cmd : Cmd} {sel : List Event} (h : ShipCalls cmd sel)
    (front : List Event) (hfront : ∀ ev ∈ front, ev.isCleanup = false)
    (pre : List Event) (ev : Event) (post : List Event)
    (heq : front ++ sel = pre ++ ev :: post) (hev : ev.isCleanup = true) :
    Event.run cmd none ∈ pre := by
  rcases h with ⟨e, rfl⟩ | ⟨cl, rfl, hcl⟩
  · have : ev ∈ front ++ [Event.run cmd (some e)] := by rw [heq]; simp
    rcases List.mem_append.1 this with h1 | h1
    · rw [hfront _ h1] at hev
      cases hev
    · simp at h1
      subst h1
      simp [Event.isCleanup] at hev
  · have heq' : (front ++ [Event.run cmd none]) ++ cl = pre ++ ev :: post := by
      rw [← heq]; simp
    rcases List.append_eq_append_iff.1 heq' with ⟨a, ha, -⟩ | ⟨c, hc, hc2⟩
    · rw [ha]; simp
    · cases c with
      | nil =>
        rw [List.append_nil] at hc
        rw [← hc]; simp
      | cons x c' =>
        have hx : x = ev := by
          have := congrArg List.head? hc2
          simpa using this.symm
        subst hx
        have : x ∈ front ++ [Event.run cmd none] := by rw [hc]; simp
        rcases List.mem_append.1 this with h1 | h1
        · rw [hfront _ h1] at hev
          cases hev
        · simp at h1
          subst h1
          simp [Event.isCleanup] at hev

/-- C3. In every execution of `run`: a cleanup call (`os.ReadDir` or
`os.Remove`, made only by `removeAllContents`) is preceded by a remote sync
command that returned success; when a remote sync command fails no cleanup
call is made at all; and when neither a private key nor a user is configured,
no sync command is launched and no cleanup call is made, so `run` removes
nothing under the local root. -/
theorem cleanup_only_after_ship (env : Env σ) (fuel : Nat) (s : σ) (config : Config)
    (now : Time) :
    let tr := (run env fuel ⟨s, []⟩ config now).2.trace
    let rsa := rsaSyncCmd config.Remote (archivePath config now)
    let user := userSyncCmd config.Remote (archivePath config now)
    (∀ pre ev post, tr = pre ++ ev :: post → ev.isCleanup = true →
      Event.run rsa none ∈ pre ∨ Event.run user none ∈ pre) ∧
    (∀ err, Event.run rsa (some err) ∈ tr ∨ Event.run user (some err) ∈ tr →
      ∀ ev ∈ tr, ev.isCleanup = false) ∧
    (strings.TrimSpace config.Remote.PrivateKey = "" →
      strings.TrimSpace config.Remote.User = "" →
      ∀ ev ∈ tr, ev.isCleanup = false ∧ ∀ err, ev ≠ Event.run rsa err ∧ ev ≠ Event.run user err) := by
  intro tr rsa user
  obtain ⟨pre, rest, htr, hpre0, hrest⟩ := run_shape env fuel s config now
  have hpre : ∀ ev ∈ pre, ev.isPrep = true := fun ev h => prepEvent_isPrep (hpre0 ev h)
  have htr' : tr = pre ++ rest := htr
  have hpc : ∀ ev ∈ pre, ev.isCleanup = false := fun ev h => not_cleanup_of_prep ev (hpre ev h)
  rcases hrest with rfl | ⟨arch, sel, rfl, harch, hsel⟩
  · rw [List.append_nil] at htr'
    have hall : ∀ ev ∈ tr, ev.isCleanup = false := by rw [htr']; exact hpc
    refine ⟨?_, fun _ _ => hall, ?_⟩
    · intro p ev post heq hev
      have : ev ∈ tr := by rw [heq]; simp
      rw [hall _ this] at hev
      cases hev
    · intro _ _ ev hev
      refine ⟨hall ev hev, fun err => ⟨?_, ?_⟩⟩
      · rintro rfl
        have := hpre _ (htr' ▸ hev)
        rw [not_prep_rsa] at this
        cases this
      · rintro rfl
        have := hpre _ (htr' ▸ hev)
        rw [not_prep_user] at this
        cases this
  · have hfront : ∀ ev ∈ pre ++ arch, ev.isCleanup = false := by
      intro ev hev
      rcases List.mem_append.1 hev with h | h
      · exact hpc ev h
      · exact archiveCalls_not_cleanup harch ev h
    have htr2 : tr = (pre ++ arch) ++ sel := by rw [htr']; simp
    have hfail : ∀ c err, c = rsa ∨ c = user → Event.run c (some err) ∈ tr →
        Event.run c (some err) ∈ sel := by
      intro c err hc hm
      rw [htr'] at hm
      rcases List.mem_append.1 hm with h | h
      · have := hpre _ h
        rcases hc with rfl | rfl
        · rw [not_prep_rsa] at this
          cases this
        · rw [not_prep_user] at this
          cases this
      · rcases List.mem_append.1 h with h | h
        · have := mem_archiveCalls harch h
          rcases hc with rfl | rfl
          · exact absurd this (rsa_ne_tar _ _ _ _)
          · exact absurd this (user_ne_tar _ _ _ _)
        · exact h
    unfold SelectionCalls at hsel
    split_ifs at hsel with hk hu
    · refine ⟨?_, ?_, fun h => absurd h hk⟩
      · intro p ev post heq hev
        exact Or.inl (shipCalls_before_cleanup hsel _ hfront p ev post (htr2 ▸ heq) hev)
      · intro err herr ev hev
        have hs : ∀ ev ∈ sel, ev.isCleanup = false := by
          rcases herr with h | h
          · exact shipCalls_no_cleanup_of_fail hsel (hfail _ _ (Or.inl rfl) h)
          · exact shipCalls_no_cleanup_of_fail hsel (hfail _ _ (Or.inr rfl) h)
        rw [htr2] at hev
        rcases List.mem_append.1 hev with h | h
        · exact hfront ev h
        · exact hs ev h
    · refine ⟨?_, ?_, fun _ h => absurd h hu⟩
      · intro p ev post heq hev
        exact Or.inr (shipCalls_before_cleanup hsel _ hfront p ev post (htr2 ▸ heq) hev)
      · intro err herr ev hev
        have hs : ∀ ev ∈ sel, ev.isCleanup = false := by
          rcases herr with h | h
          · exact shipCalls_no_cleanup_of_fail hsel (hfail _ _ (Or.inl rfl) h)
          · exact shipCalls_no_cleanup_of_fail hsel (hfail _ _ (Or.inr rfl) h)
        rw [htr2] at hev
        rcases List.mem_append.1 hev with h | h
        · exact hfront ev h
        · exact hs ev h
    · subst hsel
      rw [List.append_nil] at htr2
      have hall : ∀ ev ∈ tr, ev.isCleanup = false := by rw [htr2]; exact hfront
      refine ⟨?_, fun _ _ => hall, ?_⟩
      · intro p ev post heq hev
        have : ev ∈ tr := by rw [heq]; simp
        rw [hall _ this] at hev
        cases hev
      · intro _ _ ev hev
        refine ⟨hall ev hev, fun err => ⟨?_, ?_⟩⟩
        · rintro rfl
          rw [htr2] at hev
          rcases List.mem_append.1 hev with h | h
          · have := hpre _ h
            rw [not_prep_rsa] at this
            cases this
          · exact absurd (mem_archiveCalls harch h) (rsa_ne_tar _ _ _ _)
        · rintro rfl
          rw [htr2] at hev
          rcases List.mem_append.1 hev with h | h
          · have := hpre _ h
            rw [not_prep_user] at this
            cases this
          · exact absurd (mem_archiveCalls harch h) (user_ne_tar _ _ _ _)

/-- C3 (witness). With neither a private key nor a user configured and every
call succeeding, `run` ends successfully after the archive step: no sync
command and no cleanup call is made. -/
theorem run_without_remote_example :
    (run (scriptedEnv (fun p => if p = "/var/www" then StatResult.found else StatResult.notExist)
        (fun _ => none) (fun _ => .ok [])) 1 ⟨(), []⟩ (exampleConfig "  " "") exampleTime).1 =
      Outcome.success ∧
    (run (scriptedEnv (fun p => if p = "/var/www" then StatResult.found else StatResult.notExist)
        (fun _ => none) (fun _ => .ok [])) 1 ⟨(), []⟩ (exampleConfig "  " "") exampleTime).2.trace =
      [Event.stat "/tmp/bk/20240102_030405" StatResult.notExist,
       Event.mkdirAll "/tmp/bk/20240102_030405" none,
       Event.create "/tmp/bk/20240102_030405/shop.sql" none,
       Event.run ⟨"mysqldump", ["-h127.0.0.1", "-P3306", "-uroot", "-psecret", "shop"],
         some "/tmp/bk/20240102_030405/shop.sql"⟩ none,
       Event.close "/tmp/bk/20240102_030405/shop.sql",
       Event.stat "/var/www" StatResult.found,
       Event.run ⟨"rsync", ["-a", "/var/www", "/tmp/bk/20240102_030405"], none⟩ none,
       Event.run ⟨"tar", ["-czf", "/tmp/bk/20240102_030405.tar.gz", "-C",
         "/tmp/bk/20240102_030405", "."], none⟩ none,
       Event.chmod "/tmp/bk/20240102_030405.tar.gz" none] ∧
    (∀ ev ∈ (run (scriptedEnv
        (fun p => if p = "/var/www" then StatResult.found else StatResult.notExist)
        (fun _ => none) (fun _ => .ok [])) 1 ⟨(), []⟩ (exampleConfig "  " "")
        exampleTime).2.trace, ev.isCleanup = false) :=
  ⟨by decide, by decide,
    fun ev hev => ((cleanup_only_after_ship (scriptedEnv
      (fun p => if p = "/var/www" then StatResult.found else StatResult.notExist)
      (fun _ => none) (fun _ => .ok [])) 1 () (exampleConfig "  " "") exampleTime).2.2
      (by decide) (by decide) ev hev).1⟩

/-- C2 (the code at the failing inputs). First run: `tar` exits non-zero, so
`CompressingDir` returns an error; `run` nevertheless launches the key-based
sync, calls `removeAllContents` (which lists the local root) and ends as a
success. Second run: every command succeeds but listing the local root fails,
so `removeAllContents` returns an error; `run` still ends as a success. -/
theorem run_ignores_step_errors :
    ((CompressingDir (scriptedEnv (fun _ => StatResult.found)
          (fun c => if c.name = "tar" then some "exit status 2" else none) (fun _ => .ok []))
          ⟨(), []⟩ "/tmp/bk/20240102_030405.tar.gz" "/tmp/bk/20240102_030405").1 =
        some "Failed compression directory: exit status 2" ∧
      (run (scriptedEnv (fun _ => StatResult.found)
          (fun c => if c.name = "tar" then some "exit status 2" else none) (fun _ => .ok []))
          1 ⟨(), []⟩ (exampleConfig "backup" "/root/.ssh/id_rsa") exampleTime).1 = Outcome.success ∧
      (run (scriptedEnv (fun _ => StatResult.found)
          (fun c => if c.name = "tar" then some "exit status 2" else none) (fun _ => .ok []))
          1 ⟨(), []⟩ (exampleConfig "backup" "/root/.ssh/id_rsa") exampleTime).2.trace =
        [Event.stat "/tmp/bk/20240102_030405" StatResult.found,
         Event.create "/tmp/bk/20240102_030405/shop.sql" none,
         Event.run ⟨"mysqldump", ["-h127.0.0.1", "-P3306", "-uroot", "-psecret", "shop"],
           some "/tmp/bk/20240102_030405/shop.sql"⟩ none,
         Event.close "/tmp/bk/20240102_030405/shop.sql",
         Event.stat "/var/www" StatResult.found,
         Event.run ⟨"rsync", ["-a", "/var/www", "/tmp/bk/20240102_030405"], none⟩ none,
         Event.run ⟨"tar", ["-czf", "/tmp/bk/20240102_030405.tar.gz", "-C",
           "/tmp/bk/20240102_030405", "."], none⟩ (some "exit status 2"),
         Event.run ⟨"rsync", ["-avz", "-e", "ssh -i /root/.ssh/id_rsa",
           "/tmp/bk/20240102_030405.tar.gz", "backup@backup.example.org:/srv/backups"], none⟩ none,
         Event.readDir "/tmp/bk" none]) ∧
    ((removeAllContents (scriptedEnv (fun _ => StatResult.found) (fun _ => none)
          (fun _ => .error "permission denied")).toFileSys 1 ⟨(), []⟩ "/tmp/bk").1 =
        Ret.error "permission denied" ∧
      (run (scriptedEnv (fun _ => StatResult.found) (fun _ => none)
          (fun _ => .error "permission denied"))
          1 ⟨(), []⟩ (exampleConfig "backup" "/root/.ssh/id_rsa") exampleTime).1 = Outcome.success) := by
  decide

end Run

/-! ## The timestamp -/

section Timestamp

theorem digitChar_isDigit (d : Nat) : (digitChar d).isDigit = true := by
  unfold digitChar
  have h : d % 10 < 10 := Nat.mod_lt _ (by decide)
  generalize d % 10 = k at h
  interval_cases k <;> decide

theorem digitChar_ne_slash (d : Nat) : digitChar d ≠ '/' := by
  intro h
  have := digitChar_isDigit d
  rw [h] at this
  exact absurd this (by decide)

theorem appendInt_two (b : List Char) (n : Nat) (h : n < 100) :
    appendInt b (n : Int) 2 = b ++ [digitChar (n / 10), digitChar n] := by
  unfold appendInt
  have h1 : ¬ ((n : Int) < 0) := by omega
  simp [h1, h]

theorem appendInt_four (b : List Char) (y : Int) (h0 : 0 ≤ y) (h9 : y ≤ 9999) :
    appendInt b y 4 = b ++ [digitChar (y.natAbs / 1000), digitChar (y.natAbs / 100),
      digitChar (y.natAbs / 10), digitChar y.natAbs] := by
  unfold appendInt
  have h1 : ¬ (y < 0) := by omega
  have h2 : y.natAbs < 10000 := by omega
  simp [h1, h2]

/-- What `Format` writes for calendar fields in range and a year between 0
and 9999: exactly 15 characters, four year digits, two month digits, two day
digits, `_` at index 8, two hour, two minute and two second digits, all
zero-padded; no character is a path separator. -/
theorem format_of_fields (t : Time) (hv : t.Valid) (h0 : 0 ≤ t.year)
    (h9 : t.year ≤ 9999) :
    (getCurrentTimestamp t).data =
      [digitChar (t.year.natAbs / 1000), digitChar (t.year.natAbs / 100),
       digitChar (t.year.natAbs / 10), digitChar t.year.natAbs,
       digitChar (t.month / 10), digitChar t.month,
       digitChar (t.day / 10), digitChar t.day,
       '_',
       digitChar (t.hour / 10), digitChar t.hour,
       digitChar (t.minute / 10), digitChar t.minute,
       digitChar (t.second / 10), digitChar t.second] ∧
    (getCurrentTimestamp t).length = 15 ∧
    (getCurrentTimestamp t).data[8]? = some '_' ∧
    (∀ i, i < 15 → i ≠ 8 → ∃ c, (getCurrentTimestamp t).data[i]? = some c ∧ c.isDigit = true) ∧
    '/' ∉ (getCurrentTimestamp t).data := by
  obtain ⟨_, hm, _, hd, hh, hmi, hs⟩ := hv
  have hform : (getCurrentTimestamp t).data =
      [digitChar (t.year.natAbs / 1000), digitChar (t.year.natAbs / 100),
       digitChar (t.year.natAbs / 10), digitChar t.year.natAbs,
       digitChar (t.month / 10), digitChar t.month,
       digitChar (t.day / 10), digitChar t.day,
       '_',
       digitChar (t.hour / 10), digitChar t.hour,
       digitChar (t.minute / 10), digitChar t.minute,
       digitChar (t.second / 10), digitChar t.second] := by
    unfold getCurrentTimestamp format20060102_150405
    simp only
    rw [appendInt_four _ _ h0 h9, appendInt_two _ _ (by omega), appendInt_two _ _ (by omega),
      appendInt_two _ _ (by omega), appendInt_two _ _ (by omega), appendInt_two _ _ (by omega)]
    simp
  refine ⟨hform, ?_, ?_, ?_, ?_⟩
  · rw [String.length, hform]
    rfl
  · rw [hform]
    rfl
  · intro i hi h8
    rw [hform]
    interval_cases i <;> first
      | exact absurd rfl h8
      | exact ⟨_, rfl, digitChar_isDigit _⟩
  · rw [hform]
    simp only [List.mem_cons, List.mem_singleton, List.not_mem_nil, or_false, not_or]
    refine ⟨?_, ?_, ?_, ?_, ?_, ?_, ?_, ?_, by decide, ?_, ?_, ?_, ?_, ?_, ?_⟩ <;>
      exact fun h => digitChar_ne_slash _ h.symm

namespace time

theorem isLeap_iff (year : Int) :
    isLeap year = true ↔ year % 4 = 0 ∧ (year % 100 ≠ 0 ∨ year % 400 = 0) := by
  simp [isLeap]

theorem absClock_range (a : Nat) :
    (absClock a).1 ≤ 23 ∧ (absClock a).2.1 ≤ 59 ∧ (absClock a).2.2 ≤ 59 := by
  simp only [absClock, secondsPerDay, secondsPerHour, secondsPerMinute]
  omega

theorem Clock.abs_range (c : Clock) :
    9223372017344465915 ≤ c.abs ∧ c.abs ≤ 9223372040086177283 := by
  have h1 := c.unixNano_int64
  have h2 := c.offset_int32
  have hk : unixToInternal + internalToAbsolute = 9223372028715321600 := by decide
  unfold Clock.abs
  rw [hk]
  norm_num at h1 h2 ⊢
  omega

/-- The month and the day of the month that `absDate` computes from the day
of the year `d`, counted from 0: in range whenever `d` is below 365, or is 365
in a leap year. -/
theorem monthDay_range (leap : Prop) [Decidable leap] (year : Int) (d : Nat) (hd : d ≤ 365)
    (hl : d = 365 → leap) (r : Int × Nat × Nat)
    (hr : r = if leap ∧ d = 59 then (year, 2, 29)
      else
        if (if leap ∧ d > 59 then d - 1 else d) ≥
            daysBefore.getD ((if leap ∧ d > 59 then d - 1 else d) / 31 + 1) 0 then
          (year, (if leap ∧ d > 59 then d - 1 else d) / 31 + 1 + 1,
            (if leap ∧ d > 59 then d - 1 else d) -
              daysBefore.getD ((if leap ∧ d > 59 then d - 1 else d) / 31 + 1) 0 + 1)
        else
          (year, (if leap ∧ d > 59 then d - 1 else d) / 31 + 1,
            (if leap ∧ d > 59 then d - 1 else d) -
              daysBefore.getD ((if leap ∧ d > 59 then d - 1 else d) / 31) 0 + 1)) :
    r.1 = year ∧ 1 ≤ r.2.1 ∧ r.2.1 ≤ 12 ∧ 1 ≤ r.2.2 ∧ r.2.2 ≤ 31 := by
  by_cases h59 : leap ∧ d = 59
  · rw [if_pos h59] at hr
    subst hr
    exact ⟨rfl, by norm_num, by norm_num, by norm_num, by norm_num⟩
  · rw [if_neg h59] at hr
    revert hr
    generalize hday : (if leap ∧ d > 59 then d - 1 else d) = day
    have hday364 : day ≤ 364 := by
      by_cases hgt : leap ∧ d > 59
      · rw [if_pos hgt] at hday
        omega
      · rw [if_neg hgt] at hday
        rcases Nat.lt_or_ge d 365 with h | h
        · omega
        · have h365 : d = 365 := by omega
          exact absurd ⟨hl h365, by omega⟩ hgt
    generalize hm : day / 31 = m
    have hm11 : m ≤ 11 := by omega
    intro hr
    interval_cases m <;>
      simp only [daysBefore, List.getD_cons_succ, List.getD_cons_zero] at hr <;>
      norm_num only at hr <;>
      split_ifs at hr <;> subst hr <;> (refine ⟨rfl, ?_, ?_, ?_, ?_⟩ <;> simp only <;> omega)

/-- The date `absDate` computes for an absolute time that the clock can
deliver: the year has four digits, the month and the day are in range. -/
theorem absDate_range (a : Nat) (hl : 9223372017344465915 ≤ a)
    (hu : a ≤ 9223372040086177283) :
    1609 ≤ (absDate a).1 ∧ (absDate a).1 ≤ 2331 ∧
      1 ≤ (absDate a).2.1 ∧ (absDate a).2.1 ≤ 12 ∧
      1 ≤ (absDate a).2.2 ∧ (absDate a).2.2 ≤ 31 := by
  generalize hr : absDate a = r
  unfold absDate at hr
  simp only [secondsPerDay, secondsPerHour, secondsPerMinute, daysPer400Years, daysPer100Years,
    daysPer4Years, absoluteZeroYear, Nat.shiftRight_eq_div_pow] at hr
  norm_num only at hr
  revert hr
  generalize hd0 : a / 86400 = d0
  generalize hn1 : d0 / 146097 = n1
  generalize hd1 : d0 - 146097 * n1 = d1
  generalize hm2 : d1 / 36524 = m2
  generalize hn2 : m2 - m2 / 4 = n2
  generalize hd2 : d1 - 36524 * n2 = d2
  generalize hn3 : d2 / 1461 = n3
  generalize hd3 : d2 - 1461 * n3 = d3
  generalize hm4 : d3 / 365 = m4
  generalize hn4 : m4 - m4 / 4 = n4
  generalize hd4 : d3 - 365 * n4 = d4
  generalize hy : ((400 * n1 + 100 * n2 + 4 * n3 + n4 : Nat) : Int) + -292277022399 = year
  intro hr
  have hyear : 1609 ≤ year ∧ year ≤ 2331 := by omega
  have hd4le : d4 ≤ 365 := by omega
  have hlast : d4 = 365 → isLeap year = true := by
    intro h
    rw [isLeap_iff]
    have h3 : d3 = 1460 ∧ n4 = 3 := by omega
    have hd1le : d1 ≤ 146096 := by omega
    have hm2le : m2 ≤ 4 := by omega
    have hd2le : d2 ≤ 36524 := by
      interval_cases m2 <;> omega
    have hn3le : n3 ≤ 24 := by omega
    rcases Nat.lt_or_ge n3 24 with h24 | h24
    · omega
    · have h2 : d2 = 36524 ∧ n3 = 24 := by omega
      have h1 : d1 = 146096 ∧ n2 = 3 := by
        interval_cases m2 <;> omega
      omega
  obtain ⟨h1, h2, h3, h4, h5⟩ := monthDay_range (isLeap year = true) year d4 hd4le hlast r hr.symm
  rw [h1]
  exact ⟨hyear.1, hyear.2, h2, h3, h4, h5⟩

end time

/-- C7. For every current time, that is, for every reading of the clock by
`time.Now()`, `getCurrentTimestamp` returns a string of exactly 15 characters
of the form `YYYYMMDD_HHMMSS`: the four digits of the year, the two digits of
the month (1 to 12) and of the day (1 to 31), `_` at index 8, then the two
digits of the hour (0 to 23), of the minute and of the second (0 to 59), all
zero-padded; no character is a path separator. -/
theorem getCurrentTimestamp_format (c : time.Clock) :
    let t := time.Now c
    (0 ≤ t.year ∧ t.year ≤ 9999 ∧ t.Valid) ∧
    (getCurrentTimestamp t).data =
      [digitChar (t.year.natAbs / 1000), digitChar (t.year.natAbs / 100),
       digitChar (t.year.natAbs / 10), digitChar t.year.natAbs,
       digitChar (t.month / 10), digitChar t.month,
       digitChar (t.day / 10), digitChar t.day,
       '_',
       digitChar (t.hour / 10), digitChar t.hour,
       digitChar (t.minute / 10), digitChar t.minute,
       digitChar (t.second / 10), digitChar t.second] ∧
    (getCurrentTimestamp t).length = 15 ∧
    (getCurrentTimestamp t).data[8]? = some '_' ∧
    (∀ i, i < 15 → i ≠ 8 → ∃ ch, (getCurrentTimestamp t).data[i]? = some ch ∧
      ch.isDigit = true) ∧
    '/' ∉ (getCurrentTimestamp t).data := by
  intro t
  obtain ⟨hl, hu⟩ := c.abs_range
  obtain ⟨hy0, hy9, hm1, hm12, hd1, hd31⟩ := time.absDate_range c.abs hl hu
  obtain ⟨hh, hmi, hs⟩ := time.absClock_range c.abs
  have hv : t.Valid := ⟨hm1, hm12, hd1, hd31, hh, hmi, hs⟩
  have h0 : 0 ≤ t.year := le_trans (by decide) hy0
  have h9 : t.year ≤ 9999 := le_trans hy9 (by decide)
  exact ⟨⟨h0, h9, hv⟩, format_of_fields t hv h0 h9⟩

/-- C7 (witness). When the clock reads 2024-01-02 03:04:05 UTC in the zone
UTC, the timestamp is `20240102_030405`. -/
theorem getCurrentTimestamp_format_witness :
    getCurrentTimestamp (time.Now time.exampleClock) = "20240102_030405" ∧
      (getCurrentTimestamp (time.Now time.exampleClock)).length = 15 :=
  ⟨by decide, (getCurrentTimestamp_format time.exampleClock).2.2.1⟩

end Timestamp

/-! ## Lexical path processing -/

namespace path

theorem splitChars_ne_nil (l : List Char) : splitChars l ≠ [] := by
  cases l with
  | nil => simp [splitChars]
  | cons c cs =>
    unfold splitChars
    split_ifs
    · simp
    · split <;> simp

theorem splitChars_of_no_slash (n : List Char) (h : '/' ∉ n) : splitChars n = [n] := by
  induction n with
  | nil => rfl
  | cons c cs ih =>
    have hc : c ≠ '/' := fun e => h (by simp [e])
    have hcs : '/' ∉ cs := fun e => h (by simp [e])
    unfold splitChars
    rw [if_neg hc, ih hcs]

theorem splitChars_cons_slash (x : List Char) : splitChars ('/' :: x) = [] :: splitChars x := by
  rw [splitChars, if_pos rfl]

theorem splitChars_no_slash_append (a x : List Char) (h : '/' ∉ a) :
    splitChars (a ++ '/' :: x) = a :: splitChars x := by
  induction a with
  | nil => simpa using splitChars_cons_slash x
  | cons c cs ih =>
    have hc : c ≠ '/' := fun e => h (by simp [e])
    have hcs : '/' ∉ cs := fun e => h (by simp [e])
    rw [List.cons_append, splitChars, if_neg hc, ih hcs]

theorem splitChars_append_slash (d n : List Char) (h : '/' ∉ n) :
    splitChars (d ++ '/' :: n) = splitChars d ++ [n] := by
  induction d with
  | nil => simp [splitChars_cons_slash, splitChars_of_no_slash n h, splitChars]
  | cons c cs ih =>
    rw [List.cons_append, splitChars, splitChars]
    split_ifs with hc
    · rw [ih]; rfl
    · rw [ih]
      cases hs : splitChars cs with
      | nil => exact absurd hs (splitChars_ne_nil cs)
      | cons a t => rfl

theorem splitChars_no_slash (l : List Char) : ∀ c ∈ splitChars l, '/' ∉ c := by
  induction l with
  | nil => simp [splitChars]
  | cons c cs ih =>
    unfold splitChars
    split_ifs with hc
    · intro x hx
      rcases List.mem_cons.1 hx with rfl | hx
      · simp
      · exact ih x hx
    · cases hs : splitChars cs with
      | nil => exact absurd hs (splitChars_ne_nil cs)
      | cons a t =>
        rw [hs] at ih
        intro x hx
        rcases List.mem_cons.1 hx with rfl | hx
        · intro hm
          rcases List.mem_cons.1 hm with e | hm
          · exact hc e.symm
          · exact ih a (by simp) hm
        · exact ih x (by simp [hx])

open Tree (ValidName)

theorem components_no_slash (p : String) : ∀ c ∈ components p, '/' ∉ c.data := by
  intro c hc
  unfold components at hc
  obtain ⟨l, hl, rfl⟩ := List.mem_map.1 hc
  exact splitChars_no_slash _ l hl

theorem components_of_no_slash (n : String) (h : '/' ∉ n.data) : components n = [n] := by
  unfold components
  rw [splitChars_of_no_slash _ h]
  rfl

theorem components_append_slash (d n : String) (h : '/' ∉ n.data) :
    components (d ++ "/" ++ n) = components d ++ [n] := by
  unfold components
  have : (d ++ "/" ++ n).data = d.data ++ '/' :: n.data := by
    simp [String.data_append]
  rw [this, splitChars_append_slash _ _ h]
  simp

theorem components_slash_append (x : String) :
    components ("/" ++ x) = "" :: components x := by
  unfold components
  have : ("/" ++ x).data = '/' :: x.data := by simp [String.data_append]
  rw [this, splitChars_cons_slash]
  rfl

theorem components_no_slash_append (a x : String) (h : '/' ∉ a.data) :
    components (a ++ "/" ++ x) = a :: components x := by
  unfold components
  have : (a ++ "/" ++ x).data = a.data ++ '/' :: x.data := by
    simp [String.data_append]
  rw [this, splitChars_no_slash_append _ _ h]
  rfl

theorem components_joinSlash (cs : List String) (hne : cs ≠ [])
    (h : ∀ c ∈ cs, '/' ∉ c.data) : components (joinSlash cs) = cs := by
  induction cs with
  | nil => exact absurd rfl hne
  | cons a rest ih =>
    cases rest with
    | nil => exact components_of_no_slash a (h a (by simp))
    | cons b rest' =>
      rw [joinSlash, components_no_slash_append _ _ (h a (by simp)),
        ih (by simp) (fun c hc => h c (by simp [hc]))]

theorem validName_plain {n : String} (h : ValidName n) : ¬ (n = "" ∨ n = ".") ∧ n ≠ ".." :=
  ⟨fun e => e.elim h.1 h.2.1, h.2.2.1⟩

theorem cleanStep_valid (r : Bool) (st : Lex) (n : String) (h : ValidName n) :
    cleanStep r st n = ⟨st.ups, n :: st.names⟩ := by
  unfold cleanStep
  rw [if_neg (validName_plain h).1, if_neg (validName_plain h).2]

theorem cleanStep_skip (r : Bool) (st : Lex) (c : String) (h : c = "" ∨ c = ".") :
    cleanStep r st c = st := by
  unfold cleanStep
  rw [if_pos h]

theorem foldl_cleanStep_valid (r : Bool) (cs : List String) (h : ∀ c ∈ cs, ValidName c)
    (st : Lex) : cs.foldl (cleanStep r) st = ⟨st.ups, cs.reverse ++ st.names⟩ := by
  induction cs generalizing st with
  | nil => rfl
  | cons c rest ih =>
    rw [List.foldl_cons, cleanStep_valid r st c (h c (by simp)),
      ih (fun x hx => h x (by simp [hx]))]
    simp

theorem foldl_cleanStep_ups (k u : Nat) :
    (List.replicate k "..").foldl (cleanStep false) ⟨u, []⟩ = ⟨u + k, []⟩ := by
  induction k generalizing u with
  | zero => rfl
  | succ k ih =>
    rw [List.replicate_succ, List.foldl_cons]
    have : cleanStep false ⟨u, []⟩ ".." = ⟨u + 1, []⟩ := by
      unfold cleanStep
      rw [if_neg (by decide), if_pos rfl]
      rfl
    rw [this, ih]
    congr 1
    omega

/-- The lexical state is well-formed: every ordinary element is a valid name. -/
theorem cleanStep_names_valid (r : Bool) (st : Lex) (c : String) (hc : '/' ∉ c.data)
    (h : ∀ n ∈ st.names, ValidName n) : ∀ n ∈ (cleanStep r st c).names, ValidName n := by
  obtain ⟨u, names⟩ := st
  by_cases h1 : c = "" ∨ c = "."
  · rw [cleanStep_skip r _ c h1]; exact h
  · by_cases h2 : c = ".."
    · cases names with
      | nil => cases r <;> simp [cleanStep, h1, h2]
      | cons a rest =>
        have : (cleanStep r ⟨u, a :: rest⟩ c).names = rest := by simp [cleanStep, h1, h2]
        rw [this]
        intro n hm
        exact h n (by simp [hm])
    · have : (cleanStep r ⟨u, names⟩ c).names = c :: names := by simp [cleanStep, h1, h2]
      rw [this]
      intro n hm
      rcases List.mem_cons.1 hm with rfl | hm
      · exact ⟨fun e => h1 (Or.inl e), fun e => h1 (Or.inr e), h2, hc⟩
      · exact h n hm

theorem foldl_names_valid (r : Bool) (cs : List String) (hcs : ∀ c ∈ cs, '/' ∉ c.data)
    (st : Lex) (h : ∀ n ∈ st.names, ValidName n) :
    ∀ n ∈ (cs.foldl (cleanStep r) st).names, ValidName n := by
  induction cs generalizing st with
  | nil => exact h
  | cons c rest ih =>
    rw [List.foldl_cons]
    exact ih (fun x hx => hcs x (by simp [hx])) _
      (cleanStep_names_valid r st c (hcs c (by simp)) h)

theorem cleanStep_rooted_ups (st : Lex) (c : String) : (cleanStep true st c).ups = st.ups := by
  obtain ⟨u, names⟩ := st
  by_cases h1 : c = "" ∨ c = "."
  · rw [cleanStep_skip true _ c h1]
  · by_cases h2 : c = ".."
    · cases names <;> simp [cleanStep, h1, h2]
    · simp [cleanStep, h1, h2]

theorem foldl_rooted_ups (cs : List String) (st : Lex) :
    (cs.foldl (cleanStep true) st).ups = st.ups := by
  induction cs generalizing st with
  | nil => rfl
  | cons c rest ih => rw [List.foldl_cons, ih, cleanStep_rooted_ups]

theorem cleanStep_names_indep (r r' : Bool) (st st' : Lex) (c : String)
    (h : st.names = st'.names) : (cleanStep r st c).names = (cleanStep r' st' c).names := by
  obtain ⟨u, names⟩ := st
  obtain ⟨u', names'⟩ := st'
  simp only at h
  subst h
  by_cases h1 : c = "" ∨ c = "."
  · rw [cleanStep_skip r _ c h1, cleanStep_skip r' _ c h1]
  · by_cases h2 : c = ".."
    · cases names <;> cases r <;> cases r' <;> simp [cleanStep, h1, h2]
    · simp [cleanStep, h1, h2]

theorem foldl_names_indep (r r' : Bool) (cs : List String) (st st' : Lex)
    (h : st.names = st'.names) :
    (cs.foldl (cleanStep r) st).names = (cs.foldl (cleanStep r') st').names := by
  induction cs generalizing st st' with
  | nil => exact h
  | cons c rest ih =>
    rw [List.foldl_cons, List.foldl_cons]
    exact ih _ _ (cleanStep_names_indep r r' st st' c h)

theorem lexical_names_valid (p : String) : ∀ n ∈ (lexical p).names, ValidName n := by
  unfold lexical
  exact foldl_names_valid _ _ (components_no_slash p) _ (by simp)

theorem lexical_rooted_ups (p : String) (h : isRooted p = true) : (lexical p).ups = 0 := by
  unfold lexical
  rw [h, foldl_rooted_ups]

theorem joinSlash_data_cons (c : String) (rest : List String) :
    ∃ t, (joinSlash (c :: rest)).data = c.data ++ t := by
  cases rest with
  | nil => exact ⟨[], by simp [joinSlash]⟩
  | cons b rest' => exact ⟨'/' :: (joinSlash (b :: rest')).data, by simp [joinSlash, String.data_append]⟩

theorem isRooted_joinSlash (c : String) (rest : List String) (hne : c ≠ "")
    (hs : '/' ∉ c.data) : isRooted (joinSlash (c :: rest)) = false := by
  obtain ⟨t, ht⟩ := joinSlash_data_cons c rest
  unfold isRooted
  rw [ht]
  have hd : c.data ≠ [] := fun e => hne (String.ext e)
  rw [List.head?_append_of_ne_nil _ hd]
  cases hc : c.data with
  | nil => exact absurd hc hd
  | cons a l =>
    have : a ≠ '/' := fun e => hs (by rw [hc]; simp [e])
    simp [this]

theorem isRooted_append (d x : String) (hne : d ≠ "") : isRooted (d ++ x) = isRooted d := by
  unfold isRooted
  have hd : d.data ≠ [] := fun e => hne (String.ext e)
  rw [String.data_append, List.head?_append_of_ne_nil _ hd]

/-- Reading back what `render` wrote gives the same state. -/
theorem render_roundtrip (r : Bool) (st : Lex) (hv : ∀ n ∈ st.names, ValidName n)
    (hr : r = true → st.ups = 0) :
    isRooted (render r st) = r ∧
      (components (render r st)).foldl (cleanStep r) ⟨0, []⟩ = st := by
  obtain ⟨u, names⟩ := st
  have hvr : ∀ n ∈ names.reverse, ValidName n := fun n hn => hv n (List.mem_reverse.1 hn)
  cases r with
  | true =>
    have hu : u = 0 := hr rfl
    subst hu
    have hrender : render true ⟨0, names⟩ = "/" ++ joinSlash names.reverse := by
      simp [render]
    rw [hrender]
    refine ⟨by simp [isRooted, String.data_append], ?_⟩
    rw [components_slash_append, List.foldl_cons, cleanStep_skip _ _ _ (Or.inl rfl)]
    by_cases hn : names.reverse = []
    · rw [hn]
      have : names = [] := List.reverse_eq_nil_iff.1 hn
      subst this
      decide
    · rw [components_joinSlash _ hn (fun c hc => (hvr c hc).2.2.2),
        foldl_cleanStep_valid _ _ hvr]
      simp
  | false =>
    cases hcs : List.replicate u ".." ++ names.reverse with
    | nil =>
      have h1 : u = 0 := by
        cases u with
        | zero => rfl
        | succ k => simp [List.replicate_succ] at hcs
      have h2 : names = [] := by
        subst h1
        simpa using hcs
      subst h1 h2
      decide
    | cons c rest =>
      have hrender : render false ⟨u, names⟩ = joinSlash (c :: rest) := by
        simp only [render]
        rw [hcs]
        simp
      have hall : ∀ x ∈ c :: rest, '/' ∉ x.data ∧ x ≠ "" := by
        intro x hx
        rw [← hcs] at hx
        rcases List.mem_append.1 hx with h | h
        · rw [List.eq_of_mem_replicate h]
          exact ⟨by decide, by decide⟩
        · exact ⟨(hvr x h).2.2.2, (hvr x h).1⟩
      rw [hrender]
      refine ⟨isRooted_joinSlash c rest (hall c (by simp)).2 (hall c (by simp)).1, ?_⟩
      rw [components_joinSlash _ (by simp) (fun x hx => (hall x hx).1), ← hcs,
        List.foldl_append, foldl_cleanStep_ups, foldl_cleanStep_valid _ _ hvr]
      simp

theorem Clean_eq (p : String) (h : p ≠ "") : Clean p = render (isRooted p) (lexical p) := by
  unfold Clean
  rw [if_neg h]

theorem isRooted_Clean (p : String) (h : p ≠ "") : isRooted (Clean p) = isRooted p := by
  rw [Clean_eq p h]
  exact (render_roundtrip _ _ (lexical_names_valid p) (lexical_rooted_ups p)).1

theorem lexical_Clean (p : String) : lexical (Clean p) = lexical p := by
  by_cases h : p = ""
  · subst h
    decide
  · have hr := render_roundtrip _ _ (lexical_names_valid p) (lexical_rooted_ups p)
    unfold lexical
    rw [isRooted_Clean p h]
    rw [Clean_eq p h]
    exact hr.2

theorem lexical_append_name (d n : String) (hd : d ≠ "") (hn : ValidName n) :
    isRooted (d ++ "/" ++ n) = isRooted d ∧
      lexical (d ++ "/" ++ n) = ⟨(lexical d).ups, n :: (lexical d).names⟩ := by
  have hr : isRooted (d ++ "/" ++ n) = isRooted d := by
    rw [String.append_assoc, isRooted_append d _ hd]
  refine ⟨hr, ?_⟩
  unfold lexical
  rw [hr, components_append_slash d n hn.2.2.2, List.foldl_append, List.foldl_cons,
    List.foldl_nil, cleanStep_valid _ _ _ hn]

theorem lexical_name (n : String) (hn : ValidName n) :
    isRooted n = false ∧ lexical n = ⟨0, [n]⟩ := by
  have hr : isRooted n = false := by
    have := isRooted_joinSlash n [] hn.1 hn.2.2.2
    simpa [joinSlash] using this
  refine ⟨hr, ?_⟩
  unfold lexical
  rw [components_of_no_slash n hn.2.2.2, List.foldl_cons, List.foldl_nil,
    cleanStep_valid _ _ _ hn]

/-- `path.Join` of a directory and a valid name: the elements of the
directory followed by the name. -/
theorem lexical_Join (d n : String) (hn : ValidName n) :
    isRooted (Join [d, n]) = isRooted d ∧
      lexical (Join [d, n]) = ⟨(lexical d).ups, n :: (lexical d).names⟩ := by
  by_cases hd : d = ""
  · subst hd
    have hj : Join ["", n] = Clean n := by
      simp [Join, hn.1, joinSlash]
    rw [hj, lexical_Clean, isRooted_Clean n hn.1]
    have := lexical_name n hn
    have h0 : lexical "" = ⟨0, []⟩ := by decide
    refine ⟨by rw [this.1]; decide, by rw [this.2, h0]⟩
  · have hj : Join [d, n] = Clean (d ++ "/" ++ n) := by
      simp [Join, hn.1, hd, joinSlash]
    have hne : d ++ "/" ++ n ≠ "" := by
      intro e
      have := congrArg String.length e
      simp at this
      exact absurd this.1.2 (by decide)
    rw [hj, lexical_Clean, isRooted_Clean _ hne]
    exact lexical_append_name d n hd hn

end path

namespace filepath

theorem Join_eq_path_Join (d n : String) (hn : n ≠ "") : Join [d, n] = path.Join [d, n] := by
  by_cases hd : d = ""
  · subst hd
    simp [Join, path.Join, hn]
  · simp [Join, path.Join, hn, hd]

end filepath

/-! ## The file-system layout -/

section Layout

open Tree (ValidName)

variable {σ : Type}

theorem utod_chars (fuel u : Nat) (acc : List Char) (h : ∀ c ∈ acc, stampChar c) :
    ∀ c ∈ utod fuel u acc, stampChar c := by
  induction fuel generalizing u acc with
  | zero => exact h
  | succ n ih =>
    have hacc : ∀ c ∈ digitChar u :: acc, stampChar c := by
      intro c hc
      rcases List.mem_cons.1 hc with rfl | hc
      · exact Or.inl (digitChar_isDigit u)
      · exact h c hc
    unfold utod
    split_ifs
    · exact hacc
    · exact ih _ _ hacc

theorem appendInt_chars (b : List Char) (x : Int) (w : Nat) :
    ∃ t, appendInt b x w = b ++ t ∧ ∀ c ∈ t, stampChar c := by
  have hsign : ∃ t0, (if x < 0 then b ++ ['-'] else b) = b ++ t0 ∧ ∀ c ∈ t0, stampChar c := by
    split_ifs
    · exact ⟨['-'], rfl, by simp [stampChar]⟩
    · exact ⟨[], by simp, by simp⟩
  obtain ⟨t0, h0, hc0⟩ := hsign
  have hd : ∀ d, stampChar (digitChar d) := fun d => Or.inl (digitChar_isDigit d)
  unfold appendInt
  simp only
  rw [h0]
  by_cases h2 : w = 2 ∧ x.natAbs < 100
  · rw [if_pos h2]
    refine ⟨t0 ++ [digitChar (x.natAbs / 10), digitChar x.natAbs], by simp, ?_⟩
    intro c hc
    rcases List.mem_append.1 hc with hc | hc
    · exact hc0 c hc
    · simp at hc
      rcases hc with rfl | rfl <;> exact hd _
  · rw [if_neg h2]
    by_cases h4 : w = 4 ∧ x.natAbs < 10000
    · rw [if_pos h4]
      refine ⟨t0 ++ [digitChar (x.natAbs / 1000), digitChar (x.natAbs / 100),
        digitChar (x.natAbs / 10), digitChar x.natAbs], by simp, ?_⟩
      intro c hc
      rcases List.mem_append.1 hc with hc | hc
      · exact hc0 c hc
      · simp at hc
        rcases hc with rfl | rfl | rfl | rfl <;> exact hd _
    · rw [if_neg h4]
      refine ⟨t0 ++ (List.replicate (w - (utod (x.natAbs + 1) x.natAbs []).length) '0' ++
        utod (x.natAbs + 1) x.natAbs []), by simp, ?_⟩
      intro c hc
      rcases List.mem_append.1 hc with hc | hc
      · exact hc0 c hc
      · rcases List.mem_append.1 hc with hc | hc
        · rw [List.eq_of_mem_replicate hc]
          exact Or.inl (by decide)
        · exact utod_chars _ _ _ (by simp) c hc

/-- Every timestamp consists of digits, signs and `_`, and contains `_`. -/
theorem timestamp_chars (now : Time) :
    (∀ c ∈ (getCurrentTimestamp now).data, stampChar c) ∧
      '_' ∈ (getCurrentTimestamp now).data := by
  unfold getCurrentTimestamp format20060102_150405
  simp only
  obtain ⟨t1, h1, c1⟩ := appendInt_chars [] now.year 4
  obtain ⟨t2, h2, c2⟩ := appendInt_chars (appendInt [] now.year 4) now.month 2
  obtain ⟨t3, h3, c3⟩ := appendInt_chars
    (appendInt (appendInt [] now.year 4) now.month 2) now.day 2
  obtain ⟨t4, h4, c4⟩ := appendInt_chars
    (appendInt (appendInt (appendInt [] now.year 4) now.month 2) now.day 2 ++ ['_']) now.hour 2
  obtain ⟨t5, h5, c5⟩ := appendInt_chars (appendInt
    (appendInt (appendInt (appendInt [] now.year 4) now.month 2) now.day 2 ++ ['_']) now.hour 2)
    now.minute 2
  obtain ⟨t6, h6, c6⟩ := appendInt_chars (appendInt (appendInt
    (appendInt (appendInt (appendInt [] now.year 4) now.month 2) now.day 2 ++ ['_']) now.hour 2)
    now.minute 2) now.second 2
  rw [h6, h5, h4, h3, h2, h1]
  constructor
  · intro c hc
    simp only [List.mem_append, List.mem_singleton, List.nil_append] at hc
    rcases hc with (((((hc | hc) | hc) | hc) | hc) | hc) | hc
    · exact c1 c hc
    · exact c2 c hc
    · exact c3 c hc
    · exact Or.inr (Or.inr hc)
    · exact c4 c hc
    · exact c5 c hc
    · exact c6 c hc
  · simp

theorem not_stampChar_slash : ¬ stampChar '/' := by
  unfold stampChar
  decide

/-- A string that contains a character other than `.` and no `/` is a valid name. -/
theorem validName_of_mem (n : String) (c : Char) (hc : c ∈ n.data) (hdot : c ≠ '.')
    (hs : '/' ∉ n.data) : ValidName n := by
  refine ⟨?_, ?_, ?_, hs⟩
  · rintro rfl
    simp at hc
  · rintro rfl
    have : c ∈ ['.'] := hc
    simp at this
    exact hdot this
  · rintro rfl
    have : c ∈ ['.', '.'] := hc
    simp at this
    exact hdot this

theorem timestamp_validName (now : Time) : ValidName (getCurrentTimestamp now) := by
  obtain ⟨h1, h2⟩ := timestamp_chars now
  exact validName_of_mem _ '_' h2 (by decide) (fun h => not_stampChar_slash (h1 _ h))

theorem archiveName_validName (now : Time) :
    ValidName (getCurrentTimestamp now ++ ".tar.gz") := by
  obtain ⟨h1, h2⟩ := timestamp_chars now
  refine validName_of_mem _ '_' (by simp [String.data_append, h2]) (by decide) ?_
  rw [String.data_append]
  intro h
  rcases List.mem_append.1 h with h | h
  · exact not_stampChar_slash (h1 _ h)
  · exact absurd h (by decide)

theorem dumpName_validName (name : String) (h : '/' ∉ name.data) :
    ValidName (name ++ ".sql") := by
  refine validName_of_mem _ 's' (by simp [String.data_append]) (by decide) ?_
  rw [String.data_append]
  intro hm
  rcases List.mem_append.1 hm with hm | hm
  · exact h hm
  · exact absurd hm (by decide)

theorem usesLayout_of_prep {config : Config} {now : Time} {ev : Event}
    (h : PrepEvent config now ev) : UsesLayout config now ev := by
  cases ev with
  | run cmd err => exact Or.inl h
  | stat _ _ => exact h
  | mkdirAll _ _ => exact h
  | create _ _ => exact h
  | close _ => exact h
  | chmod _ _ => exact h.elim
  | readDir _ _ => exact h.elim
  | remove _ _ => exact h.elim

theorem usesLayout_of_cleanup {config : Config} {now : Time} {ev : Event}
    (h : ev.isCleanup = true) : UsesLayout config now ev := by
  cases ev <;> simp_all [Event.isCleanup, UsesLayout]

theorem run_uses_layout (env : Env σ) (fuel : Nat) (s : σ) (config : Config) (now : Time) :
    ∀ ev ∈ (run env fuel ⟨s, []⟩ config now).2.trace, UsesLayout config now ev := by
  obtain ⟨pre, rest, htr, hpre, hrest⟩ := run_shape env fuel s config now
  rw [htr]
  intro ev hev
  rcases List.mem_append.1 hev with h | h
  · exact usesLayout_of_prep (hpre ev h)
  · rcases hrest with rfl | ⟨arch, sel, rfl, harch, hsel⟩
    · cases h
    · rcases List.mem_append.1 h with h | h
      · rcases harch with ⟨err, rfl⟩ | ⟨err, rfl⟩
        · simp at h
          subst h
          exact Or.inr (Or.inl rfl)
        · simp at h
          rcases h with rfl | rfl
          · exact Or.inr (Or.inl rfl)
          · rfl
      · have hship : ∀ cmd, ShipCalls cmd sel →
            (cmd = rsaSyncCmd config.Remote (archivePath config now) ∨
              cmd = userSyncCmd config.Remote (archivePath config now)) →
            UsesLayout config now ev := by
          intro cmd hs hc
          rcases hs with ⟨err, rfl⟩ | ⟨cl, rfl, hcl⟩
          · simp at h
            subst h
            exact Or.inr (Or.inr hc)
          · rcases List.mem_cons.1 h with rfl | h
            · exact Or.inr (Or.inr hc)
            · exact usesLayout_of_cleanup (hcl ev h)
        unfold SelectionCalls at hsel
        split_ifs at hsel
        · exact hship _ hsel (Or.inl rfl)
        · exact hship _ hsel (Or.inr rfl)
        · subst hsel
          cases h

theorem parts_Join (d n : String) (hn : ValidName n) :
    path.SameBase (path.Join [d, n]) d ∧ path.parts (path.Join [d, n]) = path.parts d ++ [n] := by
  obtain ⟨h1, h2⟩ := path.lexical_Join d n hn
  refine ⟨⟨h1, by rw [h2]⟩, ?_⟩
  unfold path.parts
  rw [h2]
  simp

theorem sameBase_trans {p q r : String} (h1 : path.SameBase p q) (h2 : path.SameBase q r) :
    path.SameBase p r :=
  ⟨h1.1.trans h2.1, h1.2.trans h2.2⟩

/-- C8 (amended). For every configuration whose database name contains no
`/`, and every current time: every call of `run` is made on the paths of the
layout (staging directory created, dump file created inside it, the copy
goes into the staging directory, `tar` writes the archive from the staging
directory, the sync commands ship the archive); the staging directory is the
entry `<ts>` of the local root, the dump file is the entry `<db-name>.sql` of
the staging directory, and the archive is the entry `<ts>.tar.gz` of the local
root, which does not lie under the staging directory. -/
theorem run_layout (env : Env σ) (fuel : Nat) (s : σ) (config : Config) (now : Time)
    (hname : '/' ∉ config.Mysql.Name.data) :
    (∀ ev ∈ (run env fuel ⟨s, []⟩ config now).2.trace, UsesLayout config now ev) ∧
    (path.SameBase (stagingDir config now) config.Local.Dir ∧
      path.parts (stagingDir config now) =
        path.parts config.Local.Dir ++ [getCurrentTimestamp now]) ∧
    (path.SameBase (dumpPath config now) config.Local.Dir ∧
      path.parts (dumpPath config now) =
        path.parts (stagingDir config now) ++ [config.Mysql.Name ++ ".sql"]) ∧
    (path.SameBase (archivePath config now) config.Local.Dir ∧
      path.parts (archivePath config now) =
        path.parts config.Local.Dir ++ [getCurrentTimestamp now ++ ".tar.gz"]) ∧
    ¬ (path.parts (stagingDir config now) <+: path.parts (archivePath config now)) := by
  have hs := parts_Join config.Local.Dir _ (timestamp_validName now)
  have hd := parts_Join (stagingDir config now) _ (dumpName_validName _ hname)
  have ha := parts_Join config.Local.Dir _ (archiveName_validName now)
  refine ⟨run_uses_layout env fuel s config now, hs, ⟨sameBase_trans hd.1 hs.1, hd.2⟩, ha, ?_⟩
  unfold stagingDir archivePath
  rw [hs.2, ha.2, List.prefix_append_right_inj]
  intro h
  have hlen := h.length_le
  have heq := h.eq_of_length (by simp)
  simp only [List.cons.injEq, and_true] at heq
  have := congrArg String.length heq
  simp at this
  exact absurd this (by decide)

/-- C8 (witness). The amended claim at the example configuration. -/
theorem run_layout_witness :
    '/' ∉ (exampleConfig "" "").Mysql.Name.data ∧
      dumpPath (exampleConfig "" "") exampleTime = "/tmp/bk/20240102_030405/shop.sql" ∧
      path.parts (dumpPath (exampleConfig "" "") exampleTime) =
        path.parts (stagingDir (exampleConfig "" "") exampleTime) ++ ["shop" ++ ".sql"] :=
  ⟨by decide, by decide,
    (run_layout (scriptedEnv (fun _ => StatResult.found) (fun _ => none) (fun _ => .ok []))
      1 () (exampleConfig "" "") exampleTime (by decide)).2.2.1.2⟩

/-- C8 (counterexample). With the database name `../shop` the dump file is
`/tmp/bk/shop.sql`: it lies in the local root, not in the staging directory. -/
theorem dump_outside_staging :
    stagingDir { exampleConfig "" "" with Mysql := ⟨"root", "secret", "127.0.0.1", "3306",
        "../shop"⟩ } exampleTime = "/tmp/bk/20240102_030405" ∧
      dumpPath { exampleConfig "" "" with Mysql := ⟨"root", "secret", "127.0.0.1", "3306",
        "../shop"⟩ } exampleTime = "/tmp/bk/shop.sql" ∧
      ¬ (path.parts (stagingDir { exampleConfig "" "" with Mysql := ⟨"root", "secret",
          "127.0.0.1", "3306", "../shop"⟩ } exampleTime) <+:
        path.parts (dumpPath { exampleConfig "" "" with Mysql := ⟨"root", "secret",
          "127.0.0.1", "3306", "../shop"⟩ } exampleTime)) ∧
      Event.create "/tmp/bk/shop.sql" none ∈
        (run (scriptedEnv (fun _ => StatResult.found) (fun _ => none) (fun _ => .ok [])) 1
          ⟨(), []⟩ { exampleConfig "" "" with Mysql := ⟨"root", "secret", "127.0.0.1", "3306",
            "../shop"⟩ } exampleTime).2.trace := by
  decide

end Layout

/-! ## The directory tree -/

namespace Tree

theorem find_filter (s : FS) (f : Pos → Bool) (q : Pos) :
    find (s.filter (fun e => f e.1)) q = if f q then find s q else none := by
  induction s with
  | nil => simp [find]
  | cons e rest ih =>
    by_cases he : f e.1 = true
    · rw [List.filter_cons_of_pos (by simpa using he)]
      unfold find
      by_cases hq : e.1 = q
      · rw [if_pos hq, if_pos hq, ← hq, he]; simp
      · rw [if_neg hq, if_neg hq, ih]
    · rw [List.filter_cons_of_neg (by simpa using he), ih]
      by_cases hq : e.1 = q
      · have : f q = false := by rw [← hq]; simpa using he
        simp [this]
      · conv_rhs => rw [find, if_neg hq]

theorem find_some_mem {s : FS} {q : Pos} {b : Bool} (h : find s q = some b) : (q, b) ∈ s := by
  induction s with
  | nil => simp [find] at h
  | cons e rest ih =>
    unfold find at h
    by_cases hq : e.1 = q
    · rw [if_pos hq] at h
      have : e = (q, b) := by
        cases e
        simp at hq h
        simp [hq, h]
      simp [this]
    · rw [if_neg hq] at h
      exact List.mem_cons_of_mem _ (ih h)

theorem find_none_of_not_mem {s : FS} {q : Pos} (h : q ∉ s.map Prod.fst) : find s q = none := by
  cases hf : find s q with
  | none => rfl
  | some b => exact absurd (List.mem_map_of_mem Prod.fst (find_some_mem hf)) h

theorem mem_find {s : FS} {q : Pos} {b : Bool} (hn : (s.map Prod.fst).Nodup)
    (h : (q, b) ∈ s) : find s q = some b := by
  induction s with
  | nil => cases h
  | cons e rest ih =>
    rw [List.map_cons, List.nodup_cons] at hn
    unfold find
    rcases List.mem_cons.1 h with h | h
    · subst h
      simp
    · have : e.1 ≠ q := by
        intro he
        exact hn.1 (he ▸ List.mem_map_of_mem Prod.fst h)
      rw [if_neg this]
      exact ih hn.2 h

theorem lookup_root (s : FS) : lookup s [] = some true := by
  simp [lookup]

theorem lookup_of_ne_nil (s : FS) {q : Pos} (h : q ≠ []) : lookup s q = find s q := by
  simp [lookup, h]

theorem lookup_filter (s : FS) (f : Pos → Bool) (q : Pos) (h : f q = true) :
    lookup (s.filter (fun e => f e.1)) q = lookup s q := by
  unfold lookup
  split_ifs
  · rfl
  · rw [find_filter, if_pos h]

theorem lookup_filter_none (s : FS) (f : Pos → Bool) (q : Pos) (hq : q ≠ [])
    (h : f q = false) : lookup (s.filter (fun e => f e.1)) q = none := by
  rw [lookup_of_ne_nil _ hq, find_filter]
  simp [h]

theorem lookup_mem {s : FS} {q : Pos} {b : Bool} (hq : q ≠ []) (h : lookup s q = some b) :
    (q, b) ∈ s := by
  rw [lookup_of_ne_nil _ hq] at h
  exact find_some_mem h

theorem mem_lookup {s : FS} {q : Pos} {b : Bool} (hwf : WF s) (h : (q, b) ∈ s) :
    lookup s q = some b := by
  have hq : q ≠ [] := (hwf.2 _ h).1
  rw [lookup_of_ne_nil _ hq]
  exact mem_find hwf.1 h

/-- In a well-formed tree every proper ancestor of a directory or of a listed
node is a directory. -/
theorem isDirAt_take {s : FS} (hwf : WF s) (q : Pos) (h : (lookup s q).isSome) (k : Nat)
    (hk : k < q.length) : isDirAt s (q.take k) = true := by
  induction q using List.reverseRecOn generalizing k with
  | nil => simp at hk
  | append_singleton q' a ih =>
    have hne : q' ++ [a] ≠ [] := by simp
    obtain ⟨b, hb⟩ := Option.isSome_iff_exists.1 h
    have hm := lookup_mem hne hb
    have hpar : isDirAt s q' = true := by
      have := (hwf.2 _ hm).2.2
      simpa using this
    rw [List.length_append, List.length_singleton] at hk
    rcases Nat.lt_succ_iff_lt_or_eq.1 hk with hlt | heq
    · rw [List.take_append_of_le_length (Nat.le_of_lt hlt)]
      refine ih ?_ k hlt
      unfold isDirAt at hpar
      simp at hpar
      rw [hpar]
      rfl
    · rw [heq, List.take_left']
      · exact hpar
      · rfl

theorem isDirAt_of_prefix {s : FS} (hwf : WF s) {p q : Pos} (h : (lookup s q).isSome)
    (hp : p <+: q) (hne : p ≠ q) : isDirAt s p = true := by
  obtain ⟨t, rfl⟩ := hp
  have hlen : p.length < (p ++ t).length := by
    cases t with
    | nil => simp at hne
    | cons a t' => simp
  have := isDirAt_take hwf (p ++ t) h p.length hlen
  simpa using this

/-- Removing a set of positions that is closed under extension keeps the tree
well-formed. -/
theorem WF_filter {s : FS} (hwf : WF s) (f : Pos → Bool)
    (hup : ∀ k x, f k = false → f (k ++ [x]) = false) :
    WF (s.filter (fun e => f e.1)) := by
  refine ⟨?_, ?_⟩
  · exact List.Nodup.sublist ((List.filter_sublist s).map Prod.fst) hwf.1
  · intro e he
    obtain ⟨hes, hfe⟩ := List.mem_filter.1 he
    obtain ⟨h1, h2, h3⟩ := hwf.2 e hes
    refine ⟨h1, h2, ?_⟩
    unfold isDirAt at h3 ⊢
    have hpar : f e.1.dropLast = true := by
      by_contra hc
      have hc' : f e.1.dropLast = false := by simpa using hc
      have := hup e.1.dropLast (e.1.getLast h1) hc'
      rw [List.dropLast_append_getLast h1] at this
      rw [this] at hfe
      cases hfe
    rw [lookup_filter _ _ _ hpar]
    exact h3

theorem entryIn_some {q : Pos} {e : Pos × Bool} {x : DirEntry} (h : entryIn q e = some x) :
    e = (q ++ [x.name], x.isDir) := by
  unfold entryIn at h
  cases hl : e.1.getLast? with
  | none => rw [hl] at h; cases h
  | some n =>
    rw [hl] at h
    simp only at h
    split_ifs at h with hq
    have hx : x = ⟨n, e.2⟩ := by simpa using h.symm
    subst hx
    have := List.dropLast_append_getLast? n (by rw [hl]; exact rfl)
    rw [hq] at this
    simp only
    rw [this]

theorem entryIn_child (q : Pos) (n : String) (b : Bool) :
    entryIn q (q ++ [n], b) = some ⟨n, b⟩ := by
  unfold entryIn
  simp

theorem mem_children {s : FS} {q : Pos} {x : DirEntry} :
    x ∈ children s q ↔ (q ++ [x.name], x.isDir) ∈ s := by
  unfold children
  rw [(List.perm_insertionSort nameLE _).mem_iff, List.mem_filterMap]
  constructor
  · rintro ⟨e, he, hx⟩
    rw [← entryIn_some hx]
    exact he
  · intro h
    exact ⟨_, h, entryIn_child q x.name x.isDir⟩

theorem children_nodup {s : FS} (hwf : WF s) (q : Pos) :
    ((children s q).map DirEntry.name).Nodup := by
  unfold children
  have hp := (List.perm_insertionSort nameLE (s.filterMap (entryIn q))).map DirEntry.name
  rw [hp.nodup_iff]
  have hn : (s.filterMap (entryIn q)).Nodup := by
    refine List.Nodup.filterMap ?_ (List.Nodup.of_map Prod.fst hwf.1)
    intro a a' b hb hb'
    rw [entryIn_some (Option.mem_def.1 hb), entryIn_some (Option.mem_def.1 hb')]
  refine List.Nodup.map_on ?_ hn
  intro x hx y hy hxy
  obtain ⟨e, he, hex⟩ := List.mem_filterMap.1 hx
  obtain ⟨e', he', hey⟩ := List.mem_filterMap.1 hy
  have h1 := entryIn_some hex
  have h2 := entryIn_some hey
  have hk : e.1 = e'.1 := by rw [h1, h2, hxy]
  have hb1 := mem_find hwf.1 (show (e.1, e.2) ∈ s from he)
  have hb2 := mem_find hwf.1 (show (e'.1, e'.2) ∈ s from he')
  rw [hk, hb2] at hb1
  have hd : x.isDir = y.isDir := by
    have e1 : e.2 = x.isDir := by rw [h1]
    have e2 : e'.2 = y.isDir := by rw [h2]
    rw [← e1, ← e2]
    exact (Option.some.inj hb1).symm
  cases x; cases y
  simp_all

end Tree

/-! ## Resolving cleaned paths in the tree -/

namespace path

open Tree (ValidName)

/-- The elements `render` writes, when there is at least one ordinary element. -/
theorem components_render (r : Bool) (st : Lex) (hv : ∀ n ∈ st.names, ValidName n)
    (hne : st.names ≠ []) :
    components (render r st) =
      (if r = true then [""] else List.replicate st.ups "..") ++ st.names.reverse := by
  obtain ⟨u, names⟩ := st
  have hvr : ∀ n ∈ names.reverse, ValidName n := fun n hn => hv n (List.mem_reverse.1 hn)
  have hrev : names.reverse ≠ [] := fun e => hne (List.reverse_eq_nil_iff.1 e)
  cases r with
  | true =>
    have hrender : render true ⟨u, names⟩ = "/" ++ joinSlash names.reverse := by
      simp [render]
    rw [hrender, components_slash_append,
      components_joinSlash _ hrev (fun c hc => (hvr c hc).2.2.2)]
    simp
  | false =>
    cases hcs : List.replicate u ".." ++ names.reverse with
    | nil =>
      have := List.append_eq_nil.1 hcs
      exact absurd this.2 hrev
    | cons c rest =>
      have hrender : render false ⟨u, names⟩ = joinSlash (c :: rest) := by
        simp only [render]
        rw [hcs]
        simp
      have hall : ∀ x ∈ c :: rest, '/' ∉ x.data := by
        intro x hx
        rw [← hcs] at hx
        rcases List.mem_append.1 hx with h | h
        · rw [List.eq_of_mem_replicate h]
          decide
        · exact (hvr x h).2.2.2
      rw [hrender, components_joinSlash _ (by simp) hall, ← hcs]
      simp

/-- `path.Join` of a directory and a valid name, as written by `render`. -/
theorem Join_render (d n : String) (hn : ValidName n) :
    ∃ r, Join [d, n] = render r ⟨(lexical d).ups, n :: (lexical d).names⟩ := by
  by_cases hd : d = ""
  · subst hd
    have hj : Join ["", n] = Clean n := by
      simp [Join, hn.1, joinSlash]
    refine ⟨isRooted n, ?_⟩
    rw [hj, Clean_eq n hn.1, (lexical_name n hn).2]
    have h0 : lexical "" = ⟨0, []⟩ := by decide
    rw [h0]
  · have hj : Join [d, n] = Clean (d ++ "/" ++ n) := by
      simp [Join, hn.1, hd, joinSlash]
    have hne : d ++ "/" ++ n ≠ "" := by
      intro e
      have := congrArg String.length e
      simp at this
      exact absurd this.1.2 (by decide)
    refine ⟨isRooted (d ++ "/" ++ n), ?_⟩
    rw [hj, Clean_eq _ hne, (lexical_append_name d n hd hn).2]

theorem parts_eq_names (p : String) :
    parts p = ((components p).foldl (cleanStep true) ⟨0, []⟩).names.reverse := by
  unfold parts lexical
  rw [foldl_names_indep (isRooted p) true _ ⟨0, []⟩ ⟨0, []⟩ rfl]

end path

namespace Tree

theorem walk_names (s : FS) (cs : List String) (cur q : List String)
    (h : walk s cs cur = some q) : q = (cs.foldl (path.cleanStep true) ⟨0, cur⟩).names := by
  induction cs generalizing cur with
  | nil =>
    simp [walk] at h
    simp [h]
  | cons c rest ih =>
    unfold walk at h
    split_ifs at h with hd
    rw [ih _ h, List.foldl_cons]
    exact path.foldl_names_indep true true rest _ _ rfl

/-- Where a path resolves to does not depend on the tree: it is the position
given by the elements of the cleaned path. -/
theorem resolve_parts {s : FS} {p : String} {q : Pos} (h : resolve s p = some q) :
    q = path.parts p := by
  unfold resolve at h
  split_ifs at h with hp
  cases hw : walk s (path.components p) [] with
  | none => rw [hw] at h; cases h
  | some q' =>
    rw [hw] at h
    simp at h
    rw [← h, walk_names s _ _ _ hw, path.parts_eq_names]

theorem walk_cons (s : FS) (c : String) (cs cur : List String) :
    walk s (c :: cs) cur =
      if isDirAt s cur.reverse then walk s cs (path.cleanStep true ⟨0, cur⟩ c).names
      else none := by
  rw [walk]

theorem not_prefix_child (q : Pos) (n : String) : ¬ (q ++ [n] <+: q) := by
  intro h
  have := h.length_le
  simp at this

theorem child_prefix_child {q : Pos} {n m : String} (h : q ++ [n] <+: q ++ [m]) : n = m := by
  have := h.eq_of_length (by simp)
  simpa using this

theorem strictlyBelow_up (c k : Pos) (x : String) (h : (!strictlyBelow c k) = false) :
    (!strictlyBelow c (k ++ [x])) = false := by
  simp only [strictlyBelow, Bool.not_eq_false', decide_eq_true_eq] at h ⊢
  refine ⟨h.1.trans (List.prefix_append k [x]), ?_⟩
  intro e
  have := h.1.length_le
  rw [← e] at this
  simp at this

theorem under_up (c k : Pos) (x : String) (h : (!under c k) = false) :
    (!under c (k ++ [x])) = false := by
  simp only [under, Bool.not_eq_false', decide_eq_true_eq] at h ⊢
  exact h.trans (List.prefix_append k [x])

theorem WF_withoutBelow {s : FS} (hwf : WF s) (c : Pos) : WF (withoutBelow s c) :=
  WF_filter hwf (fun k => !strictlyBelow c k) (strictlyBelow_up c)

theorem WF_without_under {s : FS} (hwf : WF s) (c : Pos) :
    WF (s.filter (fun e => !under c e.1)) :=
  WF_filter hwf (fun k => !under c k) (under_up c)

/-- Removing first everything strictly below `c` and then `c` itself removes
everything at or below `c`. -/
theorem withoutBelow_filter (s : FS) (c : Pos) :
    (withoutBelow s c).filter (fun e => decide (e.1 ≠ c)) =
      s.filter (fun e => !under c e.1) := by
  unfold withoutBelow
  rw [List.filter_filter]
  apply List.filter_congr
  intro e _
  simp only [strictlyBelow, under]
  by_cases h1 : c <+: e.1 <;> by_cases h2 : e.1 = c <;> simp [h1, h2]

/-- In a well-formed tree nothing lies below a non-directory. -/
theorem hasBelow_file {s : FS} (hwf : WF s) {c : Pos} (hl : lookup s c = some false) :
    hasBelow s c = false := by
  unfold hasBelow
  rw [List.any_eq_false]
  intro e he
  simp only [strictlyBelow, decide_eq_true_eq, not_and, not_not]
  intro hp
  by_contra hne
  have hsome : (lookup s e.1).isSome := by
    rw [mem_lookup hwf (show (e.1, e.2) ∈ s from he)]
    rfl
  have := isDirAt_of_prefix hwf hsome hp (Ne.symm hne)
  unfold isDirAt at this
  simp at this
  rw [this] at hl
  cases hl

theorem filter_ne_file {s : FS} (hwf : WF s) {c : Pos} (hl : lookup s c = some false) :
    s.filter (fun e => decide (e.1 ≠ c)) = s.filter (fun e => !under c e.1) := by
  have hb := hasBelow_file hwf hl
  unfold hasBelow at hb
  rw [List.any_eq_false] at hb
  apply List.filter_congr
  intro e he
  have := hb e he
  simp only [strictlyBelow, decide_eq_true_eq, not_and, not_not] at this
  simp only [under]
  by_cases h1 : c <+: e.1
  · simp [h1, this h1]
  · have : e.1 ≠ c := by
      rintro rfl
      exact h1 (List.prefix_refl _)
    simp [h1, this]

theorem hasBelow_withoutBelow (s : FS) (c : Pos) : hasBelow (withoutBelow s c) c = false := by
  unfold hasBelow withoutBelow
  rw [List.any_eq_false]
  intro e he
  have := (List.mem_filter.1 he).2
  simpa using this

theorem lookup_withoutBelow (s : FS) (c k : Pos) (h : strictlyBelow c k = false) :
    lookup (withoutBelow s c) k = lookup s k :=
  lookup_filter s (fun k => !strictlyBelow c k) k (by simp [h])

theorem lookup_without_under (s : FS) (c k : Pos) (h : under c k = false) :
    lookup (s.filter (fun e => !under c e.1)) k = lookup s k :=
  lookup_filter s (fun k => !under c k) k (by simp [h])

theorem strictlyBelow_self (c : Pos) : strictlyBelow c c = false := by
  simp [strictlyBelow]

theorem strictlyBelow_parent (q : Pos) (n : String) : strictlyBelow (q ++ [n]) q = false := by
  simp only [strictlyBelow, decide_eq_false_iff_not, not_and, not_not]
  intro h
  exact absurd h (not_prefix_child q n)

theorem under_parent (q : Pos) (n : String) : under (q ++ [n]) q = false := by
  simp only [under, decide_eq_false_iff_not]
  exact not_prefix_child q n

end Tree

/-! ## The entries of a directory and the nodes below it -/

namespace Tree

theorem fileSys_remove (deny : FsOp → Option GoError) :
    (fileSys deny).remove = remove deny := rfl

theorem fileSys_readDir (deny : FsOp → Option GoError) :
    (fileSys deny).readDir = readDir deny := rfl

theorem any_children_under {s : FS} (hwf : WF s) (q : Pos) {e : Pos × Bool} (he : e ∈ s) :
    (children s q).any (fun x => under (q ++ [x.name]) e.1) = strictlyBelow q e.1 := by
  rw [Bool.eq_iff_iff, List.any_eq_true]
  simp only [under, strictlyBelow, decide_eq_true_eq]
  constructor
  · rintro ⟨x, _, hp⟩
    refine ⟨(List.prefix_append q [x.name]).trans hp, ?_⟩
    intro heq
    rw [heq] at hp
    exact not_prefix_child q x.name hp
  · rintro ⟨⟨t, ht⟩, hne⟩
    cases t with
    | nil => simp at ht; exact absurd ht.symm hne
    | cons a t' =>
      have hpre : q ++ [a] <+: e.1 := ⟨t', by rw [← ht]; simp⟩
      have hsome : (lookup s e.1).isSome := by
        rw [mem_lookup hwf (show (e.1, e.2) ∈ s from he)]
        rfl
      have hc : ∃ b, (q ++ [a], b) ∈ s := by
        by_cases heq : q ++ [a] = e.1
        · exact ⟨e.2, by rw [heq]; exact he⟩
        · have := isDirAt_of_prefix hwf hsome hpre heq
          unfold isDirAt at this
          simp at this
          exact ⟨true, lookup_mem (by simp) this⟩
      obtain ⟨b, hb⟩ := hc
      exact ⟨⟨a, b⟩, mem_children.2 hb, hpre⟩

theorem length_le_depth {s : FS} {e : Pos × Bool} (he : e ∈ s) : e.1.length ≤ depth s := by
  unfold depth
  induction s with
  | nil => cases he
  | cons a rest ih =>
    simp only [List.map_cons, List.foldr_cons]
    rcases List.mem_cons.1 he with rfl | h
    · exact Nat.le_max_left _ _
    · exact (ih h).trans (Nat.le_max_right _ _)

end Tree

/-! ## Path resolution with symbolic links -/

namespace Linked

open Tree (FS Pos lookup isDirAt)

variable (links : Links) (s : FS) (follow : Bool)
  (expand : List String → List String → Option (List String))

theorem walkWith_nil (cur : List String) :
    walkWith links s follow expand [] cur = some cur := by
  rw [walkWith]

theorem walkWith_notDir (c : String) (cs cur : List String)
    (hd : isDirAt s cur.reverse = false) :
    walkWith links s follow expand (c :: cs) cur = none := by
  rw [walkWith, if_neg (by simp [hd])]

theorem walkWith_skip (c : String) (cs cur : List String)
    (hd : isDirAt s cur.reverse = true) (hc : c = "" ∨ c = "." ∨ c = "..") :
    walkWith links s follow expand (c :: cs) cur =
      walkWith links s follow expand cs (path.cleanStep true ⟨0, cur⟩ c).names := by
  rw [walkWith, if_pos hd, if_pos hc]

theorem walkWith_name (c : String) (cs cur : List String)
    (hd : isDirAt s cur.reverse = true) (hc : ¬ (c = "" ∨ c = "." ∨ c = ".."))
    (ht : target links s (c :: cur).reverse = none) :
    walkWith links s follow expand (c :: cs) cur =
      walkWith links s follow expand cs (c :: cur) := by
  rw [walkWith, if_pos hd, if_neg hc, ht]

theorem walkWith_last (c : String) (cs cur : List String)
    (hd : isDirAt s cur.reverse = true) (hc : ¬ (c = "" ∨ c = "." ∨ c = ".."))
    {t : String} (ht : target links s (c :: cur).reverse = some t)
    (hl : cs = [] ∧ follow = false) :
    walkWith links s follow expand (c :: cs) cur = some (c :: cur) := by
  rw [walkWith, if_pos hd, if_neg hc, ht]
  simp only
  rw [if_pos hl]

theorem walkWith_link (c : String) (cs cur : List String)
    (hd : isDirAt s cur.reverse = true) (hc : ¬ (c = "" ∨ c = "." ∨ c = ".."))
    {t : String} (ht : target links s (c :: cur).reverse = some t)
    (hl : ¬ (cs = [] ∧ follow = false)) :
    walkWith links s follow expand (c :: cs) cur =
      if t = "" then none
      else expand (path.components t ++ cs) (if path.isRooted t then [] else cur) := by
  rw [walkWith, if_pos hd, if_neg hc, ht]
  simp only
  rw [if_neg hl]

/-- A successful step starts in a directory. -/
theorem walkWith_cons_isDir {c : String} {cs cur r : List String}
    (h : walkWith links s follow expand (c :: cs) cur = some r) :
    isDirAt s cur.reverse = true := by
  rcases Bool.eq_false_or_eq_true (isDirAt s cur.reverse) with hd | hd
  · exact hd
  · rw [walkWith_notDir links s follow expand c cs cur hd] at h
    cases h

theorem walk_zero :
    walk links s follow 0 = walkWith links s follow (fun _ _ => none) := by
  rw [walk]

theorem walk_succ (budget : Nat) :
    walk links s follow (budget + 1) =
      walkWith links s follow (walk links s follow budget) := by
  rw [walk]

theorem isDirAt_root : isDirAt s ([] : List String).reverse = true := by
  simp [isDirAt, lookup]

/-- An empty element at the start of a path stays at the root. -/
theorem walk_skip (budget : Nat) (rest : List String) :
    walk links s follow budget ("" :: rest) [] = walk links s follow budget rest [] := by
  have hc : (path.cleanStep true ⟨0, []⟩ "").names = [] := by
    rw [path.cleanStep_skip _ _ _ (Or.inl rfl)]
  cases budget with
  | zero =>
    rw [walk_zero, walkWith_skip _ _ _ _ _ _ _ (isDirAt_root s) (Or.inl rfl), hc]
  | succ b =>
    rw [walk_succ, walkWith_skip _ _ _ _ _ _ _ (isDirAt_root s) (Or.inl rfl), hc]

/-! ### One more name at the end of a path -/

/-- Resolving a path and then looking up one more name in the directory
reached is resolving the longer path. -/
theorem walkWith_append (f : Bool) (n : String) (hn : ¬ (n = "" ∨ n = "." ∨ n = ".."))
    (r : List String) (hr : isDirAt s r.reverse = true)
    (hf : f = false ∨ target links s (n :: r).reverse = none)
    (ex ex' : List String → List String → Option (List String))
    (hE : ∀ cs cur, ex cs cur = some r → ex' (cs ++ [n]) cur = some (n :: r)) :
    ∀ cs cur, walkWith links s true ex cs cur = some r →
      walkWith links s f ex' (cs ++ [n]) cur = some (n :: r) := by
  intro cs
  induction cs with
  | nil =>
    intro cur h
    rw [walkWith_nil] at h
    cases h
    rw [List.nil_append]
    cases ht : target links s (n :: r).reverse with
    | none =>
      rw [walkWith_name _ _ _ _ _ _ _ hr hn ht, walkWith_nil]
    | some t =>
      rcases hf with hf | hf
      · rw [walkWith_last _ _ _ _ _ _ _ hr hn ht ⟨rfl, hf⟩]
      · rw [hf] at ht
        cases ht
  | cons c cs ih =>
    intro cur h
    have hd := walkWith_cons_isDir _ _ _ _ h
    rw [List.cons_append]
    by_cases hc : c = "" ∨ c = "." ∨ c = ".."
    · rw [walkWith_skip _ _ _ _ _ _ _ hd hc] at h
      rw [walkWith_skip _ _ _ _ _ _ _ hd hc]
      exact ih _ h
    · cases ht : target links s (c :: cur).reverse with
      | none =>
        rw [walkWith_name _ _ _ _ _ _ _ hd hc ht] at h
        rw [walkWith_name _ _ _ _ _ _ _ hd hc ht]
        exact ih _ h
      | some t =>
        rw [walkWith_link _ _ _ _ _ _ _ hd hc ht (by simp)] at h
        rw [walkWith_link _ _ _ _ _ _ _ hd hc ht (by simp)]
        by_cases ht0 : t = ""
        · rw [if_pos ht0] at h
          cases h
        · rw [if_neg ht0] at h
          rw [if_neg ht0, ← List.append_assoc]
          exact hE _ _ h

theorem walk_append (f : Bool) (n : String) (hn : ¬ (n = "" ∨ n = "." ∨ n = ".."))
    (r : List String) (hr : isDirAt s r.reverse = true)
    (hf : f = false ∨ target links s (n :: r).reverse = none) (budget : Nat) :
    ∀ cs cur, walk links s true budget cs cur = some r →
      walk links s f budget (cs ++ [n]) cur = some (n :: r) := by
  induction budget with
  | zero =>
    rw [walk_zero, walk_zero]
    exact walkWith_append links s f n hn r hr hf _ _ (fun _ _ h => by cases h)
  | succ b ih =>
    rw [walk_succ, walk_succ]
    exact walkWith_append links s f n hn r hr hf _ _ ih

/-! ### Dropping the elements that stay in place -/

/-- Leaving out empty elements and `.` elements before the last element of a
path does not change where it resolves to. -/
theorem walkWith_drop (n : String)
    (ex : List String → List String → Option (List String))
    (hE : ∀ pre1 pre2 cur r, ex (pre1 ++ pre2 ++ [n]) cur = some r →
      ex (pre1 ++ pre2.filter (fun c => decide (c ≠ "" ∧ c ≠ ".")) ++ [n]) cur = some r) :
    ∀ pre1 pre2 cur r, walkWith links s follow ex (pre1 ++ pre2 ++ [n]) cur = some r →
      walkWith links s follow ex
        (pre1 ++ pre2.filter (fun c => decide (c ≠ "" ∧ c ≠ ".")) ++ [n]) cur = some r := by
  intro pre1
  induction pre1 with
  | nil =>
    intro pre2
    induction pre2 with
    | nil =>
      intro cur r h
      exact h
    | cons c pre2 ih =>
      intro cur r h
      simp only [List.nil_append, List.cons_append] at h ih ⊢
      have hd := walkWith_cons_isDir _ _ _ _ h
      by_cases hdrop : c = "" ∨ c = "."
      · have hc : c = "" ∨ c = "." ∨ c = ".." := by
          rcases hdrop with h1 | h1
          · exact Or.inl h1
          · exact Or.inr (Or.inl h1)
        rw [walkWith_skip _ _ _ _ _ _ _ hd hc, path.cleanStep_skip _ _ _ hdrop] at h
        have hfil : (c :: pre2).filter (fun c => decide (c ≠ "" ∧ c ≠ ".")) =
            pre2.filter (fun c => decide (c ≠ "" ∧ c ≠ ".")) := by
          rw [List.filter_cons_of_neg]
          rw [decide_eq_true_eq]
          rintro ⟨h1, h2⟩
          rcases hdrop with h | h
          · exact h1 h
          · exact h2 h
        rw [hfil]
        exact ih _ _ h
      · have hfil : (c :: pre2).filter (fun c => decide (c ≠ "" ∧ c ≠ ".")) =
            c :: pre2.filter (fun c => decide (c ≠ "" ∧ c ≠ ".")) := by
          rw [List.filter_cons_of_pos]
          rw [decide_eq_true_eq]
          exact ⟨fun h => hdrop (Or.inl h), fun h => hdrop (Or.inr h)⟩
        rw [hfil, List.cons_append]
        by_cases hc : c = "" ∨ c = "." ∨ c = ".."
        · rw [walkWith_skip _ _ _ _ _ _ _ hd hc] at h
          rw [walkWith_skip _ _ _ _ _ _ _ hd hc]
          exact ih _ _ h
        · cases ht : target links s (c :: cur).reverse with
          | none =>
            rw [walkWith_name _ _ _ _ _ _ _ hd hc ht] at h
            rw [walkWith_name _ _ _ _ _ _ _ hd hc ht]
            exact ih _ _ h
          | some t =>
            rw [walkWith_link _ _ _ _ _ _ _ hd hc ht (by simp)] at h
            rw [walkWith_link _ _ _ _ _ _ _ hd hc ht (by simp)]
            by_cases ht0 : t = ""
            · rw [if_pos ht0] at h
              cases h
            · rw [if_neg ht0] at h
              rw [if_neg ht0, ← List.append_assoc]
              rw [← List.append_assoc] at h
              exact hE _ _ _ _ h
  | cons c pre1 ih =>
    intro pre2 cur r h
    simp only [List.cons_append] at h ⊢
    have hd := walkWith_cons_isDir _ _ _ _ h
    by_cases hc : c = "" ∨ c = "." ∨ c = ".."
    · rw [walkWith_skip _ _ _ _ _ _ _ hd hc] at h
      rw [walkWith_skip _ _ _ _ _ _ _ hd hc]
      exact ih _ _ _ h
    · cases ht : target links s (c :: cur).reverse with
      | none =>
        rw [walkWith_name _ _ _ _ _ _ _ hd hc ht] at h
        rw [walkWith_name _ _ _ _ _ _ _ hd hc ht]
        exact ih _ _ _ h
      | some t =>
        rw [walkWith_link _ _ _ _ _ _ _ hd hc ht (by simp)] at h
        rw [walkWith_link _ _ _ _ _ _ _ hd hc ht (by simp)]
        by_cases ht0 : t = ""
        · rw [if_pos ht0] at h
          cases h
        · rw [if_neg ht0] at h
          rw [if_neg ht0]
          have e1 : path.components t ++ (pre1 ++ pre2 ++ [n]) =
              (path.components t ++ pre1) ++ pre2 ++ [n] := by simp
          have e2 : path.components t ++
              (pre1 ++ pre2.filter (fun c => decide (c ≠ "" ∧ c ≠ ".")) ++ [n]) =
              (path.components t ++ pre1) ++
                pre2.filter (fun c => decide (c ≠ "" ∧ c ≠ ".")) ++ [n] := by simp
          rw [e1] at h
          rw [e2]
          exact hE _ _ _ _ h

theorem walk_drop (n : String) (budget : Nat) :
    ∀ pre1 pre2 cur r, walk links s follow budget (pre1 ++ pre2 ++ [n]) cur = some r →
      walk links s follow budget
        (pre1 ++ pre2.filter (fun c => decide (c ≠ "" ∧ c ≠ ".")) ++ [n]) cur = some r := by
  induction budget with
  | zero =>
    rw [walk_zero]
    exact walkWith_drop links s follow n _ (fun _ _ _ _ h => by cases h)
  | succ b ih =>
    rw [walk_succ]
    exact walkWith_drop links s follow n _ ih

/-! ### Resolution in a larger tree -/

/-- When every node of `base` is a node of `s`, a path that resolves in
`base` to something that exists there resolves in `s` to the same position. -/
theorem walkWith_mono (base : FS)
    (hext : ∀ p b, lookup base p = some b → lookup s p = some b)
    (ex ex' : List String → List String → Option (List String))
    (hE : ∀ cs cur r, ex cs cur = some r → (lookup base r.reverse).isSome →
      ex' cs cur = some r) :
    ∀ cs cur r, walkWith links base follow ex cs cur = some r →
      (lookup base r.reverse).isSome → walkWith links s follow ex' cs cur = some r := by
  have hdir : ∀ p, isDirAt base p = true → isDirAt s p = true := by
    intro p hp
    unfold isDirAt at hp ⊢
    simp only [decide_eq_true_eq] at hp ⊢
    exact hext _ _ hp
  intro cs
  induction cs with
  | nil =>
    intro cur r h _
    rw [walkWith_nil] at h ⊢
    exact h
  | cons c cs ih =>
    intro cur r h hsome
    have hd := walkWith_cons_isDir _ _ _ _ h
    have hd' := hdir _ hd
    by_cases hc : c = "" ∨ c = "." ∨ c = ".."
    · rw [walkWith_skip _ _ _ _ _ _ _ hd hc] at h
      rw [walkWith_skip _ _ _ _ _ _ _ hd' hc]
      exact ih _ _ h hsome
    · cases ht : target links base (c :: cur).reverse with
      | some t =>
        have ht' : target links s (c :: cur).reverse = some t := by
          unfold target at ht ⊢
          by_cases hl : lookup base (c :: cur).reverse = some false
          · rw [if_pos hl] at ht
            rw [if_pos (hext _ _ hl)]
            exact ht
          · rw [if_neg hl] at ht
            cases ht
        by_cases hl : cs = [] ∧ follow = false
        · rw [walkWith_last _ _ _ _ _ _ _ hd hc ht hl] at h
          rw [walkWith_last _ _ _ _ _ _ _ hd' hc ht' hl]
          exact h
        · rw [walkWith_link _ _ _ _ _ _ _ hd hc ht hl] at h
          rw [walkWith_link _ _ _ _ _ _ _ hd' hc ht' hl]
          by_cases ht0 : t = ""
          · rw [if_pos ht0] at h
            cases h
          · rw [if_neg ht0] at h
            rw [if_neg ht0]
            exact hE _ _ _ h hsome
      | none =>
        rw [walkWith_name _ _ _ _ _ _ _ hd hc ht] at h
        -- something is at the new position in `base`
        have hnode : (lookup base (c :: cur).reverse).isSome := by
          cases cs with
          | nil =>
            rw [walkWith_nil] at h
            cases h
            exact hsome
          | cons c' cs' =>
            have := walkWith_cons_isDir _ _ _ _ h
            unfold isDirAt at this
            simp only [decide_eq_true_eq] at this
            rw [this]
            rfl
        have ht' : target links s (c :: cur).reverse = none := by
          unfold target at ht ⊢
          cases hb : lookup base (c :: cur).reverse with
          | none =>
            rw [hb] at hnode
            cases hnode
          | some b =>
            rw [hext _ _ hb]
            rw [hb] at ht
            exact ht
        rw [walkWith_name _ _ _ _ _ _ _ hd' hc ht']
        exact ih _ _ h hsome

theorem walk_mono (base : FS)
    (hext : ∀ p b, lookup base p = some b → lookup s p = some b) (budget : Nat) :
    ∀ cs cur r, walk links base follow budget cs cur = some r →
      (lookup base r.reverse).isSome → walk links s follow budget cs cur = some r := by
  induction budget with
  | zero =>
    rw [walk_zero, walk_zero]
    exact walkWith_mono links s follow base hext _ _ (fun _ _ _ h => by cases h)
  | succ b ih =>
    rw [walk_succ, walk_succ]
    exact walkWith_mono links s follow base hext _ _ ih

theorem resolve_walk {p : String} {q : Pos} (h : resolve links s follow p = some q) :
    p ≠ "" ∧ walk links s follow maxSymlinks (path.components p) [] = some q.reverse := by
  unfold resolve at h
  by_cases hp : p = ""
  · rw [if_pos hp] at h
    cases h
  · rw [if_neg hp] at h
    refine ⟨hp, ?_⟩
    cases hw : walk links s follow maxSymlinks (path.components p) [] with
    | none =>
      rw [hw] at h
      cases h
    | some r =>
      rw [hw] at h
      simp only [Option.map_some', Option.some.injEq] at h
      rw [← h, List.reverse_reverse]

theorem resolve_of_walk {p : String} {q : Pos} (hp : p ≠ "")
    (h : walk links s follow maxSymlinks (path.components p) [] = some q.reverse) :
    resolve links s follow p = some q := by
  unfold resolve
  rw [if_neg hp, h]
  simp

/-- When every node of `base` is a node of `s`, a path that denotes something
that exists in `base` denotes the same in `s`. -/
theorem resolve_mono (base : FS)
    (hext : ∀ p b, lookup base p = some b → lookup s p = some b) {p : String} {q : Pos}
    (h : resolve links base follow p = some q) (hq : (lookup base q).isSome) :
    resolve links s follow p = some q := by
  obtain ⟨hp, hw⟩ := resolve_walk links base follow h
  refine resolve_of_walk links s follow hp ?_
  exact walk_mono links s follow base hext _ _ _ _ hw (by rw [List.reverse_reverse]; exact hq)

theorem extends_lookup {base : FS} (hwf : Tree.WF s) (hsub : ∀ e ∈ base, e ∈ s) :
    ∀ p b, lookup base p = some b → lookup s p = some b := by
  intro p b h
  by_cases hp : p = []
  · subst hp
    rw [Tree.lookup_root] at h ⊢
    exact h
  · exact Tree.mem_lookup hwf (hsub _ (Tree.lookup_mem hp h))

end Linked

/-! ## Cleaned joins of paths without `..` -/

namespace path

/-- On a path without `..` elements the loop of `Clean` keeps the elements
other than the empty one and `.`, in order. -/
theorem foldl_cleanStep_plain (r : Bool) (cs : List String) (h : ".." ∉ cs) (st : Lex) :
    cs.foldl (cleanStep r) st =
      ⟨st.ups, (cs.filter (fun c => decide (c ≠ "" ∧ c ≠ "."))).reverse ++ st.names⟩ := by
  induction cs generalizing st with
  | nil => rfl
  | cons c rest ih =>
    have hrest : ".." ∉ rest := fun hm => h (List.mem_cons_of_mem _ hm)
    have hc : c ≠ ".." := fun e => h (by rw [e]; exact List.mem_cons_self _ _)
    rw [List.foldl_cons, ih hrest]
    by_cases hdrop : c = "" ∨ c = "."
    · rw [cleanStep_skip _ _ _ hdrop, List.filter_cons_of_neg]
      rw [decide_eq_true_eq]
      rintro ⟨h1, h2⟩
      rcases hdrop with h | h
      · exact h1 h
      · exact h2 h
    · have hstep : cleanStep r st c = ⟨st.ups, c :: st.names⟩ := by
        unfold cleanStep
        rw [if_neg hdrop, if_neg hc]
      rw [hstep, List.filter_cons_of_pos]
      · simp
      · rw [decide_eq_true_eq]
        exact ⟨fun h => hdrop (Or.inl h), fun h => hdrop (Or.inr h)⟩

/-- The elements of the cleaned join of a path without `..` elements and an
entry name. -/
theorem components_Join_plain (d n : String) (hd : ".." ∉ components d)
    (hn : Tree.ValidName n) :
    ∃ r : Bool, components (filepath.Join [d, n]) =
      (if r = true then [""] else []) ++
        (components d).filter (fun c => decide (c ≠ "" ∧ c ≠ ".")) ++ [n] := by
  rw [filepath.Join_eq_path_Join d n hn.1]
  obtain ⟨r, hj⟩ := Join_render d n hn
  have hv : ∀ x ∈ n :: (lexical d).names, Tree.ValidName x := by
    intro x hx
    rcases List.mem_cons.1 hx with rfl | hx
    · exact hn
    · exact lexical_names_valid d x hx
  have hc := components_render r ⟨(lexical d).ups, n :: (lexical d).names⟩ hv (by simp)
  rw [← hj] at hc
  have hl : lexical d =
      ⟨0, ((components d).filter (fun c => decide (c ≠ "" ∧ c ≠ "."))).reverse⟩ := by
    unfold lexical
    rw [foldl_cleanStep_plain _ _ hd]
    simp
  refine ⟨r, ?_⟩
  rw [hc, hl]
  simp

end path

namespace Linked

open Tree (FS Pos lookup isDirAt ValidName)

variable (links : Links) (s : FS)

/-- The cleaned join of a path without `..` elements that denotes a directory
and an entry name denotes that entry of the directory. -/
theorem resolve_Join (f : Bool) {d : String} {q : Pos} (hd : ".." ∉ path.components d)
    (hres : resolve links s true d = some q) (hdir : isDirAt s q = true) {n : String}
    (hn : ValidName n) (hf : f = false ∨ target links s (q ++ [n]) = none) :
    resolve links s f (filepath.Join [d, n]) = some (q ++ [n]) := by
  obtain ⟨_, hw⟩ := resolve_walk links s true hres
  have hn' : ¬ (n = "" ∨ n = "." ∨ n = "..") := by
    rintro (h | h | h)
    · exact hn.1 h
    · exact hn.2.1 h
    · exact hn.2.2.1 h
  have h1 := walk_append links s f n hn' q.reverse (by rw [List.reverse_reverse]; exact hdir)
    (by simpa using hf) maxSymlinks _ _ hw
  have h2 := walk_drop links s f n maxSymlinks [] (path.components d) [] _ h1
  simp only [List.nil_append] at h2
  obtain ⟨r, hc⟩ := path.components_Join_plain d n hd hn
  have hne : filepath.Join [d, n] ≠ "" := by
    intro e
    rw [e] at hc
    have h0 : path.components "" = [""] := by decide
    rw [h0] at hc
    have := congrArg List.getLast? hc
    simp at this
    exact hn.1 this.symm
  refine resolve_of_walk links s f hne ?_
  rw [hc]
  cases r with
  | true =>
    simp only [if_true, List.singleton_append, List.cons_append]
    rw [walk_skip]
    simp only [List.nil_append]
    rw [h2]
    simp
  | false =>
    simp only [Bool.false_eq_true, if_false, List.nil_append]
    rw [h2]
    simp

theorem dots_Join {d n : String} (hd : ".." ∉ path.components d) (hn : ValidName n) :
    ".." ∉ path.components (filepath.Join [d, n]) := by
  obtain ⟨r, hc⟩ := path.components_Join_plain d n hd hn
  rw [hc]
  intro hm
  rcases List.mem_append.1 hm with h | h
  · rcases List.mem_append.1 h with h | h
    · cases r <;> simp at h
    · exact hd (List.mem_filter.1 h).1
  · simp at h
    exact hn.2.2.1 h.symm

end Linked

/-! ## The cleanup on the directory tree, without faults -/

namespace Linked

open Tree (FS Pos lookup isDirAt ValidName WF children hasBelow withoutBelow strictlyBelow under
  noFaults)

variable (links : Links)

theorem fileSys_remove_linked (deny : Tree.FsOp → Option GoError) :
    (fileSys links deny).remove = remove links deny := rfl

theorem fileSys_readDir_linked (deny : Tree.FsOp → Option GoError) :
    (fileSys links deny).readDir = readDir links deny := rfl

theorem remove_noFaults {s : FS} {p : String} {q : Pos} {b : Bool}
    (hres : resolve links s false p = some q) (hq : q ≠ []) (hl : lookup s q = some b)
    (hb : hasBelow s q = false) :
    remove links noFaults s p = (none, s.filter (fun e => decide (e.1 ≠ q))) := by
  simp [remove, noFaults, hres, hq, hl, hb]

theorem readDir_noFaults {s : FS} {p : String} {q : Pos}
    (hres : resolve links s true p = some q) (hl : lookup s q = some true) :
    readDir links noFaults s p = (.ok (children s q), s) := by
  simp [readDir, noFaults, hres, hl]

theorem target_dir {s : FS} {q : Pos} (hl : lookup s q = some true) :
    target links s q = none := by
  unfold target
  rw [hl]
  simp

theorem not_strictlyBelow_child {q k : Pos} (n : String) (h : strictlyBelow q k = false) :
    under (q ++ [n]) k = false := by
  simp only [strictlyBelow, under, decide_eq_false_iff_not, not_and, not_not] at h ⊢
  intro hp
  have hq : q <+: k := (List.prefix_append q [n]).trans hp
  have := h hq
  rw [this] at hp
  exact Tree.not_prefix_child q n hp

theorem removeEntries_noFaults (fuel : Nat) (ih : CleansUp links fuel) (d : String) (q : Pos)
    (base : FS) (hdots : ".." ∉ path.components d)
    (hbres : resolve links base true d = some q) (hbdir : isDirAt base q = true)
    (hbq : ∀ e ∈ base, strictlyBelow q e.1 = false) (es : List DirEntry) :
    ∀ (s : FS) (tr : List Event), WF s → (∀ e ∈ base, e ∈ s) → isDirAt s q = true →
      (∀ x ∈ es, (q ++ [x.name], x.isDir) ∈ s) → (es.map DirEntry.name).Nodup →
      (∀ e ∈ s, q <+: e.1 → e.1.length < q.length + (fuel + 1)) →
      ∃ tr', removeEntries (fileSys links noFaults)
          (removeAllContents (fileSys links noFaults) fuel) d es ⟨s, tr⟩ =
        (Ret.nil, ⟨s.filter (fun e => !(es.any (fun x => under (q ++ [x.name]) e.1))), tr'⟩) := by
  have hbsome : (lookup base q).isSome := by
    unfold isDirAt at hbdir
    simp only [decide_eq_true_eq] at hbdir
    rw [hbdir]
    rfl
  induction es with
  | nil =>
    intro s tr _ _ _ _ _ _
    exact ⟨tr, by simp [removeEntries]⟩
  | cons x rest ihl =>
    intro s tr hwf hsub hdir hmem hnd hb
    have hx := hmem x (by simp)
    have hxname : ValidName x.name := (hwf.2 _ hx).2.1 x.name (by simp)
    have hlc := Tree.mem_lookup hwf hx
    have hcne : q ++ [x.name] ≠ [] := by simp
    rw [List.map_cons, List.nodup_cons] at hnd
    -- what happens after the entry `x` is dealt with
    have hfin : ∀ tr2, ∃ tr', removeEntries (fileSys links noFaults)
        (removeAllContents (fileSys links noFaults) fuel) d rest
          ⟨s.filter (fun e => !under (q ++ [x.name]) e.1), tr2⟩ =
        (Ret.nil, ⟨s.filter (fun e => !((x :: rest).any (fun y => under (q ++ [y.name]) e.1))),
          tr'⟩) := by
      intro tr2
      have hwf2 := Tree.WF_without_under hwf (q ++ [x.name])
      have hsub2 : ∀ e ∈ base, e ∈ s.filter (fun e => !under (q ++ [x.name]) e.1) := by
        intro e he
        refine List.mem_filter.2 ⟨hsub e he, ?_⟩
        rw [not_strictlyBelow_child x.name (hbq e he)]
        rfl
      have hdir2 : isDirAt (s.filter (fun e => !under (q ++ [x.name]) e.1)) q = true := by
        unfold isDirAt at hdir ⊢
        rw [Tree.lookup_without_under _ _ _ (Tree.under_parent q x.name)]
        exact hdir
      have hmem2 : ∀ y ∈ rest, (q ++ [y.name], y.isDir) ∈
          s.filter (fun e => !under (q ++ [x.name]) e.1) := by
        intro y hy
        refine List.mem_filter.2 ⟨hmem y (by simp [hy]), ?_⟩
        simp only [under, Bool.not_eq_true', decide_eq_false_iff_not]
        intro hp
        have := Tree.child_prefix_child hp
        exact hnd.1 (by rw [this]; exact List.mem_map_of_mem DirEntry.name hy)
      have hb2 : ∀ e ∈ s.filter (fun e => !under (q ++ [x.name]) e.1), q <+: e.1 →
          e.1.length < q.length + (fuel + 1) :=
        fun e he => hb e (List.mem_filter.1 he).1
      obtain ⟨tr3, h3⟩ := ihl _ tr2 hwf2 hsub2 hdir2 hmem2 hnd.2 hb2
      refine ⟨tr3, ?_⟩
      rw [h3, List.filter_filter]
      congr 2
      apply List.filter_congr
      intro e _
      simp only [List.any_cons]
      cases under (q ++ [x.name]) e.1 <;> simp
    rw [removeEntries]
    rcases Bool.eq_false_or_eq_true x.isDir with hd | hd
    · -- a directory: emptied by the recursive call, then removed
      rw [hd] at hx hlc
      have hdc : isDirAt s (q ++ [x.name]) = true := by simp [isDirAt, hlc]
      have hf : 0 < fuel := by
        have := hb _ hx (List.prefix_append q [x.name])
        simp at this
        omega
      have hbc : ∀ e ∈ s, q ++ [x.name] <+: e.1 →
          e.1.length < (q ++ [x.name]).length + fuel := by
        intro e he hp
        have := hb e he ((List.prefix_append q [x.name]).trans hp)
        simp
        omega
      -- the tree in which the directory `x` is empty
      have hwf1 := Tree.WF_withoutBelow hwf (q ++ [x.name])
      have hsub1 : ∀ e ∈ base, e ∈ withoutBelow s (q ++ [x.name]) := by
        intro e he
        refine List.mem_filter.2 ⟨hsub e he, ?_⟩
        have h1 := not_strictlyBelow_child x.name (hbq e he)
        simp only [under, decide_eq_false_iff_not] at h1
        simp only [strictlyBelow, Bool.not_eq_true', decide_eq_false_iff_not, not_and, not_not]
        intro hp
        exact absurd hp h1
      have hres1 : resolve links (withoutBelow s (q ++ [x.name])) true d = some q :=
        resolve_mono links _ true base (extends_lookup _ hwf1 hsub1) hbres hbsome
      have hdir1 : isDirAt (withoutBelow s (q ++ [x.name])) q = true := by
        unfold isDirAt at hdir ⊢
        rw [Tree.lookup_withoutBelow _ _ _ (Tree.strictlyBelow_parent q x.name)]
        exact hdir
      have hl1 : lookup (withoutBelow s (q ++ [x.name])) (q ++ [x.name]) = some true := by
        rw [Tree.lookup_withoutBelow _ _ _ (Tree.strictlyBelow_self _)]
        exact hlc
      have hresc := resolve_Join links _ true hdots hres1 hdir1 hxname
        (Or.inr (target_dir links hl1))
      obtain ⟨tr1, h1⟩ := ih s tr _ _ hwf (dots_Join hdots hxname) hresc hdc hbc hf
      have hres2 := resolve_Join links _ false hdots hres1 hdir1 hxname (Or.inl rfl)
      have hrm := remove_noFaults links hres2 hcne hl1 (Tree.hasBelow_withoutBelow s _)
      rw [Tree.withoutBelow_filter] at hrm
      rw [if_pos hd, h1]
      simp only [osRemove, fileSys_remove_linked, hrm]
      exact hfin _
    · -- a non-directory: removed
      rw [hd] at hx hlc
      have hres0 : resolve links s true d = some q :=
        resolve_mono links _ true base (extends_lookup _ hwf hsub) hbres hbsome
      have hresc := resolve_Join links _ false hdots hres0 hdir hxname (Or.inl rfl)
      have hrm := remove_noFaults links hresc hcne hlc (Tree.hasBelow_file hwf hlc)
      rw [Tree.filter_ne_file hwf hlc] at hrm
      rw [if_neg (by simp [hd])]
      simp only [osRemove, fileSys_remove_linked, hrm]
      exact hfin _

/-- Without faults, and with fuel beyond the depth of the tree below `q`, the
cleanup of a directory returns `nil` and leaves the tree without the nodes
strictly below `q`. -/
theorem cleansUp (fuel : Nat) : CleansUp links fuel := by
  induction fuel with
  | zero =>
    intro s tr d q _ _ _ _ _ h0
    exact absurd h0 (by simp)
  | succ n ih =>
    intro s tr d q hwf hdots hres hdir hb _
    have hl : lookup s q = some true := by
      unfold isDirAt at hdir
      simpa using hdir
    have hbl : lookup (withoutBelow s q) q = some true := by
      rw [Tree.lookup_withoutBelow _ _ _ (Tree.strictlyBelow_self q)]
      exact hl
    have hsub : ∀ e ∈ withoutBelow s q, e ∈ s := fun e he => (List.mem_filter.1 he).1
    have hbq : ∀ e ∈ withoutBelow s q, strictlyBelow q e.1 = false := by
      intro e he
      have := (List.mem_filter.1 he).2
      simpa using this
    obtain ⟨tr', h⟩ := removeEntries_noFaults links n ih d q (withoutBelow s q) hdots hres
      (by simp [isDirAt, hbl]) hbq (children s q) s (tr ++ [Event.readDir d none]) hwf hsub hdir
      (fun x hx => Tree.mem_children.1 hx) (Tree.children_nodup hwf q) hb
    have hres0 : resolve links s true d = some q :=
      resolve_mono links _ true _ (extends_lookup _ hwf hsub) hres (by rw [hbl]; rfl)
    refine ⟨tr', ?_⟩
    rw [removeAllContents]
    simp only [osReadDir, fileSys_readDir_linked, readDir_noFaults links hres0 hl, errorOf]
    rw [h]
    unfold withoutBelow
    congr 2
    apply List.filter_congr
    intro e he
    rw [Tree.any_children_under hwf q he]

/-- Without symbolic links paths are resolved as by `Tree.walk`. -/
theorem walkWith_nil_links (s : FS) (follow : Bool)
    (expand : List String → List String → Option (List String)) :
    ∀ cs cur, walkWith [] s follow expand cs cur = Tree.walk s cs cur := by
  intro cs
  induction cs with
  | nil =>
    intro cur
    rw [walkWith_nil, Tree.walk]
  | cons c cs ih =>
    intro cur
    rw [Tree.walk_cons]
    rcases Bool.eq_false_or_eq_true (isDirAt s cur.reverse) with hd | hd
    · rw [if_pos hd]
      by_cases hc : c = "" ∨ c = "." ∨ c = ".."
      · rw [walkWith_skip _ _ _ _ _ _ _ hd hc]
        exact ih _
      · have ht : target [] s (c :: cur).reverse = none := by
          unfold target targetOf
          simp
        rw [walkWith_name _ _ _ _ _ _ _ hd hc ht, ih]
        have hstep : path.cleanStep true ⟨0, cur⟩ c = ⟨0, c :: cur⟩ := by
          unfold path.cleanStep
          rw [if_neg (fun h => hc (h.elim Or.inl (fun h => Or.inr (Or.inl h)))),
            if_neg (fun h => hc (Or.inr (Or.inr h)))]
        rw [hstep]
    · rw [walkWith_notDir _ _ _ _ _ _ _ hd, if_neg (by simp [hd])]

theorem resolve_nil_links (s : FS) (follow : Bool) (p : String) :
    resolve [] s follow p = Tree.resolve s p := by
  unfold resolve Tree.resolve maxSymlinks
  rw [walk_succ, walkWith_nil_links]

/-- Without symbolic links the file system is the one of `Tree.fileSys`. -/
theorem fileSys_nil_links (deny : Tree.FsOp → Option GoError) :
    fileSys [] deny = Tree.fileSys deny := by
  unfold fileSys Tree.fileSys
  congr 1
  · funext s p
    unfold readDir Tree.readDir
    rw [resolve_nil_links]
  · funext s p
    unfold remove Tree.remove
    rw [resolve_nil_links]

end Linked

section Rel
variable {σ : Type}

/-- Any relation between the world before, the result and the world after
that holds for each single call and composes, holds for the loop. -/
theorem removeEntries_rel (fs : FileSys σ) (Q : World σ → Ret → World σ → Prop)
    (hnil : ∀ w, Q w Ret.nil w)
    (htrans : ∀ w w1 w2 r, Q w Ret.nil w1 → Q w1 r w2 → Q w r w2)
    (hrm_err : ∀ w p e, (osRemove fs w p).1 = some e → Q w (Ret.error e) (osRemove fs w p).2)
    (hrm_ok : ∀ w p, (osRemove fs w p).1 = none → Q w Ret.nil (osRemove fs w p).2)
    (recurse : World σ → String → Ret × World σ)
    (hrec : ∀ w p, Q w (recurse w p).1 (recurse w p).2)
    (d : String) (es : List DirEntry) (w : World σ) :
    Q w (removeEntries fs recurse d es w).1 (removeEntries fs recurse d es w).2 := by
  induction es generalizing w with
  | nil => exact hnil w
  | cons x rest ih =>
    rw [removeEntries]
    have hstep : ∀ w0, Q w Ret.nil w0 →
        Q w (match osRemove fs w0 (filepath.Join [d, x.name]) with
          | (some err, w2) => (Ret.error err, w2)
          | (none, w2) => removeEntries fs recurse d rest w2).1
          (match osRemove fs w0 (filepath.Join [d, x.name]) with
          | (some err, w2) => (Ret.error err, w2)
          | (none, w2) => removeEntries fs recurse d rest w2).2 := by
      intro w0 h0
      have he := hrm_err w0 (filepath.Join [d, x.name])
      have ho := hrm_ok w0 (filepath.Join [d, x.name])
      cases hr : osRemove fs w0 (filepath.Join [d, x.name]) with
      | mk e w2 =>
        rw [hr] at he ho
        cases e with
        | some err => exact htrans _ _ _ _ h0 (he err rfl)
        | none => exact htrans _ _ _ _ (htrans _ _ _ _ h0 (ho rfl)) (ih w2)
    rcases Bool.eq_false_or_eq_true x.isDir with hd | hd
    · rw [if_pos hd]
      have h1 := hrec w (filepath.Join [d, x.name])
      cases hr : recurse w (filepath.Join [d, x.name]) with
      | mk r1 w1 =>
        rw [hr] at h1
        cases r1 with
        | nil => exact hstep w1 h1
        | error e => exact h1
        | noFuel => exact h1
    · rw [if_neg (by simp [hd])]
      exact hstep w (hnil w)

theorem removeAllContents_rel (fs : FileSys σ) (Q : World σ → Ret → World σ → Prop)
    (hnil : ∀ w, Q w Ret.nil w) (hfuel : ∀ w, Q w Ret.noFuel w)
    (htrans : ∀ w w1 w2 r, Q w Ret.nil w1 → Q w1 r w2 → Q w r w2)
    (hrd_err : ∀ w p e, (osReadDir fs w p).1 = .error e →
      Q w (Ret.error e) (osReadDir fs w p).2)
    (hrd_ok : ∀ w p es, (osReadDir fs w p).1 = .ok es → Q w Ret.nil (osReadDir fs w p).2)
    (hrm_err : ∀ w p e, (osRemove fs w p).1 = some e → Q w (Ret.error e) (osRemove fs w p).2)
    (hrm_ok : ∀ w p, (osRemove fs w p).1 = none → Q w Ret.nil (osRemove fs w p).2)
    (fuel : Nat) (w : World σ) (d : String) :
    Q w (removeAllContents fs fuel w d).1 (removeAllContents fs fuel w d).2 := by
  induction fuel generalizing w d with
  | zero => exact hfuel w
  | succ n ih =>
    rw [removeAllContents]
    have he := hrd_err w d
    have ho := hrd_ok w d
    cases hr : osReadDir fs w d with
    | mk res w1 =>
      rw [hr] at he ho
      cases res with
      | error e => exact he e rfl
      | ok es =>
        exact htrans _ _ _ _ (ho es rfl)
          (removeEntries_rel fs Q hnil htrans hrm_err hrm_ok _ ih d es w1)

end Rel

namespace Tree

theorem readDir_cases (deny : FsOp → Option GoError) (s : FS) (p : String) :
    (readDir deny s p).2 = s ∧
      ∀ es, (readDir deny s p).1 = .ok es →
        ∃ q, resolve s p = some q ∧ lookup s q = some true ∧ es = children s q := by
  cases h1 : deny (FsOp.list p) with
  | some e => simp [readDir, h1]
  | none =>
    cases h2 : resolve s p with
    | none => simp [readDir, h1, h2]
    | some q =>
      cases h3 : lookup s q with
      | none => simp [readDir, h1, h2, h3]
      | some b =>
        cases b with
        | false => simp [readDir, h1, h2, h3]
        | true =>
          simp only [readDir, h1, h2, h3, true_and]
          intro es hes
          simp at hes
          exact ⟨q, rfl, h3, hes.symm⟩

theorem readDir_state (deny : FsOp → Option GoError) (s : FS) (p : String) :
    (readDir deny s p).2 = s :=
  (readDir_cases deny s p).1

theorem readDir_ok {deny : FsOp → Option GoError} {s : FS} {p : String} {es : List DirEntry}
    (h : (readDir deny s p).1 = .ok es) :
    ∃ q, resolve s p = some q ∧ lookup s q = some true ∧ es = children s q :=
  (readDir_cases deny s p).2 es h

theorem remove_cases (deny : FsOp → Option GoError) (s : FS) (p : String) :
    ((∃ e, (remove deny s p).1 = some e) ∧ (remove deny s p).2 = s) ∨
      ((remove deny s p).1 = none ∧ ∃ q, resolve s p = some q ∧ q ≠ [] ∧
        (remove deny s p).2 = s.filter (fun e => decide (e.1 ≠ q))) := by
  cases h1 : deny (FsOp.remove p) with
  | some e => simp [remove, h1]
  | none =>
    cases h2 : resolve s p with
    | none => simp [remove, h1, h2]
    | some q =>
      by_cases h0 : q = []
      · simp [remove, h1, h2, h0]
      · cases h3 : lookup s q with
        | none => simp [remove, h1, h2, h3, h0]
        | some b =>
          cases h4 : hasBelow s q with
          | true => simp [remove, h1, h2, h3, h0, h4]
          | false => simp [remove, h1, h2, h3, h0, h4]

theorem remove_err_state {deny : FsOp → Option GoError} {s : FS} {p : String} {e : GoError}
    (h : (remove deny s p).1 = some e) : (remove deny s p).2 = s := by
  rcases remove_cases deny s p with ⟨_, hs⟩ | ⟨hn, _⟩
  · exact hs
  · rw [hn] at h
    cases h

theorem remove_ok {deny : FsOp → Option GoError} {s : FS} {p : String}
    (h : (remove deny s p).1 = none) :
    ∃ q, resolve s p = some q ∧ q ≠ [] ∧
      (remove deny s p).2 = s.filter (fun e => decide (e.1 ≠ q)) := by
  rcases remove_cases deny s p with ⟨⟨e, he⟩, _⟩ | ⟨_, hq⟩
  · rw [he] at h
    cases h
  · exact hq

theorem remove_sublist (deny : FsOp → Option GoError) (s : FS) (p : String) :
    ((remove deny s p).2).Sublist s := by
  cases h : (remove deny s p).1 with
  | none =>
    obtain ⟨q, _, _, hs⟩ := remove_ok h
    rw [hs]
    exact List.filter_sublist s
  | some e =>
    rw [remove_err_state h]

theorem cleanupRel_nil (w : World FS) (r : Ret) (h : ∀ e, r ≠ Ret.error e) :
    CleanupRel w r w :=
  ⟨[], by simp, cleanupTrace_nil r h, List.Sublist.refl _, by simp⟩

theorem cleanupRel_trans (w w1 w2 : World FS) (r : Ret) (h1 : CleanupRel w Ret.nil w1)
    (h2 : CleanupRel w1 r w2) : CleanupRel w r w2 := by
  obtain ⟨e1, t1, c1, s1, r1⟩ := h1
  obtain ⟨e2, t2, c2, s2, r2⟩ := h2
  refine ⟨e1 ++ e2, by rw [t2, t1]; simp, cleanupTrace_append _ _ _ c1 c2, s2.trans s1, ?_⟩
  intro p hp
  rcases List.mem_append.1 hp with h | h
  · refine ⟨(r1 p h).1, fun hm => (r1 p h).2 ?_⟩
    exact (s2.map Prod.fst).subset hm
  · exact r2 p h

/-- The relation `CleanupRel` holds for every cleanup on the tree, whatever
fails and whatever the fuel. -/
theorem cleanupRel (deny : FsOp → Option GoError) (fuel : Nat) (w : World FS) (d : String) :
    CleanupRel w (removeAllContents (fileSys deny) fuel w d).1
      (removeAllContents (fileSys deny) fuel w d).2 := by
  apply removeAllContents_rel (fileSys deny) CleanupRel
  · exact fun w => cleanupRel_nil w _ (by simp)
  · exact fun w => cleanupRel_nil w _ (by simp)
  · exact cleanupRel_trans
  · intro w p e h
    simp only [osReadDir, fileSys_readDir] at h ⊢
    rw [h, readDir_state]
    exact ⟨[Event.readDir p (some e)], rfl, cleanupTrace_fail _ _ rfl rfl,
      List.Sublist.refl _, by simp⟩
  · intro w p es h
    simp only [osReadDir, fileSys_readDir] at h ⊢
    rw [h, readDir_state]
    exact ⟨[Event.readDir p none], rfl, cleanupTrace_single_ok _ rfl rfl,
      List.Sublist.refl _, by simp⟩
  · intro w p e h
    simp only [osRemove, fileSys_remove] at h ⊢
    rw [h, remove_err_state h]
    exact ⟨[Event.remove p (some e)], rfl, cleanupTrace_fail _ _ rfl rfl,
      List.Sublist.refl _, by simp⟩
  · intro w p h
    simp only [osRemove, fileSys_remove] at h ⊢
    obtain ⟨q, hq, hne, hs⟩ := remove_ok h
    rw [h, hs]
    refine ⟨[Event.remove p none], rfl, cleanupTrace_single_ok _ rfl rfl,
      List.filter_sublist _, ?_⟩
    intro p' hp'
    simp at hp'
    subst hp'
    rw [← resolve_parts hq]
    refine ⟨hne, ?_⟩
    intro hm
    obtain ⟨e, he, heq⟩ := List.mem_map.1 hm
    have := (List.mem_filter.1 he).2
    simp [heq] at this

theorem parts_filepath_Join (d n : String) (hn : ValidName n) :
    path.parts (filepath.Join [d, n]) = path.parts d ++ [n] := by
  rw [filepath.Join_eq_path_Join d n hn.1]
  exact (parts_Join d n hn).2

theorem removeEntries_returns (deny : FsOp → Option GoError) (fuel : Nat)
    (ih : Returns deny fuel) (s : FS) (hv : ∀ e ∈ s, ∀ n ∈ e.1, ValidName n) (d : String)
    (q : Pos) (hq : path.parts d = q)
    (hb : ∀ e ∈ s, q <+: e.1 → e.1.length < q.length + (fuel + 1)) (es : List DirEntry) :
    ∀ (s1 : FS) (tr1 : List Event), s1.Sublist s →
      (∀ x ∈ es, (q ++ [x.name], x.isDir) ∈ s) →
      (removeEntries (fileSys deny) (removeAllContents (fileSys deny) fuel) d es
        ⟨s1, tr1⟩).1 ≠ Ret.noFuel := by
  induction es with
  | nil =>
    intro s1 tr1 _ _
    simp [removeEntries]
  | cons x rest ihl =>
    intro s1 tr1 hsub hmem
    have hx := hmem x (by simp)
    have hxname : ValidName x.name := hv _ hx x.name (by simp)
    have hrest : ∀ y ∈ rest, (q ++ [y.name], y.isDir) ∈ s := fun y hy => hmem y (by simp [hy])
    have hcont : ∀ w2 : World FS, w2.st.Sublist s →
        (removeEntries (fileSys deny) (removeAllContents (fileSys deny) fuel) d rest w2).1 ≠
          Ret.noFuel :=
      fun w2 h => ihl w2.st w2.trace h hrest
    have hrmsub : ∀ w0 : World FS,
        ((osRemove (fileSys deny) w0 (filepath.Join [d, x.name])).2.st).Sublist w0.st :=
      fun w0 => remove_sublist deny w0.st _
    rw [removeEntries]
    rcases Bool.eq_false_or_eq_true x.isDir with hd | hd
    · rw [if_pos hd]
      have hf : 0 < fuel := by
        have := hb _ hx (List.prefix_append q [x.name])
        simp at this
        omega
      have h1 := ih s1 tr1 (filepath.Join [d, x.name])
        (fun e he => hv e (hsub.subset he))
        (by
          intro q' hq' e he hp
          have hq'' : q' = q ++ [x.name] := by
            rw [resolve_parts hq', parts_filepath_Join d x.name hxname, hq]
          subst hq''
          have := hb e (hsub.subset he) ((List.prefix_append q [x.name]).trans hp)
          simp
          omega) hf
      have hrel := cleanupRel deny fuel ⟨s1, tr1⟩ (filepath.Join [d, x.name])
      cases hr : removeAllContents (fileSys deny) fuel ⟨s1, tr1⟩ (filepath.Join [d, x.name]) with
      | mk r1 w1 =>
        rw [hr] at h1 hrel
        cases r1 with
        | nil =>
          obtain ⟨_, _, _, hs1, _⟩ := hrel
          have hs2 := hrmsub w1
          simp only
          cases hrm : osRemove (fileSys deny) w1 (filepath.Join [d, x.name]) with
          | mk e w2 =>
            rw [hrm] at hs2
            cases e with
            | some err => simp
            | none => exact hcont w2 ((hs2.trans hs1).trans hsub)
        | error e => simp
        | noFuel => exact absurd rfl h1
    · rw [if_neg (by simp [hd])]
      have hs2 := hrmsub ⟨s1, tr1⟩
      cases hrm : osRemove (fileSys deny) ⟨s1, tr1⟩ (filepath.Join [d, x.name]) with
      | mk e w2 =>
        rw [hrm] at hs2
        cases e with
        | some err => simp
        | none => exact hcont w2 (hs2.trans hsub)

theorem returns (deny : FsOp → Option GoError) (fuel : Nat) : Returns deny fuel := by
  induction fuel with
  | zero =>
    intro s tr d _ _ h0
    exact absurd h0 (by simp)
  | succ n ih =>
    intro s tr d hv hb _
    rw [removeAllContents]
    have hok := @readDir_ok deny s d
    have hst := readDir_state deny s d
    cases hr : osReadDir (fileSys deny) ⟨s, tr⟩ d with
    | mk res w1 =>
      have h1 : res = (readDir deny s d).1 := by
        have := congrArg (fun r => r.1) hr
        simpa [osReadDir, fileSys_readDir] using this.symm
      have h2 : w1.st = s := by
        have := congrArg (fun r => r.2.st) hr
        simp only [osReadDir, fileSys_readDir] at this
        rw [← this, hst]
      cases res with
      | error e => simp
      | ok es =>
        obtain ⟨q, hq, _, hes⟩ := hok h1.symm
        simp only
        have := removeEntries_returns deny n ih s hv d q (resolve_parts hq).symm (hb q hq) es
          w1.st w1.trace (by rw [h2]) (fun x hx => mem_children.1 (hes ▸ hx))
        exact this

end Tree

/-- C6. For every well-formed directory tree, whatever list and remove
operations fail, and for every fuel larger than the depth of the tree:
`removeAllContents` returns. It makes only list and remove calls. If it
returns `nil`, every call succeeded. If it returns an error, that error is
the one the last call failed with and every earlier call succeeded: the first
failing operation ends the cleanup, and its error is returned as it is. If
some call failed, an error is returned. Nothing is restored: every path
removed successfully is absent from the final tree, and whatever the final
tree holds the initial tree held too. -/
theorem removeAllContents_first_error (deny : Tree.FsOp → Option GoError) (s : Tree.FS)
    (tr : List Event) (dirPath : String) (fuel : Nat) (hwf : Tree.WF s)
    (hfuel : Tree.depth s < fuel) :
    (removeAllContents (Tree.fileSys deny) fuel ⟨s, tr⟩ dirPath).1 ≠ Ret.noFuel ∧
    ∃ evs, (removeAllContents (Tree.fileSys deny) fuel ⟨s, tr⟩ dirPath).2.trace = tr ++ evs ∧
      (∀ ev ∈ evs, ev.isCleanup = true) ∧
      ((removeAllContents (Tree.fileSys deny) fuel ⟨s, tr⟩ dirPath).1 = Ret.nil →
        ∀ ev ∈ evs, ev.error = none) ∧
      (∀ err, (removeAllContents (Tree.fileSys deny) fuel ⟨s, tr⟩ dirPath).1 = Ret.error err →
        ∃ pre last, evs = pre ++ [last] ∧ (∀ ev ∈ pre, ev.error = none) ∧
          last.error = some err) ∧
      ((∃ ev ∈ evs, ev.error ≠ none) →
        ∃ err, (removeAllContents (Tree.fileSys deny) fuel ⟨s, tr⟩ dirPath).1 = Ret.error err) ∧
      (∀ p, Event.remove p none ∈ evs →
        Tree.present (removeAllContents (Tree.fileSys deny) fuel ⟨s, tr⟩ dirPath).2.st p
          = false) ∧
      (∀ k b,
        Tree.lookup (removeAllContents (Tree.fileSys deny) fuel ⟨s, tr⟩ dirPath).2.st k = some b →
          Tree.lookup s k = some b) := by
  have hret : (removeAllContents (Tree.fileSys deny) fuel ⟨s, tr⟩ dirPath).1 ≠ Ret.noFuel := by
    apply Tree.returns deny fuel s tr dirPath (fun e he => (hwf.2 e he).2.1)
    · intro q _ e he _
      have := Tree.length_le_depth he
      omega
    · omega
  obtain ⟨evs, ht, hc, hsub, hrem⟩ := Tree.cleanupRel deny fuel ⟨s, tr⟩ dirPath
  refine ⟨hret, evs, ht, hc.1, ?_, ?_, ?_, ?_, ?_⟩
  · intro hnil
    have := hc.2
    rw [hnil] at this
    exact this
  · intro err herr
    have := hc.2
    rw [herr] at this
    exact this
  · rintro ⟨ev, hev, hne⟩
    cases hr : (removeAllContents (Tree.fileSys deny) fuel ⟨s, tr⟩ dirPath).1 with
    | nil =>
      have := hc.2
      rw [hr] at this
      exact absurd (this ev hev) hne
    | error e => exact ⟨e, rfl⟩
    | noFuel => exact absurd hr hret
  · intro p hp
    obtain ⟨h1, h2⟩ := hrem p hp
    unfold Tree.present
    cases hres : Tree.resolve
        (removeAllContents (Tree.fileSys deny) fuel ⟨s, tr⟩ dirPath).2.st p with
    | none => rfl
    | some q =>
      simp only
      have hq := Tree.resolve_parts hres
      rw [hq, Tree.lookup_of_ne_nil _ h1, Tree.find_none_of_not_mem h2]
      rfl
  · intro k b hk
    by_cases hk0 : k = []
    · subst hk0
      rw [Tree.lookup_root] at hk ⊢
      exact hk
    · exact Tree.mem_lookup hwf (hsub.subset (Tree.lookup_mem hk0 hk))

/-- C6 (witness). In the example tree, removing the copied directory
`www` is denied: the cleanup returns that error after emptying it, makes no
further call (the archive is never touched), and what it removed stays
removed. -/
theorem removeAllContents_first_error_witness :
    Tree.WF Tree.exampleTree ∧
      (removeAllContents (Tree.fileSys Tree.exampleDeny) 6 ⟨Tree.exampleTree, []⟩ "/tmp/bk").1
        ≠ Ret.noFuel ∧
      (removeAllContents (Tree.fileSys Tree.exampleDeny) 6 ⟨Tree.exampleTree, []⟩ "/tmp/bk").1
        = Ret.error "permission denied" ∧
      (removeAllContents (Tree.fileSys Tree.exampleDeny) 6 ⟨Tree.exampleTree, []⟩
          "/tmp/bk").2.trace =
        [Event.readDir "/tmp/bk" none,
         Event.readDir "/tmp/bk/20240102_030405" none,
         Event.remove "/tmp/bk/20240102_030405/shop.sql" none,
         Event.readDir "/tmp/bk/20240102_030405/www" none,
         Event.remove "/tmp/bk/20240102_030405/www/index.html" none,
         Event.remove "/tmp/bk/20240102_030405/www" (some "permission denied")] ∧
      (removeAllContents (Tree.fileSys Tree.exampleDeny) 6 ⟨Tree.exampleTree, []⟩
          "/tmp/bk").2.st =
        [(["tmp"], true), (["tmp", "bk"], true),
         (["tmp", "bk", "20240102_030405"], true),
         (["tmp", "bk", "20240102_030405", "www"], true),
         (["tmp", "bk", "20240102_030405.tar.gz"], false),
         (["etc"], true), (["etc", "passwd"], false)] :=
  ⟨by decide,
    (removeAllContents_first_error Tree.exampleDeny Tree.exampleTree [] "/tmp/bk" 6 (by decide)
      (by decide)).1, by decide, by decide, by decide⟩

end Dbk
